import Mathlib

/-!
# Verification of the Market_Analyzer incremental entity-resolution and
# synchronization engine

Shallow embedding of the batch ingestion core of `scripts/migrate_to_sqlite.py`
(`DatabaseMigrator`) together with the Google-jobs salary parser of
`src/market_analyzer/collector.py` (`_parse_google_salary`).

Modelling conventions:
* ISO-8601 timestamp strings (which the code compares lexicographically,
  hence chronologically) are modelled as natural numbers.
* SQL tables are lists of rows; the serial/SERIAL generated id of a freshly
  inserted row is `length + 1` (rows are never deleted by this engine, so this
  matches an auto-increment sequence).
* Python `float` values produced by parsing decimal salary literals are
  modelled as rationals (`ℚ`); `float(s)` on a plain decimal literal (optional
  sign, digits, optional fractional part) is modelled by `pythonFloat?`,
  returning `none` where `float` raises `ValueError`.
* CSV rows (Python string-keyed dicts) are modelled by the structure `Row`
  holding exactly the fields the code reads; the `json.loads` of the
  `locations` and `skills_*` fields is modelled as pre-parsed structured data,
  with decode failure (the bare `except` fallback, resp. the
  `isinstance(skills_list, list)` guard) modelled as the empty list resp. an
  absent association entry.
-/

namespace MarketAnalyzer

/-! ## Character-list string primitives (Python `str` operations) -/

/-- Python `str.strip()` from the left: drop leading whitespace. -/
def trimLeft (l : List Char) : List Char := l.dropWhile Char.isWhitespace

/-- Python `str.strip()`: drop leading and trailing whitespace. -/
def trimWS (l : List Char) : List Char :=
  ((trimLeft l).reverse.dropWhile Char.isWhitespace).reverse

/-- Python `str.split(sep)` for a one-character separator: split on every
occurrence, keeping empty segments (`"a--b" → ["a", "", "b"]`). -/
def splitOnChar (sep : Char) : List Char → List (List Char)
  | [] => [[]]
  | c :: rest =>
    let r := splitOnChar sep rest
    if c = sep then [] :: r
    else
      match r with
      | [] => [[c]]
      | h :: t => (c :: h) :: t

/-- Python `str.lower()` (ASCII case folding suffices for this pipeline). -/
def lowerChars (l : List Char) : List Char := l.map Char.toLower

/-- Digit-run value accumulator used by `pythonFloat?`. -/
def digitsVal (l : List Char) : ℕ :=
  l.foldl (fun acc c => 10 * acc + c.toNat - 48) 0

/-- Model of Python `float(s)` restricted to the plain decimal literals this
pipeline produces: optional sign, then digits with at most one decimal point
and at least one digit; anything else is a `ValueError`, modelled as `none`.
(Exponent/`inf`/`nan` forms never arise from the salary fields.) -/
def pythonFloat? (l : List Char) : Option ℚ :=
  let body : List Char → Option ℚ := fun m =>
    if m = [] then none
    else
      match splitOnChar '.' m with
      | [d] =>
        if d ≠ [] ∧ d.all Char.isDigit then some (digitsVal d : ℚ) else none
      | [d, f] =>
        if (d ≠ [] ∨ f ≠ []) ∧ d.all Char.isDigit ∧ f.all Char.isDigit then
          some ((digitsVal d : ℚ) + (digitsVal f : ℚ) / (10 : ℚ) ^ f.length)
        else none
      | _ => none
  match l with
  | '-' :: rest => (body rest).map (fun q => -q)
  | '+' :: rest => body rest
  | _ => body l

/-! ## `DatabaseMigrator.parse_salary` (scripts/migrate_to_sqlite.py) -/

/-- `part.replace("$", "").replace(",", "").strip()`. -/
def cleanSalaryPart (l : List Char) : List Char :=
  trimWS (l.filter (fun c => c ≠ '$' ∧ c ≠ ','))

/-- Shallow embedding of `DatabaseMigrator.parse_salary`.  The source splits
the string on *every* hyphen (`salary_str.split("-")`), parses segment 0 as
the minimum and, when a second segment exists, segment 1 as the maximum; a
`ValueError` from either `float` call is caught and degrades the whole result
to `(None, None)`. -/
def parse_salary (s : String) : Option ℚ × Option ℚ :=
  let l := s.data
  if trimWS l = [] then (none, none)
  else
    let parts := splitOnChar '-' l
    match parts with
    | [] => (none, none)
    | p0 :: rest =>
      match pythonFloat? (cleanSalaryPart p0) with
      | none => (none, none)
      | some mn =>
        match rest with
        | [] => (some mn, none)
        | p1 :: _ =>
          match pythonFloat? (cleanSalaryPart p1) with
          | none => (none, none)
          | some mx => (some mn, some mx)

/-- The salary parser as the specification words it: split on the *first*
hyphen only, then clean and parse the two sides, degrading to `(none, none)`
when either side fails to parse.  Written from the spec sentence, to be
compared with the source-derived `parse_salary`. -/
def parse_salary_specFirstHyphen (s : String) : Option ℚ × Option ℚ :=
  let l := s.data
  if trimWS l = [] then (none, none)
  else
    match l.splitOnP (· = '-') with
    | [] => (none, none)
    | [single] =>
      match pythonFloat? (cleanSalaryPart single) with
      | none => (none, none)
      | some mn => (some mn, none)
    | lo :: hi :: restPieces =>
      -- first hyphen only: everything after it is one piece again
      let hiAll := List.intercalate ['-'] (hi :: restPieces)
      match pythonFloat? (cleanSalaryPart lo), pythonFloat? (cleanSalaryPart hiAll) with
      | some mn, some mx => (some mn, some mx)
      | _, _ => (none, none)

/-- The amended salary-parsing specification: split on *every* hyphen and use
the first two segments; a parse failure of either used segment degrades to
`(none, none)`.  Written from the amended claim's words. -/
def parse_salary_specAllHyphens (s : String) : Option ℚ × Option ℚ :=
  if trimWS s.data = [] then (none, none)
  else
    match (splitOnChar '-' s.data).take 2 with
    | [single] =>
      match pythonFloat? (cleanSalaryPart single) with
      | none => (none, none)
      | some mn => (some mn, none)
    | [lo, hi] =>
      match pythonFloat? (cleanSalaryPart lo), pythonFloat? (cleanSalaryPart hi) with
      | some mn, some mx => (some mn, some mx)
      | _, _ => (none, none)
    | _ => (none, none)

/-! ## `_parse_google_salary` (src/market_analyzer/collector.py)

The collector parses SerpAPI salary text with
`re.findall(r"\$[\d,\.]+k?", salary_str)` after lowercasing and stripping,
scales a trailing `k` by 1000, and multiplies every amount by 2080 when the
string mentions "hour".  A malformed matched amount (e.g. `"$,"`) makes
`float` raise, and nothing in the function catches it, so the whole call can
raise; the model returns `none` for that case. -/

/-- Boolean prefix test on character lists. -/
def isPrefixChars : List Char → List Char → Bool
  | [], _ => true
  | _ :: _, [] => false
  | p :: ps, c :: cs => p = c && isPrefixChars ps cs

/-- Python's substring containment `pat in s`. -/
def containsSub (pat : List Char) : List Char → Bool
  | [] => pat.isEmpty
  | l@(_ :: rest) => isPrefixChars pat l || containsSub pat rest

/-- Character class `[\d,\.]` of the amount regex. -/
def isAmtChar (c : Char) : Bool := c.isDigit ∨ c = ',' ∨ c = '.'

/-- Fuel-driven scan modelling `re.findall(r"\$[\d,\.]+k?", s)`: leftmost,
non-overlapping matches; a `$` must be followed by at least one amount
character, the amount run is greedy, and a directly following `k` is included. -/
def findAmountsAux : ℕ → List Char → List (List Char)
  | 0, _ => []
  | _ + 1, [] => []
  | fuel + 1, c :: rest =>
    if c = '$' then
      let run := rest.takeWhile isAmtChar
      if run = [] then findAmountsAux fuel rest
      else
        match rest.dropWhile isAmtChar with
        | 'k' :: after => ('$' :: (run ++ ['k'])) :: findAmountsAux fuel after
        | after => ('$' :: run) :: findAmountsAux fuel after
    else findAmountsAux fuel rest

/-- All dollar amounts found in the string, as matched substrings. -/
def findAmounts (l : List Char) : List (List Char) := findAmountsAux l.length l

/-- One iteration of the amount loop:
`num_str = amt.replace("$", "").replace(",", "")`, then a trailing `k`
multiplies the parsed value by 1000; `float` failure is `none` (an uncaught
`ValueError` in the source). -/
def parseAmt (amt : List Char) : Option ℚ :=
  let numStr := amt.filter (fun c => c ≠ '$' ∧ c ≠ ',')
  if numStr.getLast? = some 'k' then
    (pythonFloat? numStr.dropLast).map (· * 1000)
  else pythonFloat? numStr

/-- Sequence the amount parses; `none` if any single `float` call raises. -/
def parseAmts (amts : List (List Char)) : Option (List ℚ) :=
  amts.foldr (fun a acc =>
    match parseAmt a, acc with
    | some v, some vs => some (v :: vs)
    | _, _ => none) (some [])

/-- The `(salary_min, salary_max)` selection of the source:
`parsed[0]`, then `parsed[1]` if present else `salary_min` again. -/
def pickMinMax (parsed : List ℚ) : Option ℚ × Option ℚ :=
  match parsed with
  | [] => (none, none)
  | [a] => (some a, some a)
  | a :: b :: _ => (some a, some b)

/-- Shallow embedding of `_parse_google_salary`.  The outer `Option` is the
exception channel: `none` means the Python function raises (a matched amount
whose digits do not form a float literal); `some (mn, mx)` is its return
value. -/
def parse_google_salary (s : String) : Option (Option ℚ × Option ℚ) :=
  if s = "" then some (none, none)
  else
    let t := trimWS (lowerChars s.data)
    let isHourly := containsSub "hour".data t
    let amounts := findAmounts t
    if amounts = [] then some (none, none)
    else
      match parseAmts amounts with
      | none => none
      | some parsed =>
        let parsed := if isHourly then parsed.map (· * 2080) else parsed
        some (pickMinMax parsed)

/-- The same pipeline with the hourly-to-yearly conversion step removed:
the per-amount parses (including the `k` scaling) and the min/max selection,
but no multiplication by 2080.  Used to state what the hourly branch adds. -/
def parse_google_salary_base (s : String) : Option (Option ℚ × Option ℚ) :=
  if s = "" then some (none, none)
  else
    let t := trimWS (lowerChars s.data)
    let amounts := findAmounts t
    if amounts = [] then some (none, none)
    else
      match parseAmts amounts with
      | none => none
      | some parsed => some (pickMinMax parsed)

/-- Whether the source's `is_hourly` test fires for input `s`:
`"hour" in salary_str` after lowercasing and stripping. -/
def googleIsHourly (s : String) : Bool :=
  containsSub "hour".data (trimWS (lowerChars s.data))

/-! ## Data model (normalized store of scripts/migrate_to_sqlite.py) -/

/-- `companies` row: `(id, name, short_name)`; natural key `name`. -/
structure Company where
  id : ℕ
  name : String
  short_name : String
  deriving DecidableEq, Repr

/-- `locations` row; natural key `(city, state, country)`. -/
structure Location where
  id : ℕ
  city : String
  state : Option String
  country : String
  deriving DecidableEq, Repr

/-- `skill_categories` row; natural key `name`. -/
structure SkillCategory where
  id : ℕ
  name : String
  deriving DecidableEq, Repr

/-- `skills` row; natural key `(name, category_id)`. -/
structure Skill where
  id : ℕ
  name : String
  category_id : ℕ
  deriving DecidableEq, Repr

/-- `jobs.status` values. -/
inductive JobStatus where
  | open
  | closed
  deriving DecidableEq, Repr

/-- `jobs` row.  `created_at`/`updated_at` are filled by schema defaults on
insert, modelled as the inserting run's timestamp. -/
structure Job where
  id : ℕ
  external_job_id : String
  title : String
  company_id : ℕ
  description : String
  salary_min : Option ℚ
  salary_max : Option ℚ
  is_remote : Bool
  publication_date : Option String
  job_url : String
  fetched_at : ℕ
  last_seen_at : Option ℕ
  status : JobStatus
  created_at : ℕ
  updated_at : ℕ
  deriving DecidableEq, Repr

/-- The durable store: one list per table; link tables are pair lists. -/
structure Store where
  companies : List Company
  locations : List Location
  skill_categories : List SkillCategory
  skills : List Skill
  jobs : List Job
  job_locations : List (ℕ × ℕ)
  job_skills : List (ℕ × ℕ)
  deriving DecidableEq, Repr

def emptyStore : Store := ⟨[], [], [], [], [], [], []⟩

/-- One element of the record's `locations` JSON list: the source handles both
a bare string and a dict, whose `.get('name')` may be absent (`none`). -/
inductive LocItem where
  | str (s : String)
  | obj (name : Option String)
  deriving DecidableEq, Repr

/-- One CSV record, holding exactly the fields `import_job` reads.
`locations` models the parsed `json.loads(row["locations"])` value (decode
failure falls back to `[]` in the source, i.e. the empty list here);
`skill_fields` models, for each of the five `skills_<category>` columns that
is present *and* parses to a JSON list, that category's skill-name list. -/
structure Row where
  id : String
  name : String
  company_name : String
  company_short_name : String
  clean_description : String
  salary : String
  publication_date : String
  is_remote : String
  landing_page : String
  locations : List LocItem
  skill_fields : List (String × List String)
  deriving DecidableEq, Repr

/-- Association-list lookup (first binding wins, like the in-process dict
caches where insertion always prepends the freshest binding). -/
def alookup {α β : Type} [DecidableEq α] (k : α) (c : List (α × β)) : Option β :=
  (c.find? (fun p => p.1 = k)).map (·.2)

/-- The in-memory caches of `DatabaseMigrator.__init__`. -/
structure Caches where
  company_cache : List (String × ℕ)
  location_cache : List ((String × Option String × String) × ℕ)
  skill_cache : List ((String × String) × ℕ)
  skill_category_cache : List (String × ℕ)
  deriving DecidableEq, Repr

def initCaches : Caches := ⟨[], [], [], []⟩

/-- The `self.stats` counters. -/
structure Stats where
  jobs_imported : ℕ
  jobs_updated : ℕ
  companies_created : ℕ
  locations_created : ℕ
  skills_created : ℕ
  job_skills_created : ℕ
  jobs_closed : ℕ
  errors : ℕ
  deriving DecidableEq, Repr

def initStats : Stats := ⟨0, 0, 0, 0, 0, 0, 0, 0⟩

/-- The migrator's full mutable state: connection (store), caches, stats. -/
structure MState where
  store : Store
  caches : Caches
  stats : Stats
  deriving DecidableEq, Repr

/-! ## EntityResolver: the four get-or-create methods -/

/-- `DatabaseMigrator.get_or_create_skill_category`. -/
def get_or_create_skill_category (catName : String) (m : MState) : ℕ × MState :=
  match alookup catName m.caches.skill_category_cache with
  | some cid => (cid, m)
  | none =>
    match m.store.skill_categories.find? (fun c => c.name = catName) with
    | some row =>
      (row.id, { m with caches.skill_category_cache :=
        (catName, row.id) :: m.caches.skill_category_cache })
    | none =>
      let cid := m.store.skill_categories.length + 1
      (cid, { m with
        store.skill_categories := m.store.skill_categories ++ [⟨cid, catName⟩],
        -- quirk of the source: creating a *category* bumps `skills_created`
        stats.skills_created := m.stats.skills_created + 1,
        caches.skill_category_cache := (catName, cid) :: m.caches.skill_category_cache })

/-- `DatabaseMigrator.get_or_create_skill` (category-scoped natural key). -/
def get_or_create_skill (skillName catName : String) (m : MState) : Option ℕ × MState :=
  if trimWS skillName.data = [] then (none, m)
  else
    let nm := String.mk (trimWS skillName.data)
    match alookup (nm, catName) m.caches.skill_cache with
    | some sid => (some sid, m)
    | none =>
      let (catId, m1) := get_or_create_skill_category catName m
      match m1.store.skills.find? (fun sk => sk.name = nm ∧ sk.category_id = catId) with
      | some row =>
        (some row.id, { m1 with caches.skill_cache :=
          ((nm, catName), row.id) :: m1.caches.skill_cache })
      | none =>
        let sid := m1.store.skills.length + 1
        (some sid, { m1 with
          store.skills := m1.store.skills ++ [⟨sid, nm, catId⟩],
          caches.skill_cache := ((nm, catName), sid) :: m1.caches.skill_cache })

/-- `DatabaseMigrator.get_or_create_company`: keyed on `company.name`;
blank or literal `"Unknown"` names resolve to nothing. -/
def get_or_create_company (row : Row) (m : MState) : Option ℕ × MState :=
  let cname := row.company_name
  if cname = "" ∨ cname = "Unknown" then (none, m)
  else
    match alookup cname m.caches.company_cache with
    | some cid => (some cid, m)
    | none =>
      match m.store.companies.find? (fun c => c.name = cname) with
      | some row' =>
        (some row'.id, { m with caches.company_cache :=
          (cname, row'.id) :: m.caches.company_cache })
      | none =>
        let cid := m.store.companies.length + 1
        (some cid, { m with
          store.companies := m.store.companies ++ [⟨cid, cname, row.company_short_name⟩],
          stats.companies_created := m.stats.companies_created + 1,
          caches.company_cache := (cname, cid) :: m.caches.company_cache })

/-- The `(city, state, country)` natural key `get_or_create_location` derives
from its `job_city` argument: first element, `.get('name')` for dicts, split
on commas when one is present, and the `Remote`/`Unknown` defaults. -/
def locKeyOf (items : List LocItem) (isRemote : Bool) : String × Option String × String :=
  let city0 := if isRemote then "Remote" else "Unknown"
  let dflt := (city0, (none : Option String), "USA")
  match items with
  | [] => dflt
  | item :: _ =>
    let locStr : Option String :=
      match item with
      | .str s => some s
      | .obj nm => nm
    match locStr with
    | none => dflt
    | some s =>
      if s ≠ "" ∧ containsSub [','] s.data then
        match splitOnChar ',' s.data with
        | a :: b :: _ => (String.mk (trimWS a), some (String.mk (trimWS b)), "USA")
        | _ => dflt
      else dflt

/-- `DatabaseMigrator.get_or_create_location`. -/
def get_or_create_location (items : List LocItem) (isRemote : Bool) (m : MState) :
    ℕ × MState :=
  let key := locKeyOf items isRemote
  match alookup key m.caches.location_cache with
  | some lid => (lid, m)
  | none =>
    match m.store.locations.find?
        (fun l => l.city = key.1 ∧ l.state = key.2.1 ∧ l.country = key.2.2) with
    | some row =>
      (row.id, { m with caches.location_cache := (key, row.id) :: m.caches.location_cache })
    | none =>
      let lid := m.store.locations.length + 1
      (lid, { m with
        store.locations := m.store.locations ++ [⟨lid, key.1, key.2.1, key.2.2⟩],
        stats.locations_created := m.stats.locations_created + 1,
        caches.location_cache := (key, lid) :: m.caches.location_cache })

/-! ## JobUpserter + RelationLinker: `import_job` -/

/-- `is_remote` derivation: `row.get("is_remote", "").lower() == "true"`
(the `== True` alternative of the source concerns non-CSV dict inputs and has
no counterpart for string-valued rows). -/
def rowIsRemote (r : Row) : Bool := lowerChars r.is_remote.data = "true".data

/-- `pub_date if pub_date else None`. -/
def rowPubDate (r : Row) : Option String :=
  if r.publication_date = "" then none else some r.publication_date

/-- The column assignments of the `UPDATE jobs SET ...` statement (equally the
non-key columns of the `INSERT`): every mutable field is refreshed from the
record, `status` is forced to `open`, and `fetched_at`, `updated_at` and
`last_seen_at` are stamped with the run timestamp. -/
def upsertFields (r : Row) (cid ts : ℕ) (j : Job) : Job :=
  { j with
    title := r.name, company_id := cid, description := r.clean_description,
    salary_min := (parse_salary r.salary).1, salary_max := (parse_salary r.salary).2,
    is_remote := rowIsRemote r, publication_date := rowPubDate r,
    job_url := r.landing_page,
    fetched_at := ts, updated_at := ts,
    status := JobStatus.open, last_seen_at := some ts }

/-- The row built by the `INSERT INTO jobs ...` branch: the upsert columns
plus the key and the schema defaults (`created_at`/`updated_at`, modelled as
the insertion timestamp). -/
def freshJob (r : Row) (cid jid ts : ℕ) : Job :=
  upsertFields r cid ts
    { id := jid, external_job_id := r.id, title := "", company_id := 0,
      description := "", salary_min := none, salary_max := none,
      is_remote := false, publication_date := none, job_url := "",
      fetched_at := 0, last_seen_at := none, status := JobStatus.open,
      created_at := ts, updated_at := ts }

/-- `INSERT ... ON CONFLICT DO NOTHING` into a composite-unique link table. -/
def insertPairIfAbsent (p : ℕ × ℕ) (l : List (ℕ × ℕ)) : List (ℕ × ℕ) :=
  if p ∈ l then l else l ++ [p]

/-- The five fixed category column names scanned by `import_job`. -/
def skillCategoryNames : List String :=
  ["Languages", "Frameworks_Libs", "Tools_Infrastructure", "Concepts", "Soft_Skills"]

/-- One iteration of the location-linking loop: resolve the location and
insert the `(job, location)` link if absent (the source's truthiness check on
the returned id kept verbatim). -/
def linkLocStep (jobId : ℕ) (isRemote : Bool) (m : MState) (item : LocItem) : MState :=
  let (locId, m') := get_or_create_location [item] isRemote m
  if locId ≠ 0 then
    { m' with store.job_locations := insertPairIfAbsent (jobId, locId) m'.store.job_locations }
  else m'

/-- The location-linking loop of `import_job`: substitute the synthetic
`Remote` entry when the list is empty and the job is remote, then for each
entry resolve the location and link it if absent. -/
def linkLocations (jobId : ℕ) (cities : List LocItem) (isRemote : Bool) (m : MState) :
    MState :=
  let cities := if cities = [] ∧ isRemote then [LocItem.obj (some "Remote")] else cities
  cities.foldl (linkLocStep jobId isRemote) m

/-- One iteration of the skill-linking loop: resolve the skill under its
category and, when resolution yields an id, insert the link if absent and
bump `job_skills_created` (the counter is bumped per attempted link, conflict
or not, exactly as in the source). -/
def linkSkillStep (jobId : ℕ) (cat : String) (m : MState) (nm : String) : MState :=
  let (sid?, m') := get_or_create_skill nm cat m
  match sid? with
  | some sid =>
    { m' with
      store.job_skills := insertPairIfAbsent (jobId, sid) m'.store.job_skills,
      stats.job_skills_created := m'.stats.job_skills_created + 1 }
  | none => m'

/-- Per-category body of the skill loop: the `skills_<category>` column is
consulted and, when present with a list value, each listed name is linked. -/
def linkSkillsCat (jobId : ℕ) (row : Row) (m : MState) (cat : String) : MState :=
  match alookup cat row.skill_fields with
  | none => m
  | some names => names.foldl (linkSkillStep jobId cat) m

/-- The skill-linking loop of `import_job` over the five fixed categories. -/
def linkSkills (jobId : ℕ) (row : Row) (m : MState) : MState :=
  skillCategoryNames.foldl (linkSkillsCat jobId row) m

/-- `DatabaseMigrator.import_job`: upsert one record, then link its locations
and skills.  Returns the source's success boolean.  The bare `except` branch
of the source catches database exceptions; in this pure model no step raises,
so that branch is unreachable and the `errors` counter is only ever touched
there. -/
def import_job (row : Row) (ts : ℕ) (m : MState) : Bool × MState :=
  if row.id = "" then (false, m)
  else
    match get_or_create_company row m with
    | (none, _) => (false, m)
    | (some companyId, m1) =>
      let (jobId, m2) :=
        match m1.store.jobs.find? (fun j => j.external_job_id = row.id) with
        | some existing =>
          (existing.id, { m1 with
            store.jobs := m1.store.jobs.map (fun j =>
              if j.id = existing.id then upsertFields row companyId ts j else j),
            stats.jobs_updated := m1.stats.jobs_updated + 1 })
        | none =>
          let jid := m1.store.jobs.length + 1
          (jid, { m1 with
            store.jobs := m1.store.jobs ++ [freshJob row companyId jid ts],
            stats.jobs_imported := m1.stats.jobs_imported + 1 })
      let m3 := linkLocations jobId row.locations (rowIsRemote row) m2
      let m4 := linkSkills jobId row m3
      (true, m4)

/-! ## ReconciliationPass: `mark_closed_jobs` -/

/-- The `WHERE` predicate of the bulk close:
`status = 'open' AND (last_seen_at IS NULL OR last_seen_at < ts)`. -/
def isStale (ts : ℕ) (j : Job) : Bool :=
  match j.status, j.last_seen_at with
  | JobStatus.open, none => true
  | JobStatus.open, some t => t < ts
  | JobStatus.closed, _ => false

/-- The `SET` clause applied to each matching row. -/
def closeStep (ts : ℕ) (j : Job) : Job :=
  if isStale ts j then { j with status := JobStatus.closed, updated_at := ts } else j

/-- `DatabaseMigrator.mark_closed_jobs`: bulk-close every stale open job,
stamping `updated_at`, and record the row count in `jobs_closed`. -/
def mark_closed_jobs (ts : ℕ) (m : MState) : MState :=
  { m with
    store.jobs := m.store.jobs.map (closeStep ts),
    stats.jobs_closed := (m.store.jobs.filter (isStale ts)).length }

/-! ## BatchRunner: `migrate` -/

/-- The per-run batch loop of `migrate`: fresh caches and statistics, then
`import_job` on every record in order (its boolean result is discarded). -/
def importBatch (rows : List Row) (ts : ℕ) (store : Store) : MState :=
  rows.foldl (fun m r => (import_job r ts m).2) ⟨store, initCaches, initStats⟩

/-- One full run of `DatabaseMigrator.migrate` over an already-loaded batch:
it imports every record, then runs the reconciliation pass with the same run
timestamp as cutoff. -/
def migrateRun (rows : List Row) (ts : ℕ) (store : Store) : MState :=
  mark_closed_jobs ts (importBatch rows ts store)

/-! ## Canonical lookups, record classification, replay combinators -/

/-- The id the store's unique key `companies.name` resolves to. -/
def canonCompanyId (S : Store) (cname : String) : Option ℕ :=
  (S.companies.find? (fun c => c.name = cname)).map (·.id)

/-- The id the store's unique key `(city, state, country)` resolves to. -/
def canonLocId (S : Store) (k : String × Option String × String) : Option ℕ :=
  (S.locations.find? (fun l => l.city = k.1 ∧ l.state = k.2.1 ∧ l.country = k.2.2)).map (·.id)

/-- The id the store's unique key `skill_categories.name` resolves to. -/
def canonCatId (S : Store) (cname : String) : Option ℕ :=
  (S.skill_categories.find? (fun c => c.name = cname)).map (·.id)

/-- The id the store's unique key `skills (name, category_id)` resolves to. -/
def canonSkillId (S : Store) (nm : String) (catId : ℕ) : Option ℕ :=
  (S.skills.find? (fun sk => sk.name = nm ∧ sk.category_id = catId)).map (·.id)

/-- The job row the unique `external_job_id` resolves to. -/
def canonJob (S : Store) (ext : String) : Option Job :=
  S.jobs.find? (fun j => j.external_job_id = ext)

/-- The natural key of a `locations` row. -/
def locationKey (l : Location) : String × Option String × String :=
  (l.city, l.state, l.country)

/-- The natural key of a `skills` row. -/
def skillKey (sk : Skill) : String × ℕ := (sk.name, sk.category_id)

/-- A record that passes both early-return guards of `import_job`:
non-blank external id and resolvable company name. -/
def isGoodRow (r : Row) : Bool :=
  r.id ≠ "" && r.company_name ≠ "" && r.company_name ≠ "Unknown"

/-- The good records of a batch, in order. -/
def goodRows (rows : List Row) : List Row := rows.filter isGoodRow

/-- The last good record of the batch carrying a given external id — the
record whose field values win ("last write wins within a run"). -/
def lastGoodFor (rows : List Row) (ext : String) : Option Row :=
  ((goodRows rows).filter (fun r => r.id = ext)).getLast?

/-- The job id `import_job` binds: the existing row's primary id, or the
fresh serial id on insert. -/
def upsertJobId (S : Store) (r : Row) : ℕ :=
  match canonJob S r.id with
  | some ex => ex.id
  | none => S.jobs.length + 1

/-- The store/statistics effect of the upsert stage of `import_job` (between
company resolution and relation linking), written as a standalone function of
the state the company resolver left. -/
def upsertState (r : Row) (cid ts : ℕ) (m1 : MState) : MState :=
  match canonJob m1.store r.id with
  | some ex =>
    { m1 with
      store.jobs := m1.store.jobs.map (fun j =>
        if j.id = ex.id then upsertFields r cid ts j else j),
      stats.jobs_updated := m1.stats.jobs_updated + 1 }
  | none =>
    { m1 with
      store.jobs := m1.store.jobs ++ [freshJob r cid (m1.store.jobs.length + 1) ts],
      stats.jobs_imported := m1.stats.jobs_imported + 1 }

/-- Refresh one job's three run-stamped timestamp columns to `ts`. -/
def reStampOne (ts : ℕ) (j : Job) : Job :=
  { j with fetched_at := ts, updated_at := ts, last_seen_at := some ts }

/-- Refresh every job's three run-stamped timestamp columns to `ts`
(`fetched_at`, `updated_at`, `last_seen_at`), leaving everything else alone. -/
def reStamp (ts : ℕ) (S : Store) : Store :=
  { S with jobs := S.jobs.map (reStampOne ts) }

/-- The location list the linker actually iterates for a record: the
synthetic `Remote` entry when the record is remote and lists nothing. -/
def citiesOf (r : Row) : List LocItem :=
  if r.locations = [] ∧ rowIsRemote r then [LocItem.obj (some "Remote")] else r.locations

/-- All of record `r`'s resolution targets are durably present and linked:
its job row exists, every location key resolves and is linked to the job,
every surviving skill name resolves (with its category) and is linked, and
the company name resolves.  This is what one successful `import_job` leaves
behind, and what makes a re-run of the same record a pure re-stamp. -/
def RowSaturated (S : Store) (r : Row) : Prop :=
  match canonJob S r.id with
  | none => False
  | some j =>
    (∀ item ∈ citiesOf r, ∃ lid,
      canonLocId S (locKeyOf [item] (rowIsRemote r)) = some lid ∧
      (j.id, lid) ∈ S.job_locations) ∧
    (∀ cat ∈ skillCategoryNames, ∀ names, alookup cat r.skill_fields = some names →
      ∀ nm ∈ names, trimWS nm.data ≠ [] → ∃ catId sid,
        canonCatId S cat = some catId ∧
        canonSkillId S (String.mk (trimWS nm.data)) catId = some sid ∧
        (j.id, sid) ∈ S.job_skills) ∧
    (∃ cid, canonCompanyId S r.company_name = some cid)

/-- Every job row of the store carries the field values of the last good
record of the batch with its external id (resolved against the store's own
company table) and the run's stamps — the normal form a full run from the
empty store leaves every job in. -/
def JobsChar (p : List Row) (t : ℕ) (S : Store) : Prop :=
  ∀ j ∈ S.jobs, ∃ r cid, lastGoodFor p j.external_job_id = some r ∧
    canonCompanyId S r.company_name = some cid ∧ j = upsertFields r cid t j

/-- Saturation of every good record of a processed prefix. -/
def AllSaturated (p : List Row) (S : Store) : Prop :=
  ∀ r ∈ p, isGoodRow r = true → RowSaturated S r

/-- The pure effect of re-upserting one good record against a saturated
store: rewrite the job row with that external id using the record's fields
and the canonically resolved company id. -/
def applyUpsert (r : Row) (ts : ℕ) (S : Store) : Store :=
  match canonCompanyId S r.company_name with
  | some cid =>
    { S with jobs := S.jobs.map (fun j =>
        if j.external_job_id = r.id then upsertFields r cid ts j else j) }
  | none => S

/-! ## Store and cache invariants -/

/-- Sequentially generated serial ids: the row at index `i` has id `i + 1`.
Holds for every table of every store reachable from `emptyStore`, because
rows are only ever appended with id `length + 1` and never deleted. -/
def SeqIds {α : Type} (getId : α → ℕ) (l : List α) : Prop :=
  ∀ i : Fin l.length, getId (l.get i) = i.1 + 1

/-- Natural keys are duplicate-free, table ids are sequential, link tables
are duplicate-free. -/
def StoreInv (S : Store) : Prop :=
  (S.companies.map (·.name)).Nodup ∧
  (S.locations.map (fun l => (l.city, l.state, l.country))).Nodup ∧
  (S.skill_categories.map (·.name)).Nodup ∧
  (S.skills.map (fun sk => (sk.name, sk.category_id))).Nodup ∧
  (S.jobs.map (·.external_job_id)).Nodup ∧
  SeqIds (·.id) S.companies ∧ SeqIds (·.id) S.locations ∧
  SeqIds (·.id) S.skill_categories ∧ SeqIds (·.id) S.skills ∧
  SeqIds (·.id) S.jobs ∧
  S.job_locations.Nodup ∧ S.job_skills.Nodup

/-- Every cached binding agrees with a durable row (write-through property:
the cache never diverges from the store). -/
def CachesOk (c : Caches) (S : Store) : Prop :=
  (∀ p ∈ c.company_cache, ∃ row ∈ S.companies, row.name = p.1 ∧ row.id = p.2) ∧
  (∀ p ∈ c.location_cache, ∃ row ∈ S.locations,
    (row.city, row.state, row.country) = p.1 ∧ row.id = p.2) ∧
  (∀ p ∈ c.skill_cache, ∃ row ∈ S.skills, ∃ cat ∈ S.skill_categories,
    row.name = p.1.1 ∧ cat.name = p.1.2 ∧ row.category_id = cat.id ∧ row.id = p.2) ∧
  (∀ p ∈ c.skill_category_cache, ∃ row ∈ S.skill_categories,
    row.name = p.1 ∧ row.id = p.2)

/-! ## EntityResolver with the durable insert's failure channel (claim C6)

`cursor.execute("INSERT INTO companies ...")` raises an integrity error when
a concurrent writer has committed a row with the same unique `name` between
this call's `SELECT` and its `INSERT`.  The source wraps none of the
`get_or_create_*` bodies in a `try`, so such an error leaves the resolver.
`race` makes that interleaving window explicit: the companies committed by
the other writer after the `SELECT` ran and before the `INSERT` executes.
With `race = []` (the single-writer schedule) this is exactly
`get_or_create_company`. -/

inductive DbError where
  | uniqueViolation
  deriving DecidableEq, Repr

/-- `get_or_create_company` with the unique-constraint failure of the
durable insert made explicit. -/
def get_or_create_company_exc (row : Row) (race : List Company) (m : MState) :
    Except DbError (Option ℕ × MState) :=
  let cname := row.company_name
  if cname = "" ∨ cname = "Unknown" then Except.ok (none, m)
  else
    match alookup cname m.caches.company_cache with
    | some cid => Except.ok (some cid, m)
    | none =>
      match m.store.companies.find? (fun c => c.name = cname) with
      | some row' =>
        Except.ok (some row'.id, { m with caches.company_cache :=
          (cname, row'.id) :: m.caches.company_cache })
      | none =>
        -- the competing writer's rows are durable before our INSERT runs
        let committed := m.store.companies ++ race
        if committed.any (fun c => c.name = cname) then
          -- UNIQUE(name) violated: the driver raises and, with no local
          -- try/except, the exception propagates out of the resolver
          Except.error DbError.uniqueViolation
        else
          let cid := committed.length + 1
          Except.ok (some cid, { m with
            store.companies := committed ++ [⟨cid, cname, row.company_short_name⟩],
            stats.companies_created := m.stats.companies_created + 1,
            caches.company_cache := (cname, cid) :: m.caches.company_cache })

/-! ## Concrete records for counterexamples and witnesses -/

/-- A minimal well-formed record: external id `ext`, company `"C"`, and every
optional payload empty. -/
def simpleRow (ext : String) : Row :=
  { id := ext, name := "", company_name := "C", company_short_name := "",
    clean_description := "", salary := "", publication_date := "",
    is_remote := "", landing_page := "", locations := [], skill_fields := [] }

/-- Job A of the reconciliation scenario: seen in run 1 only. -/
def rowA : Row := simpleRow "A"

/-- Job B of the reconciliation scenario: seen in runs 1 and 2. -/
def rowB : Row := simpleRow "B"

/-- A record whose record-3 external id is blank (the malformed-record
scenario). -/
def rowBlank : Row := simpleRow ""

/-- A fully remote record with an empty explicit location list. -/
def rowRemote : Row := { simpleRow "R" with is_remote := "true" }

/-- A record listing skill `python` under `Languages` (run-1 shape of the
relation-accumulation scenario). -/
def rowSkilled : Row := { simpleRow "S" with skill_fields := [("Languages", ["python"])] }

/-- The same job re-ingested with no skills listed (run-2 shape). -/
def rowSkillless : Row := simpleRow "S"

/-- Erase exactly the fields the C1 claim says may differ after a re-run
(`updated_at` and `last_seen_at`), so that claimed table identity becomes an
equality of erased tables. -/
def eraseClaimTimestamps (j : Job) : Job :=
  { j with updated_at := 0, last_seen_at := none }

/-! # Theorems -/

/-! ## Reconciliation pass (claims C2, C9) -/

/-- A row just processed by the bulk close is never stale. -/
theorem isStale_closeStep (ts : ℕ) (j : Job) : isStale ts (closeStep ts j) = false := by
  by_cases h : isStale ts j = true
  · simp only [closeStep, if_pos h]
    cases hl : j.last_seen_at <;> simp [isStale]
  · simp only [closeStep, if_neg h]
    simpa using h

/-- The bulk close's row transformation is idempotent. -/
theorem closeStep_idem (ts : ℕ) (j : Job) : closeStep ts (closeStep ts j) = closeStep ts j := by
  have h := isStale_closeStep ts j
  conv_lhs => rw [closeStep]
  simp [h]

/-- C9 — Reconciliation idempotence: a second `mark_closed_jobs` with the
same cutoff leaves the store literally unchanged (not even `updated_at` of
already-closed rows moves, since the bulk update only touches `open` rows)
and reports zero closed jobs. -/
theorem c9_reconciliation_idempotent (m : MState) (ts : ℕ) :
    (mark_closed_jobs ts (mark_closed_jobs ts m)).store = (mark_closed_jobs ts m).store ∧
    (mark_closed_jobs ts (mark_closed_jobs ts m)).stats.jobs_closed = 0 := by
  constructor
  · simp only [mark_closed_jobs, List.map_map]
    refine congrArg (fun l => { m.store with jobs := l }) ?_
    exact List.map_congr_left (fun j _ => closeStep_idem ts j)
  · have hnil : (m.store.jobs.map (closeStep ts)).filter (isStale ts) = [] := by
      rw [List.filter_eq_nil_iff]
      intro a ha
      rcases List.mem_map.mp ha with ⟨b, _, rfl⟩
      simp [isStale_closeStep]
    simp [mark_closed_jobs, hnil]

/-- The store produced by run 1 then run 2 of the A/B reconciliation
scenario: A is seen in run 1 only, B in both runs. -/
def storeAB : Store :=
  (migrateRun [rowB] 2 (migrateRun [rowA, rowB] 1 emptyStore).store).store

/-- C2 — Reconciliation cutoff correctness.  Part 1: `mark_closed_jobs ts`
transitions to `closed` exactly the open jobs whose `last_seen_at` is null or
strictly earlier than `ts`, and leaves any row stamped with the run timestamp
itself untouched (so nothing upserted during the run is closed by the run's
own pass).  Part 2: in the concrete A/B two-run scenario, after run 2's pass
A is closed and B is open with `last_seen_at` equal to run 2's timestamp. -/
theorem c2_reconciliation_cutoff :
    (∀ (m : MState) (ts : ℕ),
      (mark_closed_jobs ts m).store.jobs.length = m.store.jobs.length ∧
      ∀ (i : ℕ) (h : i < m.store.jobs.length)
        (h' : i < (mark_closed_jobs ts m).store.jobs.length),
        (((mark_closed_jobs ts m).store.jobs.get ⟨i, h'⟩).status = JobStatus.closed ↔
          ((m.store.jobs.get ⟨i, h⟩).status = JobStatus.closed ∨
            ((m.store.jobs.get ⟨i, h⟩).status = JobStatus.open ∧
              ((m.store.jobs.get ⟨i, h⟩).last_seen_at = none ∨
                ∃ t, (m.store.jobs.get ⟨i, h⟩).last_seen_at = some t ∧ t < ts)))) ∧
        ((m.store.jobs.get ⟨i, h⟩).last_seen_at = some ts →
          (mark_closed_jobs ts m).store.jobs.get ⟨i, h'⟩ = m.store.jobs.get ⟨i, h⟩)) ∧
    ((canonJob storeAB "A").map (·.status) = some JobStatus.closed ∧
      (canonJob storeAB "B").map (fun j => (j.status, j.last_seen_at)) =
        some (JobStatus.open, some 2)) := by
  constructor
  · intro m ts
    refine ⟨by simp [mark_closed_jobs], ?_⟩
    intro i h h'
    have hget : (mark_closed_jobs ts m).store.jobs.get ⟨i, h'⟩ =
        closeStep ts (m.store.jobs.get ⟨i, h⟩) := by
      simp [mark_closed_jobs]
    rw [hget]
    set j := m.store.jobs.get ⟨i, h⟩ with hj
    constructor
    · cases hs : j.status <;> cases hl : j.last_seen_at with
      | none => simp [closeStep, isStale, hs, hl]
      | some t =>
        by_cases ht : t < ts <;>
          simp [closeStep, isStale, hs, hl, ht]
    · intro hseen
      cases hs : j.status with
      | «open» => simp [closeStep, isStale, hs, hseen]
      | closed => simp [closeStep, isStale, hs]
  · constructor <;> decide

/-- C2 witness: instantiating the cutoff characterization on the store left
by ingesting job A at timestamp 1 and reconciling at cutoff 2 closes A. -/
theorem c2_reconciliation_cutoff_witness :
    ((mark_closed_jobs 2
        ⟨(migrateRun [rowA] 1 emptyStore).store, initCaches, initStats⟩).store.jobs.get
      ⟨0, by decide⟩).status = JobStatus.closed := by
  have h := (c2_reconciliation_cutoff.1
    ⟨(migrateRun [rowA] 1 emptyStore).store, initCaches, initStats⟩ 2).2 0 (by decide) (by decide)
  exact h.1.mpr (Or.inr ⟨by decide, Or.inr ⟨1, by decide, by decide⟩⟩)

/-! ## Salary parsing (claim C4) -/

/-- `splitOnChar` always yields at least one segment. -/
theorem splitOnChar_ne_nil (sep : Char) (l : List Char) : splitOnChar sep l ≠ [] := by
  cases l with
  | nil => simp [splitOnChar]
  | cons c rest =>
    simp only [splitOnChar]
    by_cases h : c = sep
    · simp [h]
    · simp only [if_neg h]
      cases splitOnChar sep rest <;> simp

/-- C4 counterexample: the source splits on *every* hyphen, not the first.
On `"1-2-3"` it parses the first two hyphen-separated segments and returns
`(1, 2)`, whereas splitting at the first hyphen would leave the unparseable
tail `"2-3"` as the second bound and degrade to `(none, none)`. -/
theorem c4_salary_counterexample :
    parse_salary "1-2-3" = (some 1, some 2) ∧
    parse_salary_specFirstHyphen "1-2-3" = (none, none) ∧
    parse_salary "1-2-3" ≠ parse_salary_specFirstHyphen "1-2-3" := by
  refine ⟨by decide, by decide, by decide⟩

/-- C4 amended — Salary parsing: the parser strips currency symbols and
thousands separators, splits on *every* hyphen and uses the first two
segments (equivalently: agrees everywhere with the all-hyphens specification
`parse_salary_specAllHyphens`); the round-trip examples hold, empty or
unparseable input yields `(none, none)`, and the parser is total (the
`try/except` of the source catches every `ValueError`, modelled by the
function returning `(none, none)` instead of raising). -/
theorem c4_salary_amended :
    (∀ s : String, parse_salary s = parse_salary_specAllHyphens s) ∧
    parse_salary "$90,000 - $120,000" = (some 90000, some 120000) ∧
    parse_salary "$75000" = (some 75000, none) ∧
    parse_salary "" = (none, none) ∧
    parse_salary "not a salary" = (none, none) := by
  refine ⟨?_, by decide, by decide, by decide, by decide⟩
  intro s
  unfold parse_salary parse_salary_specAllHyphens
  by_cases h : trimWS s.data = []
  · simp [h]
  · rcases hp : splitOnChar '-' s.data with _ | ⟨p0, rest⟩
    · exact absurd hp (splitOnChar_ne_nil '-' s.data)
    · rcases rest with _ | ⟨p1, rest2⟩
      · cases hf : pythonFloat? (cleanSalaryPart p0) <;> simp [h, hp, hf, List.take]
      · cases hf : pythonFloat? (cleanSalaryPart p0) <;>
          cases hg : pythonFloat? (cleanSalaryPart p1) <;> simp [h, hp, hf, hg, List.take]

/-! ## Malformed-record handling (claim C5) -/

/-- C5 counterexample: in the 5-record batch whose third record has a blank
external id, 4 records are processed but the `errors` counter stays 0 — the
blank-id early return of `import_job` does not touch `self.stats["errors"]`
(only the exception handler does), so the claimed `errors = 1` is false. -/
theorem c5_malformed_counterexample :
    (importBatch [simpleRow "J1", simpleRow "J2", rowBlank, simpleRow "J4", simpleRow "J5"]
        1 emptyStore).stats.jobs_imported = 4 ∧
    (importBatch [simpleRow "J1", simpleRow "J2", rowBlank, simpleRow "J4", simpleRow "J5"]
        1 emptyStore).stats.errors = 0 := by
  refine ⟨by decide, by decide⟩

/-- C5 amended — Malformed-record handling: a record with a blank external id
or an unresolvable company is skipped with *no* writes at all (store, caches
and statistics are left untouched, so in particular the `errors` counter is
not incremented), and the remaining records of the batch are still processed:
the 5-record batch with a blank third id yields 4 imported jobs, the four
surviving external ids, and `errors = 0`. -/
theorem c5_malformed_amended :
    (∀ (r : Row) (ts : ℕ) (m : MState), r.id = "" → import_job r ts m = (false, m)) ∧
    (∀ (r : Row) (ts : ℕ) (m : MState),
      r.company_name = "" ∨ r.company_name = "Unknown" → import_job r ts m = (false, m)) ∧
    ((importBatch [simpleRow "J1", simpleRow "J2", rowBlank, simpleRow "J4", simpleRow "J5"]
        1 emptyStore).store.jobs.map (·.external_job_id) = ["J1", "J2", "J4", "J5"] ∧
      (importBatch [simpleRow "J1", simpleRow "J2", rowBlank, simpleRow "J4", simpleRow "J5"]
        1 emptyStore).stats.jobs_imported = 4 ∧
      (importBatch [simpleRow "J1", simpleRow "J2", rowBlank, simpleRow "J4", simpleRow "J5"]
        1 emptyStore).stats.errors = 0) := by
  refine ⟨?_, ?_, by decide, by decide, by decide⟩
  · intro r ts m h
    simp [import_job, h]
  · intro r ts m h
    by_cases hid : r.id = ""
    · simp [import_job, hid]
    · simp [import_job, hid, get_or_create_company, h]

/-- C5 witness: the blank-id early return applied to the concrete blank
record leaves the initial state untouched. -/
theorem c5_malformed_witness :
    import_job rowBlank 1 ⟨emptyStore, initCaches, initStats⟩ =
      (false, ⟨emptyStore, initCaches, initStats⟩) :=
  c5_malformed_amended.1 rowBlank 1 ⟨emptyStore, initCaches, initStats⟩ (by decide)

/-! ## Constraint-race behaviour of the resolver (claim C6) -/

/-- C6 counterexample: with an empty cache and a store whose `SELECT` misses,
a competing writer committing company `"C"` inside the select-to-insert
window makes the durable insert hit the unique constraint, and the resolver
surfaces the failure instead of re-reading the existing row and returning its
id. -/
theorem c6_race_counterexample :
    get_or_create_company_exc (simpleRow "X") [⟨1, "C", ""⟩]
        ⟨emptyStore, initCaches, initStats⟩ =
      Except.error DbError.uniqueViolation ∧
    get_or_create_company_exc (simpleRow "X") [⟨1, "C", ""⟩]
        ⟨emptyStore, initCaches, initStats⟩ ≠
      Except.ok (some 1, ⟨emptyStore, initCaches, initStats⟩) := by
  have he : get_or_create_company_exc (simpleRow "X") [⟨1, "C", ""⟩]
      ⟨emptyStore, initCaches, initStats⟩ = Except.error DbError.uniqueViolation := rfl
  exact ⟨he, by rw [he]; simp⟩

/-- C6 amended — Constraint-race behaviour: `get_or_create_company` contains
no recovery path for a failed durable insert.  Whenever the cache and the
`SELECT` both miss and a row with the same natural key is durable by the time
the `INSERT` runs, the unique-constraint failure propagates out of the
resolver (to `import_job`'s per-record exception handler, which counts it as
an error and skips the record); it is not recovered by a re-read.  Under the
single-writer schedule (empty race window) the failure channel is unreachable
and the model coincides with the plain resolver. -/
theorem c6_race_amended :
    (∀ (r : Row) (race : List Company) (m : MState),
      ¬(r.company_name = "" ∨ r.company_name = "Unknown") →
      alookup r.company_name m.caches.company_cache = none →
      m.store.companies.find? (fun c => c.name = r.company_name) = none →
      (∃ c ∈ race, c.name = r.company_name) →
      get_or_create_company_exc r race m = Except.error DbError.uniqueViolation) ∧
    (∀ (r : Row) (m : MState),
      get_or_create_company_exc r [] m = Except.ok (get_or_create_company r m)) := by
  constructor
  · intro r race m hname hcache hsel ⟨c, hc, hcn⟩
    have hany : ((m.store.companies ++ race).any (fun c => c.name = r.company_name)) = true := by
      rw [List.any_eq_true]
      exact ⟨c, List.mem_append_right _ hc, by simp [hcn]⟩
    simp [get_or_create_company_exc, hname, hcache, hsel, hany]
  · intro r m
    unfold get_or_create_company_exc get_or_create_company
    by_cases hname : r.company_name = "" ∨ r.company_name = "Unknown"
    · simp [hname]
    · simp only [hname, if_false, ite_false]
      cases hcache : alookup r.company_name m.caches.company_cache with
      | some cid => simp
      | none =>
        cases hsel : m.store.companies.find? (fun c => c.name = r.company_name) with
        | some row' => simp
        | none =>
          have hany : (m.store.companies.any (fun c => c.name = r.company_name)) = false := by
            rw [List.any_eq_false]
            intro c hc
            have := List.find?_eq_none.mp hsel c hc
            simpa using this
          simp [List.append_nil, hany]

/-- C6 witness: the propagation law applied to the concrete raced insert. -/
theorem c6_race_witness :
    get_or_create_company_exc (simpleRow "X") [⟨1, "C", ""⟩]
        ⟨emptyStore, initCaches, initStats⟩ = Except.error DbError.uniqueViolation :=
  c6_race_amended.1 (simpleRow "X") [⟨1, "C", ""⟩] ⟨emptyStore, initCaches, initStats⟩
    (by decide) (by decide) (by decide) ⟨⟨1, "C", ""⟩, by decide, by decide⟩

/-! ## Google-jobs hourly salary annualization (claim C10) -/

/-- Min/max selection commutes with rescaling every parsed amount. -/
theorem pickMinMax_map (f : ℚ → ℚ) (l : List ℚ) :
    pickMinMax (l.map f) = ((pickMinMax l).1.map f, (pickMinMax l).2.map f) := by
  rcases l with _ | ⟨a, _ | ⟨b, rest⟩⟩ <;> simp [pickMinMax]

/-- C10 — Hourly salary annualization (implicit in the source, absent from
the spec): whenever the lowercased salary text contains `"hour"`, the
returned bounds are exactly the hourly-free parse with every amount
multiplied by 2080; independently, an amount written with a trailing `k`
parses to 1000 times the amount without it; and the concrete SerpAPI formats
evaluate accordingly. -/
theorem c10_hourly_annualization :
    (∀ (s : String) (p : Option ℚ × Option ℚ),
      googleIsHourly s = true →
      parse_google_salary_base s = some p →
      parse_google_salary s = some (p.1.map (· * 2080), p.2.map (· * 2080))) ∧
    (∀ l : List Char, (l.filter (fun c => c ≠ '$' ∧ c ≠ ',')).getLast? ≠ some 'k' →
      parseAmt (l ++ ['k']) = (parseAmt l).map (· * 1000)) ∧
    parse_google_salary "$30 - $45 an hour" = some (some 62400, some 93600) ∧
    parse_google_salary "$95,000 - $130,000 a year" = some (some 95000, some 130000) ∧
    parseAmt "$80k".data = some 80000 := by
  have hk : ∀ l : List Char, (l.filter (fun c => c ≠ '$' ∧ c ≠ ',')).getLast? ≠ some 'k' →
      parseAmt (l ++ ['k']) = (parseAmt l).map (· * 1000) := by
    intro l h
    have hkc : List.filter (fun c => decide (c ≠ '$' ∧ c ≠ ',')) ['k'] = ['k'] := by decide
    have hf : (l ++ ['k']).filter (fun c => c ≠ '$' ∧ c ≠ ',') =
        l.filter (fun c => c ≠ '$' ∧ c ≠ ',') ++ ['k'] := by
      rw [List.filter_append, hkc]
    unfold parseAmt
    rw [hf]
    dsimp only
    rw [List.getLast?_concat, if_pos rfl, List.dropLast_concat, if_neg h]
  have hscale : ∀ (s : String) (p : Option ℚ × Option ℚ),
      googleIsHourly s = true →
      parse_google_salary_base s = some p →
      parse_google_salary s = some (p.1.map (· * 2080), p.2.map (· * 2080)) := by
    intro s p hh hb
    by_cases hs : s = ""
    · rw [hs] at hh
      exact absurd hh (by decide)
    · have hh' : containsSub "hour".data (trimWS (lowerChars s.data)) = true := hh
      unfold parse_google_salary_base at hb
      unfold parse_google_salary
      rw [if_neg hs] at hb ⊢
      dsimp only at hb ⊢
      by_cases ha : findAmounts (trimWS (lowerChars s.data)) = []
      · rw [if_pos ha] at hb
        rw [if_pos ha]
        injection hb with hb'
        rw [← hb']
        rfl
      · rw [if_neg ha] at hb ⊢
        rcases hp : parseAmts (findAmounts (trimWS (lowerChars s.data))) with _ | parsed
        · rw [hp] at hb
          dsimp only at hb
          exact Option.noConfusion hb
        · rw [hp] at hb
          dsimp only at hb ⊢
          injection hb with hb'
          rw [hh', if_pos rfl, pickMinMax_map, hb']
  refine ⟨hscale, hk, ?_, by decide, ?_⟩
  · have h := hscale "$30 - $45 an hour" (some 30, some 45) (by decide) (by decide)
    rw [h]
    norm_num
  · have h3 : "$80k".data = "$80".data ++ ['k'] := by decide
    have h := hk "$80".data (by decide)
    have h2 : parseAmt "$80".data = some 80 := by decide
    rw [h3, h, h2]
    norm_num

/-- C10 witness: the hourly-scaling law applied to the concrete SerpAPI
hourly range. -/
theorem c10_hourly_annualization_witness :
    parse_google_salary "$30 - $45 an hour" = some (some 62400, some 93600) := by
  have h := c10_hourly_annualization.1 "$30 - $45 an hour" (some 30, some 45)
    (by decide) (by decide)
  rw [h]
  norm_num

/-! ## List-level helper lemmas -/

/-- A successful `find?` is stable under appending rows on the right
(dimension tables only grow, so resolution results are stable). -/
theorem find?_append_of_some {α : Type} (p : α → Bool) (l l' : List α) (x : α)
    (h : l.find? p = some x) : (l ++ l').find? p = some x := by
  induction l with
  | nil => simp [List.find?] at h
  | cons a rest ih =>
    by_cases ha : p a = true
    · simp [List.find?, ha] at h ⊢
      exact h
    · simp only [Bool.not_eq_true] at ha
      simp [List.find?, ha] at h ⊢
      exact Or.inl h

/-- With duplicate-free keys, `find?` by key returns any member carrying that
key. -/
theorem find?_of_mem_nodup {α κ : Type} [DecidableEq κ] (key : α → κ) (l : List α)
    (hn : (l.map key).Nodup) (a : α) (ha : a ∈ l) (k : κ) (hk : key a = k) :
    l.find? (fun x => key x = k) = some a := by
  induction l with
  | nil => cases ha
  | cons b rest ih =>
    rcases List.mem_cons.mp ha with rfl | hmem
    · simp [List.find?, hk]
    · have hb : key b ≠ k := by
        intro hbk
        have : key a ∈ rest.map key := List.mem_map_of_mem key hmem
        rw [hk, ← hbk] at this
        exact (List.nodup_cons.mp hn).1 this
      simp [List.find?, hb]
      exact ih (List.nodup_cons.mp hn).2 hmem

/-- `insertPairIfAbsent` only appends. -/
theorem insertPairIfAbsent_prefix (p : ℕ × ℕ) (l : List (ℕ × ℕ)) :
    l <+: insertPairIfAbsent p l := by
  unfold insertPairIfAbsent
  split
  · exact List.prefix_refl l
  · exact ⟨[p], rfl⟩

/-- `insertPairIfAbsent` preserves duplicate-freedom. -/
theorem insertPairIfAbsent_nodup (p : ℕ × ℕ) (l : List (ℕ × ℕ)) (h : l.Nodup) :
    (insertPairIfAbsent p l).Nodup := by
  unfold insertPairIfAbsent
  split
  · exact h
  · next hp => simpa [List.nodup_append, h] using hp

/-- Membership is preserved by `insertPairIfAbsent`. -/
theorem insertPairIfAbsent_mem (p q : ℕ × ℕ) (l : List (ℕ × ℕ)) (h : q ∈ l) :
    q ∈ insertPairIfAbsent p l := by
  unfold insertPairIfAbsent
  split
  · exact h
  · exact List.mem_append_left _ h

/-- The inserted pair is a member afterwards. -/
theorem insertPairIfAbsent_mem_self (p : ℕ × ℕ) (l : List (ℕ × ℕ)) :
    p ∈ insertPairIfAbsent p l := by
  unfold insertPairIfAbsent
  split
  · assumption
  · exact List.mem_append_right _ (List.mem_singleton.mpr rfl)

/-! ## Frame lemmas: what each resolver and linker leaves untouched -/

/-- Frame preserved by every dimension resolver and by both link loops: the
`jobs` table and the two job counters never move. -/
def jobsFrame (m m' : MState) : Prop :=
  m'.store.jobs = m.store.jobs ∧
  m'.stats.jobs_imported = m.stats.jobs_imported ∧
  m'.stats.jobs_updated = m.stats.jobs_updated

/-- Frame preserved by every dimension resolver: the link tables. -/
def linksFrame (m m' : MState) : Prop :=
  m'.store.job_locations = m.store.job_locations ∧
  m'.store.job_skills = m.store.job_skills

theorem jobsFrame_refl (m : MState) : jobsFrame m m := ⟨rfl, rfl, rfl⟩

theorem jobsFrame_trans {a b c : MState} (h1 : jobsFrame a b) (h2 : jobsFrame b c) :
    jobsFrame a c :=
  ⟨h2.1.trans h1.1, h2.2.1.trans h1.2.1, h2.2.2.trans h1.2.2⟩

theorem linksFrame_refl (m : MState) : linksFrame m m := ⟨rfl, rfl⟩

theorem linksFrame_trans {a b c : MState} (h1 : linksFrame a b) (h2 : linksFrame b c) :
    linksFrame a c :=
  ⟨h2.1.trans h1.1, h2.2.trans h1.2⟩

theorem gocCategory_frame (cat : String) (m : MState) :
    jobsFrame m (get_or_create_skill_category cat m).2 ∧
    linksFrame m (get_or_create_skill_category cat m).2 := by
  unfold get_or_create_skill_category
  split
  · exact ⟨jobsFrame_refl m, linksFrame_refl m⟩
  · split <;> exact ⟨⟨rfl, rfl, rfl⟩, ⟨rfl, rfl⟩⟩

theorem gocSkill_frame (nm cat : String) (m : MState) :
    jobsFrame m (get_or_create_skill nm cat m).2 ∧
    linksFrame m (get_or_create_skill nm cat m).2 := by
  unfold get_or_create_skill
  split
  · exact ⟨jobsFrame_refl m, linksFrame_refl m⟩
  · dsimp only
    split
    · exact ⟨jobsFrame_refl m, linksFrame_refl m⟩
    · rcases hgc : get_or_create_skill_category cat m with ⟨catId, m1⟩
      have hcat := gocCategory_frame cat m
      rw [hgc] at hcat
      dsimp only
      split <;>
        exact ⟨jobsFrame_trans hcat.1 ⟨rfl, rfl, rfl⟩,
               linksFrame_trans hcat.2 ⟨rfl, rfl⟩⟩

theorem gocCompany_frame (r : Row) (m : MState) :
    jobsFrame m (get_or_create_company r m).2 ∧
    linksFrame m (get_or_create_company r m).2 := by
  unfold get_or_create_company
  dsimp only
  split
  · exact ⟨jobsFrame_refl m, linksFrame_refl m⟩
  · split
    · exact ⟨jobsFrame_refl m, linksFrame_refl m⟩
    · split <;> exact ⟨⟨rfl, rfl, rfl⟩, ⟨rfl, rfl⟩⟩

theorem gocLocation_frame (items : List LocItem) (isR : Bool) (m : MState) :
    jobsFrame m (get_or_create_location items isR m).2 ∧
    linksFrame m (get_or_create_location items isR m).2 := by
  unfold get_or_create_location
  dsimp only
  split
  · exact ⟨jobsFrame_refl m, linksFrame_refl m⟩
  · split <;> exact ⟨⟨rfl, rfl, rfl⟩, ⟨rfl, rfl⟩⟩

/-- One location-link step: `jobs` untouched, `job_skills` untouched,
`job_locations` only grows. -/
theorem linkLocStep_frame (jobId : ℕ) (isR : Bool) (m : MState) (item : LocItem) :
    jobsFrame m (linkLocStep jobId isR m item) ∧
    (linkLocStep jobId isR m item).store.job_skills = m.store.job_skills ∧
    m.store.job_locations <+: (linkLocStep jobId isR m item).store.job_locations := by
  unfold linkLocStep
  rcases hgl : get_or_create_location [item] isR m with ⟨locId, m'⟩
  have hfr := gocLocation_frame [item] isR m
  rw [hgl] at hfr
  dsimp only
  split
  · exact ⟨jobsFrame_trans hfr.1 ⟨rfl, rfl, rfl⟩, hfr.2.2,
      hfr.2.1 ▸ insertPairIfAbsent_prefix _ _⟩
  · exact ⟨hfr.1, hfr.2.2, hfr.2.1 ▸ List.prefix_refl _⟩

/-- The location-linking loop: `jobs` and both job counters are untouched,
`job_skills` is untouched, and `job_locations` only grows. -/
theorem linkLocations_frame (jobId : ℕ) (cities : List LocItem) (isR : Bool) (m : MState) :
    jobsFrame m (linkLocations jobId cities isR m) ∧
    (linkLocations jobId cities isR m).store.job_skills = m.store.job_skills ∧
    m.store.job_locations <+: (linkLocations jobId cities isR m).store.job_locations := by
  unfold linkLocations
  dsimp only
  generalize (if cities = [] ∧ isR = true then [LocItem.obj (some "Remote")] else cities) = items
  induction items generalizing m with
  | nil => exact ⟨jobsFrame_refl m, rfl, List.prefix_refl _⟩
  | cons item rest ih =>
    rw [List.foldl_cons]
    have hstep := linkLocStep_frame jobId isR m item
    have hrest := ih (linkLocStep jobId isR m item)
    exact ⟨jobsFrame_trans hstep.1 hrest.1, hrest.2.1.trans hstep.2.1,
      hstep.2.2.trans hrest.2.2⟩

/-- One skill-link step: `jobs` untouched, `job_locations` untouched,
`job_skills` only grows. -/
theorem linkSkillStep_frame (jobId : ℕ) (cat : String) (m : MState) (nm : String) :
    jobsFrame m (linkSkillStep jobId cat m nm) ∧
    (linkSkillStep jobId cat m nm).store.job_locations = m.store.job_locations ∧
    m.store.job_skills <+: (linkSkillStep jobId cat m nm).store.job_skills := by
  unfold linkSkillStep
  rcases hgs : get_or_create_skill nm cat m with ⟨sid?, m'⟩
  have hfr := gocSkill_frame nm cat m
  rw [hgs] at hfr
  dsimp only
  cases sid? with
  | none => exact ⟨hfr.1, hfr.2.1, hfr.2.2 ▸ List.prefix_refl _⟩
  | some sid =>
    exact ⟨jobsFrame_trans hfr.1 ⟨rfl, rfl, rfl⟩, hfr.2.1,
      hfr.2.2 ▸ insertPairIfAbsent_prefix _ _⟩

/-- One category of the skill loop: same frame as a single step. -/
theorem linkSkillsCat_frame (jobId : ℕ) (r : Row) (m : MState) (cat : String) :
    jobsFrame m (linkSkillsCat jobId r m cat) ∧
    (linkSkillsCat jobId r m cat).store.job_locations = m.store.job_locations ∧
    m.store.job_skills <+: (linkSkillsCat jobId r m cat).store.job_skills := by
  unfold linkSkillsCat
  rcases hlk : alookup cat r.skill_fields with _ | names
  · exact ⟨jobsFrame_refl m, rfl, List.prefix_refl _⟩
  · dsimp only
    clear hlk
    induction names generalizing m with
    | nil => exact ⟨jobsFrame_refl m, rfl, List.prefix_refl _⟩
    | cons nm rest ih =>
      rw [List.foldl_cons]
      have hstep := linkSkillStep_frame jobId cat m nm
      have hrest := ih (linkSkillStep jobId cat m nm)
      exact ⟨jobsFrame_trans hstep.1 hrest.1, hrest.2.1.trans hstep.2.1,
        hstep.2.2.trans hrest.2.2⟩

/-- The skill-linking loop: `jobs` and both job counters are untouched,
`job_locations` is untouched, and `job_skills` only grows. -/
theorem linkSkills_frame (jobId : ℕ) (r : Row) (m : MState) :
    jobsFrame m (linkSkills jobId r m) ∧
    (linkSkills jobId r m).store.job_locations = m.store.job_locations ∧
    m.store.job_skills <+: (linkSkills jobId r m).store.job_skills := by
  unfold linkSkills
  generalize skillCategoryNames = cats
  induction cats generalizing m with
  | nil => exact ⟨jobsFrame_refl m, rfl, List.prefix_refl _⟩
  | cons cat rest ih =>
    rw [List.foldl_cons]
    have hstep := linkSkillsCat_frame jobId r m cat
    have hrest := ih (linkSkillsCat jobId r m cat)
    exact ⟨jobsFrame_trans hstep.1 hrest.1, hrest.2.1.trans hstep.2.1,
      hstep.2.2.trans hrest.2.2⟩

/-! ## The good-record normal form of `import_job` -/

/-- A record with a resolvable company name always resolves to some id. -/
theorem gocCompany_some (r : Row) (m : MState)
    (h : ¬(r.company_name = "" ∨ r.company_name = "Unknown")) :
    ∃ cid, (get_or_create_company r m).1 = some cid := by
  unfold get_or_create_company
  dsimp only
  rw [if_neg h]
  split
  · exact ⟨_, rfl⟩
  · split
    · exact ⟨_, rfl⟩
    · exact ⟨_, rfl⟩

/-- `canonJob` only looks at the jobs table. -/
theorem canonJob_congr {S S' : Store} (h : S'.jobs = S.jobs) (e : String) :
    canonJob S' e = canonJob S e := by
  unfold canonJob
  rw [h]

/-- For a record that passes both guards, `import_job` succeeds and factors
into company resolution, the upsert stage, and the two link loops. -/
theorem import_job_good_eq (m : MState) (r : Row) (ts : ℕ)
    (hid : r.id ≠ "") (hcn : ¬(r.company_name = "" ∨ r.company_name = "Unknown")) :
    ∃ cid m1, get_or_create_company r m = (some cid, m1) ∧
      import_job r ts m =
        (true,
          linkSkills (upsertJobId m1.store r) r
            (linkLocations (upsertJobId m1.store r) r.locations (rowIsRemote r)
              (upsertState r cid ts m1))) := by
  obtain ⟨cid, hcid⟩ := gocCompany_some r m hcn
  rcases hc : get_or_create_company r m with ⟨cid?, m1⟩
  rw [hc] at hcid
  dsimp only at hcid
  subst hcid
  refine ⟨cid, m1, rfl, ?_⟩
  unfold import_job
  rw [if_neg hid, hc]
  dsimp only
  unfold upsertState upsertJobId canonJob
  cases m1.store.jobs.find? (fun j => j.external_job_id = r.id) <;> rfl

/-- The upsert stage leaves every table except `jobs` (and every counter
except the touched one) alone, and its effect on `jobs` is the claimed
update-or-insert. -/
theorem upsertState_frame (r : Row) (cid ts : ℕ) (m1 : MState) :
    (upsertState r cid ts m1).store.job_locations = m1.store.job_locations ∧
    (upsertState r cid ts m1).store.job_skills = m1.store.job_skills ∧
    (upsertState r cid ts m1).store.companies = m1.store.companies ∧
    (upsertState r cid ts m1).store.locations = m1.store.locations ∧
    (upsertState r cid ts m1).store.skill_categories = m1.store.skill_categories ∧
    (upsertState r cid ts m1).store.skills = m1.store.skills ∧
    (upsertState r cid ts m1).caches = m1.caches := by
  unfold upsertState
  cases canonJob m1.store r.id <;> exact ⟨rfl, rfl, rfl, rfl, rfl, rfl, rfl⟩

/-! ## Job upsert semantics (claim C3) -/

/-- C3 — Job upsert semantics: for a record with a non-blank external id and
a resolvable company, `import_job` succeeds and: if a job row with that
external id exists, the jobs table is rewritten by updating exactly that row
with the record's field values (`upsertFields`: all mutable columns
refreshed, `status` forced to `open` — reopening a closed row —
`last_seen_at = updated_at = fetched_at = ts`), counting one update and no
inserts; if no such row exists, a fresh row (`freshJob`: `status = open`,
`fetched_at = last_seen_at = ts`) is appended, counting one import and no
update — the two counters report whether the row was newly created. -/
theorem c3_job_upsert (m : MState) (r : Row) (ts : ℕ) (hg : isGoodRow r = true) :
    (import_job r ts m).1 = true ∧
    (∀ ex, canonJob m.store r.id = some ex →
      ∃ cid,
        (import_job r ts m).2.store.jobs =
          m.store.jobs.map (fun j => if j.id = ex.id then upsertFields r cid ts j else j) ∧
        (upsertFields r cid ts ex).status = JobStatus.open ∧
        (upsertFields r cid ts ex).last_seen_at = some ts ∧
        (upsertFields r cid ts ex).updated_at = ts ∧
        (import_job r ts m).2.stats.jobs_updated = m.stats.jobs_updated + 1 ∧
        (import_job r ts m).2.stats.jobs_imported = m.stats.jobs_imported) ∧
    (canonJob m.store r.id = none →
      ∃ cid,
        (import_job r ts m).2.store.jobs =
          m.store.jobs ++ [freshJob r cid (m.store.jobs.length + 1) ts] ∧
        (freshJob r cid (m.store.jobs.length + 1) ts).status = JobStatus.open ∧
        (freshJob r cid (m.store.jobs.length + 1) ts).fetched_at = ts ∧
        (freshJob r cid (m.store.jobs.length + 1) ts).last_seen_at = some ts ∧
        (freshJob r cid (m.store.jobs.length + 1) ts).external_job_id = r.id ∧
        (import_job r ts m).2.stats.jobs_imported = m.stats.jobs_imported + 1 ∧
        (import_job r ts m).2.stats.jobs_updated = m.stats.jobs_updated) := by
  have hg' : r.id ≠ "" ∧ r.company_name ≠ "" ∧ r.company_name ≠ "Unknown" := by
    have h := hg
    simp [isGoodRow] at h
    exact ⟨h.1.1, h.1.2, h.2⟩
  have hcn : ¬(r.company_name = "" ∨ r.company_name = "Unknown") := by
    rcases hg' with ⟨_, h1, h2⟩
    rintro (h | h) <;> [exact h1 h; exact h2 h]
  obtain ⟨cid, m1, hc, heq⟩ := import_job_good_eq m r ts hg'.1 hcn
  have hcf := gocCompany_frame r m
  rw [hc] at hcf
  have hjobs1 : m1.store.jobs = m.store.jobs := hcf.1.1
  have hcanon : canonJob m1.store r.id = canonJob m.store r.id := canonJob_congr hjobs1 r.id
  -- frames of the two link loops over the upsert result
  set mU := upsertState r cid ts m1 with hmU
  have hLL := linkLocations_frame (upsertJobId m1.store r) r.locations (rowIsRemote r) mU
  set mL := linkLocations (upsertJobId m1.store r) r.locations (rowIsRemote r) mU with hmL
  have hLS := linkSkills_frame (upsertJobId m1.store r) r mL
  have hfinaljobs : (import_job r ts m).2.store.jobs = mU.store.jobs := by
    rw [heq]
    dsimp only
    rw [hLS.1.1, hLL.1.1]
  have hfinalupd : (import_job r ts m).2.stats.jobs_updated = mU.stats.jobs_updated := by
    rw [heq]
    dsimp only
    rw [hLS.1.2.2, hLL.1.2.2]
  have hfinalimp : (import_job r ts m).2.stats.jobs_imported = mU.stats.jobs_imported := by
    rw [heq]
    dsimp only
    rw [hLS.1.2.1, hLL.1.2.1]
  refine ⟨by rw [heq], ?_, ?_⟩
  · intro ex hex
    refine ⟨cid, ?_, rfl, rfl, rfl, ?_, ?_⟩
    · rw [hfinaljobs, hmU]
      unfold upsertState
      rw [hcanon, hex]
      dsimp only
      rw [hjobs1]
    · rw [hfinalupd, hmU]
      unfold upsertState
      rw [hcanon, hex]
      dsimp only
      rw [hcf.1.2.2]
    · rw [hfinalimp, hmU]
      unfold upsertState
      rw [hcanon, hex]
      dsimp only
      rw [hcf.1.2.1]
  · intro hnone
    refine ⟨cid, ?_, rfl, rfl, rfl, rfl, ?_, ?_⟩
    · rw [hfinaljobs, hmU]
      unfold upsertState
      rw [hcanon, hnone]
      dsimp only
      rw [hjobs1]
    · rw [hfinalimp, hmU]
      unfold upsertState
      rw [hcanon, hnone]
      dsimp only
      rw [hcf.1.2.1]
    · rw [hfinalupd, hmU]
      unfold upsertState
      rw [hcanon, hnone]
      dsimp only
      rw [hcf.1.2.2]

/-- C3 witness: upserting the concrete record `rowA` into the empty store
inserts a fresh open row stamped with the run timestamp. -/
theorem c3_job_upsert_witness :
    (import_job rowA 1 ⟨emptyStore, initCaches, initStats⟩).1 = true ∧
    ∃ cid,
      (import_job rowA 1 ⟨emptyStore, initCaches, initStats⟩).2.store.jobs =
        [freshJob rowA cid 1 1] ∧
      (import_job rowA 1 ⟨emptyStore, initCaches, initStats⟩).2.stats.jobs_imported = 1 := by
  have h := c3_job_upsert ⟨emptyStore, initCaches, initStats⟩ rowA 1 (by decide)
  obtain ⟨cid, hjobs, _, _, _, _, himp, _⟩ := h.2.2 (by decide)
  exact ⟨h.1, cid, by simpa using hjobs, by simpa using himp⟩

/-! ## Append-only relations (claim C7) -/

/-- Unpacked form of the good-record guard. -/
theorem isGoodRow_spec (r : Row) (h : isGoodRow r = true) :
    r.id ≠ "" ∧ ¬(r.company_name = "" ∨ r.company_name = "Unknown") := by
  have h' := h
  simp [isGoodRow] at h'
  exact ⟨h'.1.1, by rintro (hx | hx) <;> [exact h'.1.2 hx; exact h'.2 hx]⟩

/-- A record failing either guard is a no-op returning `False`. -/
theorem import_job_notGood_eq (m : MState) (r : Row) (ts : ℕ) (h : isGoodRow r = false) :
    import_job r ts m = (false, m) := by
  by_cases hid : r.id = ""
  · simp [import_job, hid]
  · have hcn : r.company_name = "" ∨ r.company_name = "Unknown" := by
      simp [isGoodRow, hid] at h
      tauto
    simp [import_job, hid, get_or_create_company, hcn]

theorem linkLocStep_nodup (jobId : ℕ) (isR : Bool) (m : MState) (item : LocItem)
    (h : m.store.job_locations.Nodup) :
    (linkLocStep jobId isR m item).store.job_locations.Nodup := by
  unfold linkLocStep
  rcases hgl : get_or_create_location [item] isR m with ⟨locId, m'⟩
  have hfr := gocLocation_frame [item] isR m
  rw [hgl] at hfr
  dsimp only
  split
  · exact insertPairIfAbsent_nodup _ _ (hfr.2.1 ▸ h)
  · exact hfr.2.1 ▸ h

theorem linkLocations_nodup (jobId : ℕ) (cities : List LocItem) (isR : Bool) (m : MState)
    (h : m.store.job_locations.Nodup) :
    (linkLocations jobId cities isR m).store.job_locations.Nodup := by
  unfold linkLocations
  dsimp only
  generalize (if cities = [] ∧ isR = true then [LocItem.obj (some "Remote")] else cities) = items
  induction items generalizing m with
  | nil => exact h
  | cons item rest ih =>
    rw [List.foldl_cons]
    exact ih (linkLocStep jobId isR m item) (linkLocStep_nodup jobId isR m item h)

theorem linkSkillStep_nodup (jobId : ℕ) (cat : String) (m : MState) (nm : String)
    (h : m.store.job_skills.Nodup) :
    (linkSkillStep jobId cat m nm).store.job_skills.Nodup := by
  unfold linkSkillStep
  rcases hgs : get_or_create_skill nm cat m with ⟨sid?, m'⟩
  have hfr := gocSkill_frame nm cat m
  rw [hgs] at hfr
  dsimp only
  cases sid? with
  | none => exact hfr.2.2 ▸ h
  | some sid => exact insertPairIfAbsent_nodup _ _ (hfr.2.2 ▸ h)

theorem linkSkillsCat_nodup (jobId : ℕ) (r : Row) (m : MState) (cat : String)
    (h : m.store.job_skills.Nodup) :
    (linkSkillsCat jobId r m cat).store.job_skills.Nodup := by
  unfold linkSkillsCat
  rcases alookup cat r.skill_fields with _ | names
  · exact h
  · dsimp only
    induction names generalizing m with
    | nil => exact h
    | cons nm rest ih =>
      rw [List.foldl_cons]
      exact ih (linkSkillStep jobId cat m nm) (linkSkillStep_nodup jobId cat m nm h)

theorem linkSkills_nodup (jobId : ℕ) (r : Row) (m : MState)
    (h : m.store.job_skills.Nodup) :
    (linkSkills jobId r m).store.job_skills.Nodup := by
  unfold linkSkills
  generalize skillCategoryNames = cats
  induction cats generalizing m with
  | nil => exact h
  | cons cat rest ih =>
    rw [List.foldl_cons]
    exact ih (linkSkillsCat jobId r m cat) (linkSkillsCat_nodup jobId r m cat h)

/-- C7 — Append-only relations: `import_job` only ever extends the
`job_locations` and `job_skills` link tables (list prefix: nothing is removed
or reordered), linking inserts a pair only when absent (duplicate-freedom is
preserved), the reconciliation pass never touches either link table, and in
the concrete two-run scenario the `python` link of run 1 survives a run-2
re-ingestion that lists no skills. -/
theorem c7_links_append_only :
    (∀ (r : Row) (ts : ℕ) (m : MState),
      m.store.job_locations <+: (import_job r ts m).2.store.job_locations ∧
      m.store.job_skills <+: (import_job r ts m).2.store.job_skills) ∧
    (∀ (r : Row) (ts : ℕ) (m : MState),
      m.store.job_locations.Nodup → (import_job r ts m).2.store.job_locations.Nodup) ∧
    (∀ (r : Row) (ts : ℕ) (m : MState),
      m.store.job_skills.Nodup → (import_job r ts m).2.store.job_skills.Nodup) ∧
    (∀ (ts : ℕ) (m : MState),
      (mark_closed_jobs ts m).store.job_locations = m.store.job_locations ∧
      (mark_closed_jobs ts m).store.job_skills = m.store.job_skills) ∧
    ((migrateRun [rowSkillless] 2 (migrateRun [rowSkilled] 1 emptyStore).store).store.job_skills
        = [(1, 1)] ∧
      (migrateRun [rowSkilled] 1 emptyStore).store.job_skills = [(1, 1)] ∧
      (migrateRun [rowSkilled] 1 emptyStore).store.skills.map (·.name) = ["python"]) := by
  have main : ∀ (r : Row) (ts : ℕ) (m : MState),
      (m.store.job_locations <+: (import_job r ts m).2.store.job_locations ∧
        m.store.job_skills <+: (import_job r ts m).2.store.job_skills) ∧
      (m.store.job_locations.Nodup → (import_job r ts m).2.store.job_locations.Nodup) ∧
      (m.store.job_skills.Nodup → (import_job r ts m).2.store.job_skills.Nodup) := by
    intro r ts m
    cases hgr : isGoodRow r with
    | false =>
      rw [import_job_notGood_eq m r ts hgr]
      exact ⟨⟨List.prefix_refl _, List.prefix_refl _⟩, id, id⟩
    | true =>
      obtain ⟨hid, hcn⟩ := isGoodRow_spec r hgr
      obtain ⟨cid, m1, hc, heq⟩ := import_job_good_eq m r ts hid hcn
      have hcf := gocCompany_frame r m
      rw [hc] at hcf
      have hU := upsertState_frame r cid ts m1
      set mU := upsertState r cid ts m1 with hmU
      have hLL := linkLocations_frame (upsertJobId m1.store r) r.locations (rowIsRemote r) mU
      set mL := linkLocations (upsertJobId m1.store r) r.locations (rowIsRemote r) mU with hmL
      have hLS := linkSkills_frame (upsertJobId m1.store r) r mL
      have hlocU : mU.store.job_locations = m.store.job_locations := by
        rw [hU.1, hcf.2.1]
      have hskU : mU.store.job_skills = m.store.job_skills := by
        rw [hU.2.1, hcf.2.2]
      constructor
      · constructor
        · rw [heq]
          dsimp only
          rw [hLS.2.1]
          exact hlocU ▸ hLL.2.2
        · rw [heq]
          dsimp only
          refine List.IsPrefix.trans ?_ hLS.2.2
          rw [hLL.2.1, hskU]
      · constructor
        · intro hn
          rw [heq]
          dsimp only
          rw [hLS.2.1]
          exact linkLocations_nodup _ _ _ _ (hlocU ▸ hn)
        · intro hn
          rw [heq]
          dsimp only
          refine linkSkills_nodup _ _ _ ?_
          rw [hLL.2.1, hskU]
          exact hn
  refine ⟨fun r ts m => (main r ts m).1, fun r ts m => (main r ts m).2.1,
    fun r ts m => (main r ts m).2.2, ?_, by decide, by decide, by decide⟩
  intro ts m
  exact ⟨rfl, rfl⟩

/-- C7 witness: the duplicate-freedom preservation instantiated on the store
left by run 1 of the skill scenario. -/
theorem c7_links_append_only_witness :
    (import_job rowSkillless 2
        ⟨(migrateRun [rowSkilled] 1 emptyStore).store, initCaches, initStats⟩).2.store.job_skills.Nodup := by
  exact c7_links_append_only.2.2.1 rowSkillless 2
    ⟨(migrateRun [rowSkilled] 1 emptyStore).store, initCaches, initStats⟩ (by decide)

/-! ## SeqIds and find? toolbox -/

theorem seqIds_pos {α : Type} (f : α → ℕ) (l : List α) (h : SeqIds f l) {x : α}
    (hx : x ∈ l) : 1 ≤ f x := by
  obtain ⟨i, hgi⟩ := List.mem_iff_get.mp hx
  rw [← hgi, h i]
  omega

theorem seqIds_append {α : Type} (f : α → ℕ) (l : List α) (h : SeqIds f l) (x : α)
    (hx : f x = l.length + 1) : SeqIds f (l ++ [x]) := by
  rintro ⟨iv, hlt⟩
  simp only [List.length_append, List.length_singleton] at hlt
  by_cases hi : iv < l.length
  · have hg : (l ++ [x]).get ⟨iv, by simp; omega⟩ = l.get ⟨iv, hi⟩ := by
      rw [List.get_append]
    rw [hg, h ⟨iv, hi⟩]
  · have hiv : iv = l.length := by omega
    subst hiv
    have hg : (l ++ [x]).get ⟨l.length, by simp⟩ = x := by
      simp [List.get_append_right]
    rw [hg, hx]

theorem seqIds_map {α : Type} (f : α → ℕ) (g : α → α) (hg : ∀ x, f (g x) = f x)
    (l : List α) (h : SeqIds f l) : SeqIds f (l.map g) := by
  rintro ⟨iv, hlt⟩
  simp only [List.length_map] at hlt
  have : (l.map g).get ⟨iv, by simpa using hlt⟩ = g (l.get ⟨iv, hlt⟩) := by simp
  rw [this, hg, h ⟨iv, hlt⟩]

theorem seqIds_inj {α : Type} (f : α → ℕ) (l : List α) (h : SeqIds f l) {x y : α}
    (hx : x ∈ l) (hy : y ∈ l) (hf : f x = f y) : x = y := by
  obtain ⟨i, hgi⟩ := List.mem_iff_get.mp hx
  obtain ⟨j, hgj⟩ := List.mem_iff_get.mp hy
  have hij : i.1 = j.1 := by
    have h1 := h i
    have h2 := h j
    rw [hgi] at h1
    rw [hgj] at h2
    omega
  rw [← hgi, ← hgj]
  congr 1
  exact Fin.ext hij

theorem find?_append_none {α : Type} (p : α → Bool) (l l' : List α)
    (h : l.find? p = none) : (l ++ l').find? p = l'.find? p := by
  induction l with
  | nil => simp
  | cons a rest ih =>
    rw [List.find?_cons] at h
    cases hpa : p a with
    | true => rw [hpa] at h; cases h
    | false =>
      rw [hpa] at h
      rw [List.cons_append, List.find?_cons, hpa]
      exact ih h

theorem find?_congrP {α : Type} (p q : α → Bool) (l : List α) (h : ∀ x, p x = q x) :
    l.find? p = l.find? q := by
  induction l with
  | nil => rfl
  | cons a rest ih =>
    rw [List.find?_cons, List.find?_cons, h a]
    cases q a
    · exact ih
    · rfl

/-- No occurrences of `p` in a list avoiding `p`. -/
theorem filter_eq_nil_of_not_mem {α : Type} [DecidableEq α] (l : List α) (p : α)
    (h : p ∉ l) : l.filter (fun q => q = p) = [] := by
  rw [List.filter_eq_nil_iff]
  intro a ha
  simp only [decide_eq_true_eq]
  rintro rfl
  exact h ha

/-- In a duplicate-free list a member occurs exactly once. -/
theorem filter_len_one_of_nodup_mem {α : Type} [DecidableEq α] (l : List α) (p : α)
    (h : l.Nodup) (hp : p ∈ l) : (l.filter (fun q => q = p)).length = 1 := by
  induction l with
  | nil => cases hp
  | cons a rest ih =>
    rcases List.mem_cons.mp hp with rfl | hmem
    · rw [List.filter_cons_of_pos (by simp)]
      rw [filter_eq_nil_of_not_mem rest p (List.nodup_cons.mp h).1]
      rfl
    · have hne : a ≠ p := by
        rintro rfl
        exact (List.nodup_cons.mp h).1 hmem
      rw [List.filter_cons_of_neg (by simp [hne])]
      exact ih (List.nodup_cons.mp h).2 hmem

/-- The pair occurs exactly once after an insert-if-absent into a
duplicate-free link table. -/
theorem insertPairIfAbsent_count (p : ℕ × ℕ) (l : List (ℕ × ℕ)) (h : l.Nodup) :
    ((insertPairIfAbsent p l).filter (fun q => q = p)).length = 1 := by
  unfold insertPairIfAbsent
  split
  · next hp => exact filter_len_one_of_nodup_mem l p h hp
  · next hp =>
    rw [List.filter_append, filter_eq_nil_of_not_mem l p hp]
    simp

/-! ## Full specification of `get_or_create_location` -/

/-- Bridge between the transcribed three-way `AND` of the SQL `WHERE` clause
and equality of the tuple natural key. -/
theorem locPred_eq (k : String × Option String × String) (x : Location) :
    (decide (x.city = k.1 ∧ x.state = k.2.1 ∧ x.country = k.2.2)) =
      decide (locationKey x = k) := by
  rcases k with ⟨c, st, co⟩
  apply decide_eq_decide.mpr
  simp [locationKey, Prod.ext_iff]

/-- `canonLocId` through the tuple key. -/
theorem canonLocId_eq_key (S : Store) (k : String × Option String × String) :
    canonLocId S k = (S.locations.find? (fun x => locationKey x = k)).map (·.id) := by
  unfold canonLocId
  rw [find?_congrP _ _ _ (locPred_eq k)]

/-- Everything the rest of the development needs to know about one
`get_or_create_location` call, under the store/cache invariants for the
locations table. -/
theorem gocLocation_spec (items : List LocItem) (isR : Bool) (m : MState)
    (hn : (m.store.locations.map locationKey).Nodup)
    (hseq : SeqIds (·.id) m.store.locations)
    (hck : ∀ p ∈ m.caches.location_cache, ∃ row ∈ m.store.locations,
      locationKey row = p.1 ∧ row.id = p.2) :
    (get_or_create_location items isR m).2.store.companies = m.store.companies ∧
    (get_or_create_location items isR m).2.store.skill_categories = m.store.skill_categories ∧
    (get_or_create_location items isR m).2.store.skills = m.store.skills ∧
    (get_or_create_location items isR m).2.store.jobs = m.store.jobs ∧
    (get_or_create_location items isR m).2.store.job_locations = m.store.job_locations ∧
    (get_or_create_location items isR m).2.store.job_skills = m.store.job_skills ∧
    (get_or_create_location items isR m).2.caches.company_cache = m.caches.company_cache ∧
    (get_or_create_location items isR m).2.caches.skill_cache = m.caches.skill_cache ∧
    (get_or_create_location items isR m).2.caches.skill_category_cache =
      m.caches.skill_category_cache ∧
    (get_or_create_location items isR m).2.stats.jobs_imported = m.stats.jobs_imported ∧
    (get_or_create_location items isR m).2.stats.jobs_updated = m.stats.jobs_updated ∧
    m.store.locations <+: (get_or_create_location items isR m).2.store.locations ∧
    (∃ row ∈ (get_or_create_location items isR m).2.store.locations,
      locationKey row = locKeyOf items isR ∧ row.id = (get_or_create_location items isR m).1) ∧
    canonLocId (get_or_create_location items isR m).2.store (locKeyOf items isR) =
      some (get_or_create_location items isR m).1 ∧
    1 ≤ (get_or_create_location items isR m).1 ∧
    ((canonLocId m.store (locKeyOf items isR)).isSome →
      (get_or_create_location items isR m).2.store = m.store) ∧
    ((get_or_create_location items isR m).2.store.locations.map locationKey).Nodup ∧
    SeqIds (·.id) (get_or_create_location items isR m).2.store.locations ∧
    (∀ p ∈ (get_or_create_location items isR m).2.caches.location_cache,
      ∃ row ∈ (get_or_create_location items isR m).2.store.locations,
        locationKey row = p.1 ∧ row.id = p.2) := by
  unfold get_or_create_location
  dsimp only
  rcases hl : alookup (locKeyOf items isR) m.caches.location_cache with _ | lid
  · try rw [hl]
    try dsimp only
    rcases hf : m.store.locations.find?
        (fun l => l.city = (locKeyOf items isR).1 ∧ l.state = (locKeyOf items isR).2.1 ∧
          l.country = (locKeyOf items isR).2.2) with _ | row
    · -- cache miss, select miss: insert
      try rw [hf]
      try dsimp only
      have hfk : m.store.locations.find? (fun x => locationKey x = locKeyOf items isR) = none := by
        rw [← find?_congrP _ _ _ (locPred_eq (locKeyOf items isR))]
        exact hf
      have hnotmem : ∀ row ∈ m.store.locations, locationKey row ≠ locKeyOf items isR := by
        intro row hrow
        have := List.find?_eq_none.mp hfk row hrow
        simpa using this
      set newRow : Location := ⟨m.store.locations.length + 1, (locKeyOf items isR).1,
        (locKeyOf items isR).2.1, (locKeyOf items isR).2.2⟩ with hnew
      have hkeynew : locationKey newRow = locKeyOf items isR := by
        simp [locationKey, hnew]
      refine ⟨rfl, rfl, rfl, rfl, rfl, rfl, rfl, rfl, rfl, rfl, rfl,
        ⟨[newRow], rfl⟩, ⟨newRow, by simp, hkeynew, rfl⟩, ?_, by omega, ?_, ?_, ?_, ?_⟩
      · rw [canonLocId_eq_key]
        dsimp only
        rw [find?_append_none _ _ _ hfk]
        simp [hkeynew]
      · intro hs
        rw [canonLocId_eq_key, hfk] at hs
        simp at hs
      · rw [List.map_append]
        refine List.Nodup.append hn (by simp) ?_
        intro k hk1 hk2
        simp only [List.mem_map] at hk1
        obtain ⟨row, hrow, rfl⟩ := hk1
        simp only [List.map_cons, List.map_nil, List.mem_singleton] at hk2
        exact hnotmem row hrow (hk2.trans hkeynew)
      · exact seqIds_append _ _ hseq _ rfl
      · intro p hp
        rcases List.mem_cons.mp hp with rfl | hmem
        · exact ⟨newRow, by simp, hkeynew, rfl⟩
        · obtain ⟨row, hrow, hkey, hid⟩ := hck p hmem
          exact ⟨row, List.mem_append_left _ hrow, hkey, hid⟩
    · -- cache miss, select hit
      try rw [hf]
      try dsimp only
      have hmem := List.mem_of_find?_eq_some hf
      have hkey : locationKey row = locKeyOf items isR := by
        have := List.find?_some hf
        simp only [decide_eq_true_eq] at this
        rcases this with ⟨h1, h2, h3⟩
        rcases hkk : locKeyOf items isR with ⟨c, st, co⟩
        rw [hkk] at h1 h2 h3
        simp [locationKey, h1, h2, h3]
      refine ⟨rfl, rfl, rfl, rfl, rfl, rfl, rfl, rfl, rfl, rfl, rfl,
        List.prefix_refl _, ⟨row, hmem, hkey, rfl⟩, ?_, seqIds_pos _ _ hseq hmem, fun _ => rfl,
        hn, hseq, ?_⟩
      · rw [canonLocId_eq_key]
        rw [find?_of_mem_nodup locationKey _ hn row hmem _ hkey]
        rfl
      · intro p hp
        rcases List.mem_cons.mp hp with rfl | hmem'
        · exact ⟨row, hmem, hkey, rfl⟩
        · exact hck p hmem'
  · -- cache hit
    try rw [hl]
    try dsimp only
    have hcached : ∃ row ∈ m.store.locations,
        locationKey row = locKeyOf items isR ∧ row.id = lid := by
      unfold alookup at hl
      rcases hfind : m.caches.location_cache.find?
          (fun p => p.1 = locKeyOf items isR) with _ | pr
      · rw [hfind] at hl
        cases hl
      · rw [hfind] at hl
        simp only [Option.map_some'] at hl
        have hprmem := List.mem_of_find?_eq_some hfind
        have hprkey : pr.1 = locKeyOf items isR := by
          have := List.find?_some hfind
          simpa using this
        obtain ⟨row, hrow, hkey, hid⟩ := hck pr hprmem
        exact ⟨row, hrow, hprkey ▸ hkey, (Option.some.inj hl) ▸ hid⟩
    obtain ⟨row, hrow, hkey, hid⟩ := hcached
    refine ⟨rfl, rfl, rfl, rfl, rfl, rfl, rfl, rfl, rfl, rfl, rfl,
      List.prefix_refl _, ⟨row, hrow, hkey, hid⟩, ?_, ?_, fun _ => rfl, hn, hseq, hck⟩
    · rw [canonLocId_eq_key]
      rw [find?_of_mem_nodup locationKey _ hn row hrow _ hkey]
      simp [hid]
    · rw [← hid]
      exact seqIds_pos _ _ hseq hrow

/-! ## Locations-table frame of the non-location operations -/

/-- Frame: the locations table and its cache are untouched. -/
def locFrame (m m' : MState) : Prop :=
  m'.store.locations = m.store.locations ∧
  m'.caches.location_cache = m.caches.location_cache

theorem locFrame_refl (m : MState) : locFrame m m := ⟨rfl, rfl⟩

theorem locFrame_trans {a b c : MState} (h1 : locFrame a b) (h2 : locFrame b c) :
    locFrame a c := ⟨h2.1.trans h1.1, h2.2.trans h1.2⟩

theorem gocCompany_locFrame (r : Row) (m : MState) :
    locFrame m (get_or_create_company r m).2 := by
  unfold get_or_create_company
  dsimp only
  split
  · exact locFrame_refl m
  · split
    · exact locFrame_refl m
    · split <;> exact ⟨rfl, rfl⟩

theorem gocCategory_locFrame (cat : String) (m : MState) :
    locFrame m (get_or_create_skill_category cat m).2 := by
  unfold get_or_create_skill_category
  split
  · exact locFrame_refl m
  · split <;> exact ⟨rfl, rfl⟩

theorem gocSkill_locFrame (nm cat : String) (m : MState) :
    locFrame m (get_or_create_skill nm cat m).2 := by
  unfold get_or_create_skill
  split
  · exact locFrame_refl m
  · dsimp only
    split
    · exact locFrame_refl m
    · rcases hgc : get_or_create_skill_category cat m with ⟨catId, m1⟩
      have hcat := gocCategory_locFrame cat m
      rw [hgc] at hcat
      dsimp only
      split <;> exact locFrame_trans hcat ⟨rfl, rfl⟩

theorem linkSkillStep_locFrame (jobId : ℕ) (cat : String) (m : MState) (nm : String) :
    locFrame m (linkSkillStep jobId cat m nm) := by
  unfold linkSkillStep
  rcases hgs : get_or_create_skill nm cat m with ⟨sid?, m'⟩
  have hfr := gocSkill_locFrame nm cat m
  rw [hgs] at hfr
  dsimp only
  cases sid? with
  | none => exact hfr
  | some sid => exact locFrame_trans hfr ⟨rfl, rfl⟩

theorem linkSkillsCat_locFrame (jobId : ℕ) (r : Row) (m : MState) (cat : String) :
    locFrame m (linkSkillsCat jobId r m cat) := by
  unfold linkSkillsCat
  rcases alookup cat r.skill_fields with _ | names
  · exact locFrame_refl m
  · dsimp only
    induction names generalizing m with
    | nil => exact locFrame_refl m
    | cons nm rest ih =>
      rw [List.foldl_cons]
      exact locFrame_trans (linkSkillStep_locFrame jobId cat m nm)
        (ih (linkSkillStep jobId cat m nm))

theorem linkSkills_locFrame (jobId : ℕ) (r : Row) (m : MState) :
    locFrame m (linkSkills jobId r m) := by
  unfold linkSkills
  generalize skillCategoryNames = cats
  induction cats generalizing m with
  | nil => exact locFrame_refl m
  | cons cat rest ih =>
    rw [List.foldl_cons]
    exact locFrame_trans (linkSkillsCat_locFrame jobId r m cat)
      (ih (linkSkillsCat jobId r m cat))

/-! ## Remote-without-explicit-location (claim C8) -/

/-- The synthetic key substituted for a remote record without locations. -/
theorem locKeyOf_remote : locKeyOf [LocItem.obj (some "Remote")] true = ("Remote", none, "USA") := by
  decide

/-- Members of a key-duplicate-free jobs table are determined by their
external id. -/
theorem jobs_ext_inj {S : Store} (hjn : (S.jobs.map (·.external_job_id)).Nodup)
    {x y : Job} (hx : x ∈ S.jobs) (hy : y ∈ S.jobs)
    (hxy : x.external_job_id = y.external_job_id) : x = y :=
  List.inj_on_of_nodup_map hjn hx hy hxy

/-- C8 — Remote-without-explicit-location: processing a well-formed record
with `is_remote = true` and an empty `locations` list links its job to
exactly one synthetic `("Remote", none, "USA")` location row: such a row
exists and is unique in the resulting locations table, and for the record's
job the link pair occurs exactly once in `job_locations`. -/
theorem c8_remote_location (m : MState) (r : Row) (ts : ℕ)
    (hg : isGoodRow r = true)
    (hloc : r.locations = [])
    (hrem : rowIsRemote r = true)
    (hn : (m.store.locations.map locationKey).Nodup)
    (hseq : SeqIds (·.id) m.store.locations)
    (hck : ∀ p ∈ m.caches.location_cache, ∃ row ∈ m.store.locations,
      locationKey row = p.1 ∧ row.id = p.2)
    (hjn : (m.store.jobs.map (·.external_job_id)).Nodup)
    (hpn : m.store.job_locations.Nodup) :
    ∃ loc ∈ (import_job r ts m).2.store.locations,
      locationKey loc = ("Remote", none, "USA") ∧
      (∀ loc' ∈ (import_job r ts m).2.store.locations,
        locationKey loc' = ("Remote", none, "USA") → loc' = loc) ∧
      ∀ j ∈ (import_job r ts m).2.store.jobs, j.external_job_id = r.id →
        (((import_job r ts m).2.store.job_locations.filter
          (fun q => q = (j.id, loc.id))).length = 1) := by
  obtain ⟨hid, hcn⟩ := isGoodRow_spec r hg
  obtain ⟨cid, m1, hc, heq⟩ := import_job_good_eq m r ts hid hcn
  have hcf := gocCompany_frame r m
  have hclf := gocCompany_locFrame r m
  rw [hc] at hcf hclf
  have hU := upsertState_frame r cid ts m1
  set mU := upsertState r cid ts m1 with hmU
  -- invariants transported to the state the location resolver sees
  have hULocs : mU.store.locations = m.store.locations := by rw [hU.2.2.2.1, hclf.1]
  have hUCache : mU.caches.location_cache = m.caches.location_cache := by
    rw [hU.2.2.2.2.2.2, hclf.2]
  have hUPairs : mU.store.job_locations = m.store.job_locations := by
    rw [hU.1, hcf.2.1]
  -- the link phase is a single step on the synthetic remote item
  have hLL : linkLocations (upsertJobId m1.store r) r.locations (rowIsRemote r) mU =
      linkLocStep (upsertJobId m1.store r) (rowIsRemote r) mU (LocItem.obj (some "Remote")) := by
    unfold linkLocations
    rw [hloc, hrem]
    dsimp only
    rw [if_pos (⟨rfl, rfl⟩ : ([] : List LocItem) = [] ∧ true = true)]
    rw [List.foldl_cons, List.foldl_nil]
  set jobId := upsertJobId m1.store r with hjobId
  -- resolver spec at mU
  have hspec := gocLocation_spec [LocItem.obj (some "Remote")] (rowIsRemote r) mU
    (by rw [hULocs]; exact hn) (by rw [hULocs]; exact hseq)
    (by rw [hUCache, hULocs]; exact hck)
  rcases hgl : get_or_create_location [LocItem.obj (some "Remote")] (rowIsRemote r) mU
    with ⟨locId, mR⟩
  rw [hgl] at hspec
  have hkeyR : locKeyOf [LocItem.obj (some "Remote")] (rowIsRemote r) = ("Remote", none, "USA") := by
    rw [hrem]
    exact locKeyOf_remote
  obtain ⟨-, -, -, hRjobs, hRpairs, -, -, -, -, -, -, -,
    ⟨loc, hlocmem, hlockey, hlocid⟩, -, hpos, -, hRnodup, -, -⟩ := hspec
  have hstep : linkLocStep jobId (rowIsRemote r) mU (LocItem.obj (some "Remote")) =
      { mR with store.job_locations := insertPairIfAbsent (jobId, locId) mR.store.job_locations } := by
    unfold linkLocStep
    rw [hgl]
    dsimp only
    rw [if_pos (by omega)]
  set mL := linkLocStep jobId (rowIsRemote r) mU (LocItem.obj (some "Remote")) with hmL
  have hLS := linkSkills_frame jobId r mL
  have hLSloc := linkSkills_locFrame jobId r mL
  have hfinal : (import_job r ts m).2 = linkSkills jobId r mL := by
    rw [heq]
    dsimp only
    rw [hLL]
  refine ⟨loc, ?_, hkeyR ▸ hlockey, ?_, ?_⟩
  · rw [hfinal, hLSloc.1, hstep]
    exact hlocmem
  · intro loc' hm' hk'
    rw [hfinal, hLSloc.1, hstep] at hm'
    exact List.inj_on_of_nodup_map hRnodup hm' hlocmem
      (hk'.trans (hkeyR ▸ hlockey).symm)
  · intro j hj hjext
    have hjobs : (import_job r ts m).2.store.jobs = mU.store.jobs := by
      rw [hfinal, hLS.1.1, hstep]
      exact hRjobs
    rw [hjobs] at hj
    -- the record's job carries id `jobId`
    have hjid : j.id = jobId := by
      rw [hjobId]
      unfold upsertJobId
      have hcanon : canonJob m1.store r.id = canonJob m.store r.id :=
        canonJob_congr hcf.1.1 r.id
      rw [hcanon]
      rw [hmU] at hj
      unfold upsertState at hj
      rw [hcanon] at hj
      cases hex : canonJob m.store r.id with
      | some ex =>
        rw [hex] at hj
        dsimp only at hj
        rw [hcf.1.1] at hj
        rcases List.mem_map.mp hj with ⟨j0, hj0, rfl⟩
        by_cases hj0id : j0.id = ex.id
        · rw [if_pos hj0id]
          dsimp only
          exact hj0id
        · rw [if_neg hj0id] at hjext ⊢
          have hexmem : ex ∈ m.store.jobs := List.mem_of_find?_eq_some hex
          have hexext : ex.external_job_id = r.id := by
            have := List.find?_some hex
            simpa using this
          exact absurd (congrArg (·.id) (jobs_ext_inj hjn hj0 hexmem
            (hjext.trans hexext.symm))) hj0id
      | none =>
        rw [hex] at hj
        dsimp only at hj
        rw [hcf.1.1] at hj
        rcases List.mem_append.mp hj with hj0 | hj0
        · have := List.find?_eq_none.mp hex j hj0
          simp [hjext] at this
        · rw [List.mem_singleton.mp hj0]
          show (freshJob r cid (m.store.jobs.length + 1) ts).id = m1.store.jobs.length + 1
          rw [hcf.1.1]
          rfl
    -- the final link table and the exact count
    have hpairs : (import_job r ts m).2.store.job_locations =
        insertPairIfAbsent (jobId, locId) m.store.job_locations := by
      rw [hfinal, hLS.2.1, hstep]
      dsimp only
      rw [hRpairs, hUPairs]
    rw [hpairs, hjid, hlocid]
    exact insertPairIfAbsent_count (jobId, locId) m.store.job_locations hpn

/-- C8 witness: the remote record `rowRemote` ingested into the empty store
is linked to exactly one `Remote` location row. -/
theorem c8_remote_location_witness :
    ∃ loc ∈ (import_job rowRemote 1 ⟨emptyStore, initCaches, initStats⟩).2.store.locations,
      locationKey loc = ("Remote", none, "USA") ∧
      (∀ loc' ∈ (import_job rowRemote 1 ⟨emptyStore, initCaches, initStats⟩).2.store.locations,
        locationKey loc' = ("Remote", none, "USA") → loc' = loc) ∧
      ∀ j ∈ (import_job rowRemote 1 ⟨emptyStore, initCaches, initStats⟩).2.store.jobs,
        j.external_job_id = rowRemote.id →
        (((import_job rowRemote 1 ⟨emptyStore, initCaches, initStats⟩).2.store.job_locations.filter
          (fun q => q = (j.id, loc.id))).length = 1) :=
  c8_remote_location ⟨emptyStore, initCaches, initStats⟩ rowRemote 1 (by decide) rfl
    (by decide) (by decide) (by intro i; exact absurd i.isLt (Nat.not_lt_zero _))
    (by decide) (by decide) (by decide)

/-! ## Full specifications of the remaining resolvers -/

/-- Everything the development needs about one `get_or_create_company` call
on a resolvable name, under the store/cache invariants for companies. -/
theorem gocCompany_spec (r : Row) (m : MState)
    (hgood : ¬(r.company_name = "" ∨ r.company_name = "Unknown"))
    (hn : (m.store.companies.map (·.name)).Nodup)
    (hseq : SeqIds (·.id) m.store.companies)
    (hck : ∀ p ∈ m.caches.company_cache, ∃ row ∈ m.store.companies,
      row.name = p.1 ∧ row.id = p.2) :
    (get_or_create_company r m).2.store.locations = m.store.locations ∧
    (get_or_create_company r m).2.store.skill_categories = m.store.skill_categories ∧
    (get_or_create_company r m).2.store.skills = m.store.skills ∧
    (get_or_create_company r m).2.store.jobs = m.store.jobs ∧
    (get_or_create_company r m).2.store.job_locations = m.store.job_locations ∧
    (get_or_create_company r m).2.store.job_skills = m.store.job_skills ∧
    (get_or_create_company r m).2.caches.location_cache = m.caches.location_cache ∧
    (get_or_create_company r m).2.caches.skill_cache = m.caches.skill_cache ∧
    (get_or_create_company r m).2.caches.skill_category_cache = m.caches.skill_category_cache ∧
    (get_or_create_company r m).2.stats.jobs_imported = m.stats.jobs_imported ∧
    (get_or_create_company r m).2.stats.jobs_updated = m.stats.jobs_updated ∧
    m.store.companies <+: (get_or_create_company r m).2.store.companies ∧
    (∃ cid, (get_or_create_company r m).1 = some cid ∧
      canonCompanyId (get_or_create_company r m).2.store r.company_name = some cid) ∧
    ((canonCompanyId m.store r.company_name).isSome →
      (get_or_create_company r m).2.store = m.store) ∧
    ((get_or_create_company r m).2.store.companies.map (·.name)).Nodup ∧
    SeqIds (·.id) (get_or_create_company r m).2.store.companies ∧
    (∀ p ∈ (get_or_create_company r m).2.caches.company_cache,
      ∃ row ∈ (get_or_create_company r m).2.store.companies,
        row.name = p.1 ∧ row.id = p.2) := by
  unfold get_or_create_company
  dsimp only
  rw [if_neg hgood]
  rcases hl : alookup r.company_name m.caches.company_cache with _ | cid
  · try rw [hl]
    try dsimp only
    rcases hf : m.store.companies.find? (fun c => c.name = r.company_name) with _ | row
    · -- cache miss, select miss: insert
      try rw [hf]
      try dsimp only
      have hnotmem : ∀ row ∈ m.store.companies, row.name ≠ r.company_name := by
        intro row hrow
        have := List.find?_eq_none.mp hf row hrow
        simpa using this
      set newRow : Company := ⟨m.store.companies.length + 1, r.company_name,
        r.company_short_name⟩ with hnew
      refine ⟨rfl, rfl, rfl, rfl, rfl, rfl, rfl, rfl, rfl, rfl, rfl,
        ⟨[newRow], rfl⟩, ⟨m.store.companies.length + 1, rfl, ?_⟩, ?_, ?_, ?_, ?_⟩
      · unfold canonCompanyId
        rw [find?_append_none _ _ _ hf]
        simp [hnew]
      · intro hs
        unfold canonCompanyId at hs
        rw [hf] at hs
        simp at hs
      · rw [List.map_append]
        refine List.Nodup.append hn (by simp) ?_
        intro k hk1 hk2
        simp only [List.mem_map] at hk1
        obtain ⟨row, hrow, rfl⟩ := hk1
        simp only [List.map_cons, List.map_nil, List.mem_singleton, hnew] at hk2
        exact hnotmem row hrow hk2
      · exact seqIds_append _ _ hseq _ rfl
      · intro p hp
        rcases List.mem_cons.mp hp with rfl | hmem
        · exact ⟨newRow, by simp, rfl, rfl⟩
        · obtain ⟨row, hrow, hkey, hid⟩ := hck p hmem
          exact ⟨row, List.mem_append_left _ hrow, hkey, hid⟩
    · -- cache miss, select hit
      try rw [hf]
      try dsimp only
      have hmem := List.mem_of_find?_eq_some hf
      have hkey : row.name = r.company_name := by
        have := List.find?_some hf
        simpa using this
      refine ⟨rfl, rfl, rfl, rfl, rfl, rfl, rfl, rfl, rfl, rfl, rfl,
        List.prefix_refl _, ⟨row.id, rfl, ?_⟩, fun _ => rfl, hn, hseq, ?_⟩
      · unfold canonCompanyId
        rw [hf]
        rfl
      · intro p hp
        rcases List.mem_cons.mp hp with rfl | hmem'
        · exact ⟨row, hmem, hkey, rfl⟩
        · exact hck p hmem'
  · -- cache hit
    try rw [hl]
    try dsimp only
    have hcached : ∃ row ∈ m.store.companies, row.name = r.company_name ∧ row.id = cid := by
      unfold alookup at hl
      rcases hfind : m.caches.company_cache.find? (fun p => p.1 = r.company_name) with _ | pr
      · rw [hfind] at hl
        cases hl
      · rw [hfind] at hl
        simp only [Option.map_some'] at hl
        have hprmem := List.mem_of_find?_eq_some hfind
        have hprkey : pr.1 = r.company_name := by
          have := List.find?_some hfind
          simpa using this
        obtain ⟨row, hrow, hkey, hid⟩ := hck pr hprmem
        exact ⟨row, hrow, hprkey ▸ hkey, (Option.some.inj hl) ▸ hid⟩
    obtain ⟨row, hrow, hkey, hid⟩ := hcached
    refine ⟨rfl, rfl, rfl, rfl, rfl, rfl, rfl, rfl, rfl, rfl, rfl,
      List.prefix_refl _, ⟨cid, rfl, ?_⟩, fun _ => rfl, hn, hseq, hck⟩
    unfold canonCompanyId
    rw [find?_of_mem_nodup (·.name) _ hn row hrow _ hkey]
    simp [hid]

/-- Everything the development needs about one `get_or_create_skill_category`
call, under the store/cache invariants for categories. -/
theorem gocCategory_spec (cat : String) (m : MState)
    (hn : (m.store.skill_categories.map (·.name)).Nodup)
    (hseq : SeqIds (·.id) m.store.skill_categories)
    (hck : ∀ p ∈ m.caches.skill_category_cache, ∃ row ∈ m.store.skill_categories,
      row.name = p.1 ∧ row.id = p.2) :
    (get_or_create_skill_category cat m).2.store.companies = m.store.companies ∧
    (get_or_create_skill_category cat m).2.store.locations = m.store.locations ∧
    (get_or_create_skill_category cat m).2.store.skills = m.store.skills ∧
    (get_or_create_skill_category cat m).2.store.jobs = m.store.jobs ∧
    (get_or_create_skill_category cat m).2.store.job_locations = m.store.job_locations ∧
    (get_or_create_skill_category cat m).2.store.job_skills = m.store.job_skills ∧
    (get_or_create_skill_category cat m).2.caches.company_cache = m.caches.company_cache ∧
    (get_or_create_skill_category cat m).2.caches.location_cache = m.caches.location_cache ∧
    (get_or_create_skill_category cat m).2.caches.skill_cache = m.caches.skill_cache ∧
    (get_or_create_skill_category cat m).2.stats.jobs_imported = m.stats.jobs_imported ∧
    (get_or_create_skill_category cat m).2.stats.jobs_updated = m.stats.jobs_updated ∧
    m.store.skill_categories <+: (get_or_create_skill_category cat m).2.store.skill_categories ∧
    canonCatId (get_or_create_skill_category cat m).2.store cat =
      some (get_or_create_skill_category cat m).1 ∧
    ((canonCatId m.store cat).isSome → (get_or_create_skill_category cat m).2.store = m.store) ∧
    ((get_or_create_skill_category cat m).2.store.skill_categories.map (·.name)).Nodup ∧
    SeqIds (·.id) (get_or_create_skill_category cat m).2.store.skill_categories ∧
    (∀ p ∈ (get_or_create_skill_category cat m).2.caches.skill_category_cache,
      ∃ row ∈ (get_or_create_skill_category cat m).2.store.skill_categories,
        row.name = p.1 ∧ row.id = p.2) := by
  unfold get_or_create_skill_category
  rcases hl : alookup cat m.caches.skill_category_cache with _ | cid
  · try rw [hl]
    try dsimp only
    rcases hf : m.store.skill_categories.find? (fun c => c.name = cat) with _ | row
    · try rw [hf]
      try dsimp only
      have hnotmem : ∀ row ∈ m.store.skill_categories, row.name ≠ cat := by
        intro row hrow
        have := List.find?_eq_none.mp hf row hrow
        simpa using this
      set newRow : SkillCategory := ⟨m.store.skill_categories.length + 1, cat⟩ with hnew
      refine ⟨rfl, rfl, rfl, rfl, rfl, rfl, rfl, rfl, rfl, rfl, rfl,
        ⟨[newRow], rfl⟩, ?_, ?_, ?_, ?_, ?_⟩
      · unfold canonCatId
        rw [find?_append_none _ _ _ hf]
        simp [hnew]
      · intro hs
        unfold canonCatId at hs
        rw [hf] at hs
        simp at hs
      · rw [List.map_append]
        refine List.Nodup.append hn (by simp) ?_
        intro k hk1 hk2
        simp only [List.mem_map] at hk1
        obtain ⟨row, hrow, rfl⟩ := hk1
        simp only [List.map_cons, List.map_nil, List.mem_singleton, hnew] at hk2
        exact hnotmem row hrow hk2
      · exact seqIds_append _ _ hseq _ rfl
      · intro p hp
        rcases List.mem_cons.mp hp with rfl | hmem
        · exact ⟨newRow, by simp, rfl, rfl⟩
        · obtain ⟨row, hrow, hkey, hid⟩ := hck p hmem
          exact ⟨row, List.mem_append_left _ hrow, hkey, hid⟩
    · try rw [hf]
      try dsimp only
      have hmem := List.mem_of_find?_eq_some hf
      have hkey : row.name = cat := by
        have := List.find?_some hf
        simpa using this
      refine ⟨rfl, rfl, rfl, rfl, rfl, rfl, rfl, rfl, rfl, rfl, rfl,
        List.prefix_refl _, ?_, fun _ => rfl, hn, hseq, ?_⟩
      · unfold canonCatId
        rw [hf]
        rfl
      · intro p hp
        rcases List.mem_cons.mp hp with rfl | hmem'
        · exact ⟨row, hmem, hkey, rfl⟩
        · exact hck p hmem'
  · try rw [hl]
    try dsimp only
    have hcached : ∃ row ∈ m.store.skill_categories, row.name = cat ∧ row.id = cid := by
      unfold alookup at hl
      rcases hfind : m.caches.skill_category_cache.find? (fun p => p.1 = cat) with _ | pr
      · rw [hfind] at hl
        cases hl
      · rw [hfind] at hl
        simp only [Option.map_some'] at hl
        have hprmem := List.mem_of_find?_eq_some hfind
        have hprkey : pr.1 = cat := by
          have := List.find?_some hfind
          simpa using this
        obtain ⟨row, hrow, hkey, hid⟩ := hck pr hprmem
        exact ⟨row, hrow, hprkey ▸ hkey, (Option.some.inj hl) ▸ hid⟩
    obtain ⟨row, hrow, hkey, hid⟩ := hcached
    refine ⟨rfl, rfl, rfl, rfl, rfl, rfl, rfl, rfl, rfl, rfl, rfl,
      List.prefix_refl _, ?_, fun _ => rfl, hn, hseq, hck⟩
    unfold canonCatId
    rw [find?_of_mem_nodup (·.name) _ hn row hrow _ hkey]
    simp [hid]

/-- Bridge between the two-way `AND` of the skill `WHERE` clause and
equality of the pair natural key. -/
theorem skillPred_eq (k : String × ℕ) (x : Skill) :
    (decide (x.name = k.1 ∧ x.category_id = k.2)) = decide (skillKey x = k) := by
  rcases k with ⟨n, c⟩
  apply decide_eq_decide.mpr
  simp [skillKey, Prod.ext_iff]

/-- `canonSkillId` through the pair key. -/
theorem canonSkillId_eq_key (S : Store) (nm : String) (catId : ℕ) :
    canonSkillId S nm catId =
      (S.skills.find? (fun x => skillKey x = (nm, catId))).map (·.id) := by
  unfold canonSkillId
  rw [find?_congrP _ _ _ (skillPred_eq (nm, catId))]

/-- Everything the development needs about one `get_or_create_skill` call on
a name that survives trimming, under the store/cache invariants for skills
and categories. -/
theorem gocSkill_spec (nm cat : String) (m : MState)
    (htrim : trimWS nm.data ≠ [])
    (hskn : (m.store.skills.map skillKey).Nodup)
    (hskseq : SeqIds (·.id) m.store.skills)
    (hskck : ∀ p ∈ m.caches.skill_cache, ∃ row ∈ m.store.skills,
      ∃ catRow ∈ m.store.skill_categories, row.name = p.1.1 ∧ catRow.name = p.1.2 ∧
        row.category_id = catRow.id ∧ row.id = p.2)
    (hcn : (m.store.skill_categories.map (·.name)).Nodup)
    (hcseq : SeqIds (·.id) m.store.skill_categories)
    (hcck : ∀ p ∈ m.caches.skill_category_cache, ∃ row ∈ m.store.skill_categories,
      row.name = p.1 ∧ row.id = p.2) :
    (get_or_create_skill nm cat m).2.store.companies = m.store.companies ∧
    (get_or_create_skill nm cat m).2.store.locations = m.store.locations ∧
    (get_or_create_skill nm cat m).2.store.jobs = m.store.jobs ∧
    (get_or_create_skill nm cat m).2.store.job_locations = m.store.job_locations ∧
    (get_or_create_skill nm cat m).2.store.job_skills = m.store.job_skills ∧
    (get_or_create_skill nm cat m).2.caches.company_cache = m.caches.company_cache ∧
    (get_or_create_skill nm cat m).2.caches.location_cache = m.caches.location_cache ∧
    (get_or_create_skill nm cat m).2.stats.jobs_imported = m.stats.jobs_imported ∧
    (get_or_create_skill nm cat m).2.stats.jobs_updated = m.stats.jobs_updated ∧
    m.store.skill_categories <+: (get_or_create_skill nm cat m).2.store.skill_categories ∧
    m.store.skills <+: (get_or_create_skill nm cat m).2.store.skills ∧
    (∃ catId sid, canonCatId (get_or_create_skill nm cat m).2.store cat = some catId ∧
      canonSkillId (get_or_create_skill nm cat m).2.store (String.mk (trimWS nm.data)) catId =
        some sid ∧
      (get_or_create_skill nm cat m).1 = some sid) ∧
    (∀ catId0, canonCatId m.store cat = some catId0 →
      (canonSkillId m.store (String.mk (trimWS nm.data)) catId0).isSome →
      (get_or_create_skill nm cat m).2.store = m.store) ∧
    ((get_or_create_skill nm cat m).2.store.skills.map skillKey).Nodup ∧
    SeqIds (·.id) (get_or_create_skill nm cat m).2.store.skills ∧
    ((get_or_create_skill nm cat m).2.store.skill_categories.map (·.name)).Nodup ∧
    SeqIds (·.id) (get_or_create_skill nm cat m).2.store.skill_categories ∧
    (∀ p ∈ (get_or_create_skill nm cat m).2.caches.skill_cache,
      ∃ row ∈ (get_or_create_skill nm cat m).2.store.skills,
        ∃ catRow ∈ (get_or_create_skill nm cat m).2.store.skill_categories,
          row.name = p.1.1 ∧ catRow.name = p.1.2 ∧ row.category_id = catRow.id ∧
            row.id = p.2) ∧
    (∀ p ∈ (get_or_create_skill nm cat m).2.caches.skill_category_cache,
      ∃ row ∈ (get_or_create_skill nm cat m).2.store.skill_categories,
        row.name = p.1 ∧ row.id = p.2) := by
  unfold get_or_create_skill
  rw [if_neg htrim]
  dsimp only
  rcases hl : alookup (String.mk (trimWS nm.data), cat) m.caches.skill_cache with _ | sid
  · try rw [hl]
    try dsimp only
    -- cache miss: resolve the category first
    have hcatspec := gocCategory_spec cat m hcn hcseq hcck
    rcases hgc : get_or_create_skill_category cat m with ⟨catId, m1⟩
    rw [hgc] at hcatspec
    obtain ⟨hcComp, hcLoc, hcSk, hcJobs, hcJL, hcJS, hcCC, hcLC, hcSC, hcImp, hcUpd,
      hcPre, hcCanon, hcNoop, hcN, hcSeq, hcCk⟩ := hcatspec
    try dsimp only
    rcases hf : m1.store.skills.find?
        (fun sk => sk.name = String.mk (trimWS nm.data) ∧ sk.category_id = catId) with _ | row
    · -- skill select miss: insert
      try rw [hf]
      try dsimp only
      have hfk : m1.store.skills.find?
          (fun x => skillKey x = (String.mk (trimWS nm.data), catId)) = none := by
        rw [← find?_congrP _ _ _ (skillPred_eq (String.mk (trimWS nm.data), catId))]
        exact hf
      have hnotmem : ∀ row ∈ m1.store.skills,
          skillKey row ≠ (String.mk (trimWS nm.data), catId) := by
        intro row hrow
        have := List.find?_eq_none.mp hfk row hrow
        simpa using this
      set newRow : Skill := ⟨m1.store.skills.length + 1, String.mk (trimWS nm.data), catId⟩
        with hnew
      have hkeynew : skillKey newRow = (String.mk (trimWS nm.data), catId) := by
        simp [skillKey, hnew]
      have hskills1 : m1.store.skills = m.store.skills := hcSk
      refine ⟨hcComp, hcLoc, hcJobs, hcJL, hcJS, hcCC, hcLC, hcImp, hcUpd,
        hcPre, ?_, ?_, ?_, ?_, ?_, hcN, hcSeq, ?_, ?_⟩
      · rw [← hskills1]
        exact ⟨[newRow], rfl⟩
      · refine ⟨catId, m1.store.skills.length + 1, hcCanon, ?_, rfl⟩
        rw [canonSkillId_eq_key]
        dsimp only
        rw [find?_append_none _ _ _ hfk]
        simp [hkeynew]
      · intro catId0 hcat0 hsk0
        exfalso
        have hm1 : m1.store = m.store := hcNoop (by simp [hcat0])
        have : catId = catId0 := by
          have := hcCanon
          rw [hm1, hcat0] at this
          exact (Option.some.inj this).symm
        rw [canonSkillId_eq_key] at hsk0
        rw [← hm1, ← this] at hsk0
        rw [hfk] at hsk0
        simp at hsk0
      · rw [List.map_append]
        refine List.Nodup.append (hskills1 ▸ hskn) (by simp) ?_
        intro k hk1 hk2
        simp only [List.mem_map] at hk1
        obtain ⟨row, hrow, rfl⟩ := hk1
        simp only [List.map_cons, List.map_nil, List.mem_singleton] at hk2
        exact hnotmem row hrow (hk2.trans hkeynew)
      · exact seqIds_append _ _ (hskills1 ▸ hskseq) _ rfl
      · intro p hp
        rcases List.mem_cons.mp hp with rfl | hmem
        · obtain ⟨catRow, hcrmem, hcrname⟩ : ∃ catRow ∈ m1.store.skill_categories,
              catRow.name = cat ∧ catRow.id = catId := by
            unfold canonCatId at hcCanon
            rcases hff : m1.store.skill_categories.find? (fun c => c.name = cat) with _ | cr
            · rw [hff] at hcCanon
              cases hcCanon
            · rw [hff] at hcCanon
              simp only [Option.map_some'] at hcCanon
              refine ⟨cr, List.mem_of_find?_eq_some hff, ?_, Option.some.inj hcCanon⟩
              have := List.find?_some hff
              simpa using this
          exact ⟨newRow, List.mem_append_right _ (by simp), catRow, hcrmem,
            rfl, hcrname.1, by simp [hnew, hcrname.2], rfl⟩
        · obtain ⟨row, hrow, catRow, hcrmem, h1, h2, h3, h4⟩ := hskck p (hcSC ▸ hmem)
          exact ⟨row, List.mem_append_left _ (hskills1 ▸ hrow), catRow,
            hcPre.subset hcrmem, h1, h2, h3, h4⟩
      · exact hcCk
    · -- skill select hit
      try rw [hf]
      try dsimp only
      have hmem := List.mem_of_find?_eq_some hf
      have hkey : skillKey row = (String.mk (trimWS nm.data), catId) := by
        have := List.find?_some hf
        simp only [decide_eq_true_eq] at this
        simp [skillKey, this.1, this.2]
      have hskills1 : m1.store.skills = m.store.skills := hcSk
      refine ⟨hcComp, hcLoc, hcJobs, hcJL, hcJS, hcCC, hcLC, hcImp, hcUpd,
        hcPre, hskills1 ▸ List.prefix_refl _, ?_, ?_, hskills1 ▸ hskn, hskills1 ▸ hskseq,
        hcN, hcSeq, ?_, hcCk⟩
      · refine ⟨catId, row.id, hcCanon, ?_, rfl⟩
        rw [canonSkillId_eq_key]
        rw [find?_of_mem_nodup skillKey _ (hskills1 ▸ hskn) row hmem _ hkey]
        rfl
      · intro catId0 hcat0 hsk0
        exact hcNoop (by simp [hcat0])
      · intro p hp
        rcases List.mem_cons.mp hp with rfl | hmem'
        · obtain ⟨catRow, hcrmem, hcrname⟩ : ∃ catRow ∈ m1.store.skill_categories,
              catRow.name = cat ∧ catRow.id = catId := by
            unfold canonCatId at hcCanon
            rcases hff : m1.store.skill_categories.find? (fun c => c.name = cat) with _ | cr
            · rw [hff] at hcCanon
              cases hcCanon
            · rw [hff] at hcCanon
              simp only [Option.map_some'] at hcCanon
              refine ⟨cr, List.mem_of_find?_eq_some hff, ?_, Option.some.inj hcCanon⟩
              have := List.find?_some hff
              simpa using this
          refine ⟨row, hmem, catRow, hcrmem, ?_, hcrname.1, ?_, rfl⟩
          · have := congrArg Prod.fst hkey
            simpa [skillKey] using this
          · have := congrArg Prod.snd hkey
            simp only [skillKey] at this
            simp [this, hcrname.2]
        · obtain ⟨row', hrow', catRow, hcrmem, h1, h2, h3, h4⟩ := hskck p (hcSC ▸ hmem')
          exact ⟨row', hskills1 ▸ hrow', catRow, hcPre.subset hcrmem, h1, h2, h3, h4⟩
  · -- cache hit
    try rw [hl]
    try dsimp only
    have hcached : ∃ row ∈ m.store.skills, ∃ catRow ∈ m.store.skill_categories,
        row.name = String.mk (trimWS nm.data) ∧ catRow.name = cat ∧
        row.category_id = catRow.id ∧ row.id = sid := by
      unfold alookup at hl
      rcases hfind : m.caches.skill_cache.find?
          (fun p => p.1 = (String.mk (trimWS nm.data), cat)) with _ | pr
      · rw [hfind] at hl
        cases hl
      · rw [hfind] at hl
        simp only [Option.map_some'] at hl
        have hprmem := List.mem_of_find?_eq_some hfind
        have hprkey : pr.1 = (String.mk (trimWS nm.data), cat) := by
          have := List.find?_some hfind
          simpa using this
        obtain ⟨row, hrow, catRow, hcrmem, h1, h2, h3, h4⟩ := hskck pr hprmem
        exact ⟨row, hrow, catRow, hcrmem, h1.trans (congrArg Prod.fst hprkey),
          h2.trans (congrArg Prod.snd hprkey), h3, (Option.some.inj hl) ▸ h4⟩
    obtain ⟨row, hrow, catRow, hcrmem, h1, h2, h3, h4⟩ := hcached
    refine ⟨rfl, rfl, rfl, rfl, rfl, rfl, rfl, rfl, rfl, List.prefix_refl _,
      List.prefix_refl _, ?_, fun _ _ _ => rfl, hskn, hskseq, hcn, hcseq, hskck, hcck⟩
    refine ⟨catRow.id, sid, ?_, ?_, rfl⟩
    · unfold canonCatId
      rw [find?_of_mem_nodup (·.name) _ hcn catRow hcrmem _ h2]
      rfl
    · rw [canonSkillId_eq_key]
      rw [find?_of_mem_nodup skillKey _ hskn row hrow _ (by simp [skillKey, h1, h3])]
      simp [h4]

/-! ## Full specification of the upsert stage -/

theorem find?_map_inv {α : Type} (f : α → α) (p : α → Bool) (l : List α)
    (h : ∀ x, p (f x) = p x) : (l.map f).find? p = (l.find? p).map f := by
  induction l with
  | nil => rfl
  | cons a rest ih =>
    rw [List.map_cons, List.find?_cons, List.find?_cons, h a]
    cases p a
    · exact ih
    · rfl

/-- `upsertFields` only reads `id`, `external_job_id` and `created_at` from
its base row. -/
theorem upsertFields_congr (r : Row) (cid ts : ℕ) {x y : Job}
    (h1 : x.id = y.id) (h2 : x.external_job_id = y.external_job_id)
    (h3 : x.created_at = y.created_at) :
    upsertFields r cid ts x = upsertFields r cid ts y := by
  simp only [upsertFields]
  rw [h1, h2, h3]

/-- Everything the development needs about the upsert stage, under the jobs
invariants. -/
theorem upsertState_spec (r : Row) (cid ts : ℕ) (m1 : MState)
    (hjn : (m1.store.jobs.map (·.external_job_id)).Nodup)
    (hjseq : SeqIds (·.id) m1.store.jobs) :
    (∃ j', canonJob (upsertState r cid ts m1).store r.id = some j' ∧
      j'.id = upsertJobId m1.store r ∧ j' = upsertFields r cid ts j') ∧
    ((canonJob m1.store r.id).isSome →
      (upsertState r cid ts m1).store.jobs.map (fun j => (j.id, j.external_job_id)) =
        m1.store.jobs.map (fun j => (j.id, j.external_job_id))) ∧
    (canonJob m1.store r.id = none →
      (upsertState r cid ts m1).store.jobs.map (fun j => (j.id, j.external_job_id)) =
        m1.store.jobs.map (fun j => (j.id, j.external_job_id)) ++
          [(m1.store.jobs.length + 1, r.id)]) ∧
    (∀ j' ∈ (upsertState r cid ts m1).store.jobs,
      (j'.external_job_id = r.id ∧ j' = upsertFields r cid ts j') ∨
      (j' ∈ m1.store.jobs ∧ j'.external_job_id ≠ r.id)) ∧
    (((upsertState r cid ts m1).store.jobs.map (·.external_job_id)).Nodup) ∧
    SeqIds (·.id) (upsertState r cid ts m1).store.jobs ∧
    ((canonJob m1.store r.id).isSome →
      (upsertState r cid ts m1).stats.jobs_imported = m1.stats.jobs_imported) := by
  unfold upsertState
  rcases hex : canonJob m1.store r.id with _ | ex
  · -- insert branch
    try rw [hex]
    try dsimp only
    have hfind : m1.store.jobs.find? (fun j => j.external_job_id = r.id) = none := hex
    have hnotmem : ∀ j ∈ m1.store.jobs, j.external_job_id ≠ r.id := by
      intro j hj
      have := List.find?_eq_none.mp hfind j hj
      simpa using this
    refine ⟨?_, ?_, ?_, ?_, ?_, ?_, ?_⟩
    · refine ⟨freshJob r cid (m1.store.jobs.length + 1) ts, ?_, ?_, rfl⟩
      · unfold canonJob at hfind ⊢
        rw [find?_append_none _ _ _ hfind]
        simp [List.find?, freshJob, upsertFields]
      · unfold upsertJobId
        try rw [hex]
        rfl
    · intro hs
      simp at hs
    · intro _
      simp [freshJob, upsertFields]
    · intro j' hj'
      rcases List.mem_append.mp hj' with hmem | hmem
      · exact Or.inr ⟨hmem, hnotmem j' hmem⟩
      · rw [List.mem_singleton.mp hmem]
        exact Or.inl ⟨rfl, rfl⟩
    · rw [List.map_append]
      refine List.Nodup.append hjn (by simp) ?_
      intro k hk1 hk2
      simp only [List.mem_map] at hk1
      obtain ⟨j, hj, rfl⟩ := hk1
      simp only [List.map_cons, List.map_nil, List.mem_singleton] at hk2
      exact hnotmem j hj hk2
    · exact seqIds_append _ _ hjseq _ rfl
    · intro hs
      simp at hs
  · -- update branch
    try rw [hex]
    try dsimp only
    have hexmem : ex ∈ m1.store.jobs := List.mem_of_find?_eq_some hex
    have hexext : ex.external_job_id = r.id := by
      have := List.find?_some hex
      simpa using this
    have hpres : ∀ x : Job,
        ((if x.id = ex.id then upsertFields r cid ts x else x).external_job_id) =
          x.external_job_id := by
      intro x
      by_cases hx : x.id = ex.id <;> simp [hx, upsertFields]
    have hpresId : ∀ x : Job,
        ((if x.id = ex.id then upsertFields r cid ts x else x).id) = x.id := by
      intro x
      by_cases hx : x.id = ex.id <;> simp [hx, upsertFields]
    have hfind2 : (m1.store.jobs.map
          (fun j => if j.id = ex.id then upsertFields r cid ts j else j)).find?
          (fun j => j.external_job_id = r.id) = some (upsertFields r cid ts ex) := by
      rw [find?_map_inv _ _ _ (by intro x; simp [hpres x])]
      unfold canonJob at hex
      rw [hex]
      simp
    refine ⟨?_, ?_, ?_, ?_, ?_, ?_, ?_⟩
    · refine ⟨upsertFields r cid ts ex, hfind2, ?_, rfl⟩
      unfold upsertJobId
      try rw [hex]
      rfl
    · intro _
      rw [List.map_map]
      refine List.map_congr_left ?_
      intro x _
      simp only [Function.comp]
      rw [hpresId x, hpres x]
    · intro hs
      cases hs
    · intro j' hj'
      rcases List.mem_map.mp hj' with ⟨x, hx, rfl⟩
      by_cases hxid : x.id = ex.id
      · rw [if_pos hxid]
        have hxex : x = ex := seqIds_inj _ _ hjseq hx hexmem hxid
        exact Or.inl ⟨by rw [hxex]; simpa [upsertFields] using hexext, rfl⟩
      · rw [if_neg hxid]
        refine Or.inr ⟨hx, ?_⟩
        intro hxe
        exact hxid (congrArg (·.id) (List.inj_on_of_nodup_map hjn hx hexmem
          (hxe.trans hexext.symm)))
    · have : (m1.store.jobs.map
          (fun j => if j.id = ex.id then upsertFields r cid ts j else j)).map
            (·.external_job_id) = m1.store.jobs.map (·.external_job_id) := by
        rw [List.map_map]
        refine List.map_congr_left ?_
        intro x _
        simp only [Function.comp]
        exact hpres x
      rw [this]
      exact hjn
    · exact seqIds_map _ _ hpresId _ hjseq
    · exact fun _ => rfl

/-! ## Monotonicity and congruence of the canonical lookups -/

/-- A resolved company id survives any append-only growth of the table. -/
theorem canonCompanyId_mono {S T : Store} (h : S.companies <+: T.companies)
    {c : String} {i : ℕ} (hc : canonCompanyId S c = some i) :
    canonCompanyId T c = some i := by
  unfold canonCompanyId at hc ⊢
  rcases Option.map_eq_some'.mp hc with ⟨row, hrow, hid⟩
  obtain ⟨tl, htl⟩ := h
  rw [← htl, find?_append_of_some _ _ _ _ hrow, Option.map_some', hid]

/-- A resolved location id survives any append-only growth of the table. -/
theorem canonLocId_mono {S T : Store} (h : S.locations <+: T.locations)
    {k : String × Option String × String} {i : ℕ} (hc : canonLocId S k = some i) :
    canonLocId T k = some i := by
  unfold canonLocId at hc ⊢
  rcases Option.map_eq_some'.mp hc with ⟨row, hrow, hid⟩
  obtain ⟨tl, htl⟩ := h
  rw [← htl, find?_append_of_some _ _ _ _ hrow, Option.map_some', hid]

/-- A resolved category id survives any append-only growth of the table. -/
theorem canonCatId_mono {S T : Store} (h : S.skill_categories <+: T.skill_categories)
    {c : String} {i : ℕ} (hc : canonCatId S c = some i) :
    canonCatId T c = some i := by
  unfold canonCatId at hc ⊢
  rcases Option.map_eq_some'.mp hc with ⟨row, hrow, hid⟩
  obtain ⟨tl, htl⟩ := h
  rw [← htl, find?_append_of_some _ _ _ _ hrow, Option.map_some', hid]

/-- A resolved skill id survives any append-only growth of the table. -/
theorem canonSkillId_mono {S T : Store} (h : S.skills <+: T.skills)
    {nm : String} {catId i : ℕ} (hc : canonSkillId S nm catId = some i) :
    canonSkillId T nm catId = some i := by
  unfold canonSkillId at hc ⊢
  rcases Option.map_eq_some'.mp hc with ⟨row, hrow, hid⟩
  obtain ⟨tl, htl⟩ := h
  rw [← htl, find?_append_of_some _ _ _ _ hrow, Option.map_some', hid]

/-- `canonCompanyId` only reads the companies table. -/
theorem canonCompanyId_congr {S T : Store} (h : T.companies = S.companies) (c : String) :
    canonCompanyId T c = canonCompanyId S c := by
  unfold canonCompanyId
  rw [h]

/-- `canonLocId` only reads the locations table. -/
theorem canonLocId_congr {S T : Store} (h : T.locations = S.locations)
    (k : String × Option String × String) : canonLocId T k = canonLocId S k := by
  unfold canonLocId
  rw [h]

/-- `canonCatId` only reads the categories table. -/
theorem canonCatId_congr {S T : Store} (h : T.skill_categories = S.skill_categories)
    (c : String) : canonCatId T c = canonCatId S c := by
  unfold canonCatId
  rw [h]

/-- `canonSkillId` only reads the skills table. -/
theorem canonSkillId_congr {S T : Store} (h : T.skills = S.skills)
    (nm : String) (catId : ℕ) : canonSkillId T nm catId = canonSkillId S nm catId := by
  unfold canonSkillId
  rw [h]

/-- Searching by external id through a jobs table whose `(id, external_job_id)`
key list extends the original pointwise finds a row with the same primary id. -/
theorem find?_jobs_keys {l la : List Job} {tl : List (ℕ × String)}
    (h : la.map (fun j => (j.id, j.external_job_id)) =
      l.map (fun j => (j.id, j.external_job_id)) ++ tl)
    {e : String} {j : Job}
    (hf : l.find? (fun x => x.external_job_id = e) = some j) :
    ∃ ja, la.find? (fun x => x.external_job_id = e) = some ja ∧ ja.id = j.id := by
  induction l generalizing la tl with
  | nil =>
    rw [List.find?_nil] at hf
    cases hf
  | cons a as ih =>
    cases la with
    | nil =>
      rw [List.map_nil, List.map_cons, List.cons_append] at h
      cases h
    | cons b bs =>
      rw [List.map_cons, List.map_cons, List.cons_append] at h
      injection h with h1 h2
      have hbid : b.id = a.id := congrArg Prod.fst h1
      have hbex : b.external_job_id = a.external_job_id := congrArg Prod.snd h1
      by_cases he : a.external_job_id = e
      · rw [List.find?_cons_of_pos _ (by simpa using he)] at hf
        refine ⟨b, ?_, ?_⟩
        · rw [List.find?_cons_of_pos _ (by simp [hbex, he])]
        · rw [hbid, Option.some.inj hf]
      · rw [List.find?_cons_of_neg _ (by simpa using he)] at hf
        obtain ⟨ja, hja, hid⟩ := ih h2 hf
        refine ⟨ja, ?_, hid⟩
        rw [List.find?_cons_of_neg _ (by simp [hbex, he])]
        exact hja

/-- `canonJob` through a pointwise key extension of the jobs table. -/
theorem canonJob_of_keys {S T : Store} {tl : List (ℕ × String)}
    (h : T.jobs.map (fun j => (j.id, j.external_job_id)) =
      S.jobs.map (fun j => (j.id, j.external_job_id)) ++ tl)
    {e : String} {j : Job} (hc : canonJob S e = some j) :
    ∃ ja, canonJob T e = some ja ∧ ja.id = j.id := by
  unfold canonJob at hc ⊢
  exact find?_jobs_keys h hc

/-! ## Last-write-wins bookkeeping -/

/-- Filtering distributes over the batch split. -/
theorem goodRows_append (p q : List Row) :
    goodRows (p ++ q) = goodRows p ++ goodRows q := by
  unfold goodRows
  simp [List.filter_append]

/-- Appending a good record makes it the last good record for its own id. -/
theorem lastGoodFor_append_good (p : List Row) (r : Row) (hg : isGoodRow r = true) :
    lastGoodFor (p ++ [r]) r.id = some r := by
  unfold lastGoodFor
  rw [goodRows_append]
  have h1 : goodRows [r] = [r] := by
    unfold goodRows
    simp [hg]
  rw [h1, List.filter_append]
  have h2 : [r].filter (fun x => x.id = r.id) = [r] := by simp
  rw [h2]
  exact List.getLast?_concat _

/-- Appending a record that is bad, or that carries a different external id,
does not change who the last good record for `e` is. -/
theorem lastGoodFor_append_skip (p : List Row) (r : Row) (e : String)
    (h : isGoodRow r = false ∨ r.id ≠ e) :
    lastGoodFor (p ++ [r]) e = lastGoodFor p e := by
  unfold lastGoodFor
  rw [goodRows_append, List.filter_append]
  have h1 : (goodRows [r]).filter (fun x => x.id = e) = [] := by
    rcases h with hb | hne
    · simp [goodRows, hb]
    · by_cases hg : isGoodRow r = true
      · simp [goodRows, hg, hne]
      · simp [goodRows, hg]
  rw [h1, List.append_nil]

/-! ## Re-stamping -/

/-- Re-running the upsert columns at a later timestamp over a row already in
run-`t1` normal form only refreshes the three run stamps. -/
theorem upsertFields_restamp (r : Row) (cid t1 t2 : ℕ) {j : Job}
    (h : j = upsertFields r cid t1 j) :
    upsertFields r cid t2 j = reStampOne t2 j := by
  conv_lhs => rw [h]
  conv_rhs => rw [h]
  rfl

/-- A job seen at the cutoff timestamp is not closed by the reconciliation
pass. -/
theorem closeStep_of_seen (t : ℕ) (j : Job) (hst : j.status = JobStatus.open)
    (hls : j.last_seen_at = some t) : closeStep t j = j := by
  have hstale : isStale t j = false := by
    unfold isStale
    rw [hst, hls]
    simp
  unfold closeStep
  rw [hstale]
  simp

/-- Two stores with equal tables are equal. -/
theorem store_ext {S T : Store}
    (h1 : S.companies = T.companies) (h2 : S.locations = T.locations)
    (h3 : S.skill_categories = T.skill_categories) (h4 : S.skills = T.skills)
    (h5 : S.jobs = T.jobs) (h6 : S.job_locations = T.job_locations)
    (h7 : S.job_skills = T.job_skills) : S = T := by
  rcases S with ⟨a1, a2, a3, a4, a5, a6, a7⟩
  rcases T with ⟨b1, b2, b3, b4, b5, b6, b7⟩
  dsimp only at h1 h2 h3 h4 h5 h6 h7
  rw [h1, h2, h3, h4, h5, h6, h7]

/-! ## Append-only growth of a store across one imported record -/

/-- How the store grows across one `import_job`: dimension tables grow by
suffix, link rows are never removed, and every resolvable external job id
stays resolvable with the same primary id. -/
def Grows (S T : Store) : Prop :=
  S.companies <+: T.companies ∧
  S.locations <+: T.locations ∧
  S.skill_categories <+: T.skill_categories ∧
  S.skills <+: T.skills ∧
  (∀ q ∈ S.job_locations, q ∈ T.job_locations) ∧
  (∀ q ∈ S.job_skills, q ∈ T.job_skills) ∧
  (∀ e j, canonJob S e = some j → ∃ ja, canonJob T e = some ja ∧ ja.id = j.id)

theorem grows_refl (S : Store) : Grows S S :=
  ⟨List.prefix_refl _, List.prefix_refl _, List.prefix_refl _, List.prefix_refl _,
   fun _ h => h, fun _ h => h, fun _ j h => ⟨j, h, rfl⟩⟩

theorem grows_trans {A B C : Store} (h1 : Grows A B) (h2 : Grows B C) : Grows A C := by
  obtain ⟨a1, a2, a3, a4, a5, a6, a7⟩ := h1
  obtain ⟨b1, b2, b3, b4, b5, b6, b7⟩ := h2
  refine ⟨a1.trans b1, a2.trans b2, a3.trans b3, a4.trans b4,
    fun q hq => b5 q (a5 q hq), fun q hq => b6 q (a6 q hq), ?_⟩
  intro e j h
  obtain ⟨ja, hja, hid⟩ := a7 e j h
  obtain ⟨jb, hjb, hid2⟩ := b7 e ja hja
  exact ⟨jb, hjb, hid2.trans hid⟩

/-- Saturation of a record survives append-only growth. -/
theorem rowSaturated_mono {S T : Store} (hg : Grows S T) {r : Row}
    (h : RowSaturated S r) : RowSaturated T r := by
  unfold RowSaturated at h ⊢
  rcases hj : canonJob S r.id with _ | j
  · rw [hj] at h
    exact absurd h not_false
  · rw [hj] at h
    obtain ⟨ja, hja, hid⟩ := hg.2.2.2.2.2.2 r.id j hj
    rw [hja]
    obtain ⟨hloc, hsk, hcomp⟩ := h
    refine ⟨?_, ?_, ?_⟩
    · intro item hitem
      obtain ⟨lid, hlid, hmem⟩ := hloc item hitem
      refine ⟨lid, canonLocId_mono hg.2.1 hlid, ?_⟩
      rw [hid]
      exact hg.2.2.2.2.1 _ hmem
    · intro cat hcat names hnames nm hnm htrim
      obtain ⟨catId, sid, hcid, hsid, hmem⟩ := hsk cat hcat names hnames nm hnm htrim
      refine ⟨catId, sid, canonCatId_mono hg.2.2.1 hcid,
        canonSkillId_mono hg.2.2.2.1 hsid, ?_⟩
      rw [hid]
      exact hg.2.2.2.2.2.1 _ hmem
    · obtain ⟨cid, hcid⟩ := hcomp
      exact ⟨cid, canonCompanyId_mono hg.1 hcid⟩

/-! ## Run-1 normal form of the location-linking loop -/

/-- After the location loop, every iterated entry has a durably resolvable
key linked to the job; everything the loop does not own is untouched, and the
location invariants are preserved. -/
theorem linkLocLoop_run1 (jobId : ℕ) (isR : Bool) (items : List LocItem) (m : MState)
    (hn : (m.store.locations.map locationKey).Nodup)
    (hseq : SeqIds (·.id) m.store.locations)
    (hck : ∀ p ∈ m.caches.location_cache, ∃ row ∈ m.store.locations,
      locationKey row = p.1 ∧ row.id = p.2) :
    (items.foldl (linkLocStep jobId isR) m).store.companies = m.store.companies ∧
    (items.foldl (linkLocStep jobId isR) m).store.skill_categories =
      m.store.skill_categories ∧
    (items.foldl (linkLocStep jobId isR) m).store.skills = m.store.skills ∧
    (items.foldl (linkLocStep jobId isR) m).store.jobs = m.store.jobs ∧
    (items.foldl (linkLocStep jobId isR) m).store.job_skills = m.store.job_skills ∧
    (items.foldl (linkLocStep jobId isR) m).caches.company_cache =
      m.caches.company_cache ∧
    (items.foldl (linkLocStep jobId isR) m).caches.skill_cache = m.caches.skill_cache ∧
    (items.foldl (linkLocStep jobId isR) m).caches.skill_category_cache =
      m.caches.skill_category_cache ∧
    (items.foldl (linkLocStep jobId isR) m).stats.jobs_imported = m.stats.jobs_imported ∧
    m.store.locations <+: (items.foldl (linkLocStep jobId isR) m).store.locations ∧
    m.store.job_locations <+: (items.foldl (linkLocStep jobId isR) m).store.job_locations ∧
    (∀ item ∈ items, ∃ lid,
      canonLocId (items.foldl (linkLocStep jobId isR) m).store (locKeyOf [item] isR) =
        some lid ∧
      (jobId, lid) ∈ (items.foldl (linkLocStep jobId isR) m).store.job_locations) ∧
    ((items.foldl (linkLocStep jobId isR) m).store.locations.map locationKey).Nodup ∧
    SeqIds (·.id) (items.foldl (linkLocStep jobId isR) m).store.locations ∧
    (∀ p ∈ (items.foldl (linkLocStep jobId isR) m).caches.location_cache,
      ∃ row ∈ (items.foldl (linkLocStep jobId isR) m).store.locations,
        locationKey row = p.1 ∧ row.id = p.2) := by
  induction items generalizing m with
  | nil =>
    refine ⟨rfl, rfl, rfl, rfl, rfl, rfl, rfl, rfl, rfl, List.prefix_refl _,
      List.prefix_refl _, ?_, hn, hseq, hck⟩
    intro item h
    cases h
  | cons item rest ih =>
    rw [List.foldl_cons]
    have hspec := gocLocation_spec [item] isR m hn hseq hck
    rcases hgl : get_or_create_location [item] isR m with ⟨locId, m1⟩
    rw [hgl] at hspec
    dsimp only at hspec
    obtain ⟨hComp, hCat, hSk, hJobs, hJL, hJS, hCC, hSC2, hSCC, hImp, hUpd,
      hPre, hRow, hCanon, hPos, hNoop, hN1, hSeq1, hCk1⟩ := hspec
    have hstep : linkLocStep jobId isR m item =
        { m1 with store.job_locations :=
            insertPairIfAbsent (jobId, locId) m1.store.job_locations } := by
      unfold linkLocStep
      rw [hgl]
      dsimp only
      rw [if_pos (by omega : locId ≠ 0)]
    rw [hstep]
    have ihm := ih
      { m1 with
        store.job_locations := insertPairIfAbsent (jobId, locId) m1.store.job_locations }
      hN1 hSeq1 hCk1
    obtain ⟨iComp, iCat, iSk, iJobs, iJS, iCC, iSC, iSCC, iImp, iLocPre, iJLPre,
      iEst, iN, iSeq, iCk⟩ := ihm
    refine ⟨iComp.trans hComp, iCat.trans hCat, iSk.trans hSk, iJobs.trans hJobs,
      iJS.trans hJS, iCC.trans hCC, iSC.trans hSC2, iSCC.trans hSCC, iImp.trans hImp,
      hPre.trans iLocPre, ?_, ?_, iN, iSeq, iCk⟩
    · rw [← hJL]
      exact List.IsPrefix.trans ( insertPairIfAbsent_prefix _ _) iJLPre
    · intro it hit
      rcases List.mem_cons.mp hit with rfl | hmem
      · exact ⟨locId, canonLocId_mono iLocPre hCanon,
          iJLPre.subset (insertPairIfAbsent_mem_self _ _)⟩
      · exact iEst it hmem

/-! ## Run-1 normal form of the skill-linking loop -/

/-- After one category's name loop, every surviving name resolves (with its
category) and is linked; foreign tables and caches are untouched; the skill
and category invariants are preserved. -/
theorem linkSkillNames_run1 (jobId : ℕ) (cat : String) (names : List String) (m : MState)
    (hskn : (m.store.skills.map skillKey).Nodup)
    (hskseq : SeqIds (·.id) m.store.skills)
    (hskck : ∀ p ∈ m.caches.skill_cache, ∃ row ∈ m.store.skills,
      ∃ catRow ∈ m.store.skill_categories, row.name = p.1.1 ∧ catRow.name = p.1.2 ∧
        row.category_id = catRow.id ∧ row.id = p.2)
    (hcn : (m.store.skill_categories.map (·.name)).Nodup)
    (hcseq : SeqIds (·.id) m.store.skill_categories)
    (hcck : ∀ p ∈ m.caches.skill_category_cache, ∃ row ∈ m.store.skill_categories,
      row.name = p.1 ∧ row.id = p.2) :
    (names.foldl (linkSkillStep jobId cat) m).store.companies = m.store.companies ∧
    (names.foldl (linkSkillStep jobId cat) m).store.locations = m.store.locations ∧
    (names.foldl (linkSkillStep jobId cat) m).store.jobs = m.store.jobs ∧
    (names.foldl (linkSkillStep jobId cat) m).store.job_locations =
      m.store.job_locations ∧
    (names.foldl (linkSkillStep jobId cat) m).caches.company_cache =
      m.caches.company_cache ∧
    (names.foldl (linkSkillStep jobId cat) m).caches.location_cache =
      m.caches.location_cache ∧
    (names.foldl (linkSkillStep jobId cat) m).stats.jobs_imported =
      m.stats.jobs_imported ∧
    m.store.skill_categories <+:
      (names.foldl (linkSkillStep jobId cat) m).store.skill_categories ∧
    m.store.skills <+: (names.foldl (linkSkillStep jobId cat) m).store.skills ∧
    m.store.job_skills <+: (names.foldl (linkSkillStep jobId cat) m).store.job_skills ∧
    (∀ nm ∈ names, trimWS nm.data ≠ [] → ∃ catId sid,
      canonCatId (names.foldl (linkSkillStep jobId cat) m).store cat = some catId ∧
      canonSkillId (names.foldl (linkSkillStep jobId cat) m).store
        (String.mk (trimWS nm.data)) catId = some sid ∧
      (jobId, sid) ∈ (names.foldl (linkSkillStep jobId cat) m).store.job_skills) ∧
    ((names.foldl (linkSkillStep jobId cat) m).store.skills.map skillKey).Nodup ∧
    SeqIds (·.id) (names.foldl (linkSkillStep jobId cat) m).store.skills ∧
    ((names.foldl (linkSkillStep jobId cat) m).store.skill_categories.map (·.name)).Nodup ∧
    SeqIds (·.id) (names.foldl (linkSkillStep jobId cat) m).store.skill_categories ∧
    (∀ p ∈ (names.foldl (linkSkillStep jobId cat) m).caches.skill_cache,
      ∃ row ∈ (names.foldl (linkSkillStep jobId cat) m).store.skills,
        ∃ catRow ∈ (names.foldl (linkSkillStep jobId cat) m).store.skill_categories,
          row.name = p.1.1 ∧ catRow.name = p.1.2 ∧ row.category_id = catRow.id ∧
            row.id = p.2) ∧
    (∀ p ∈ (names.foldl (linkSkillStep jobId cat) m).caches.skill_category_cache,
      ∃ row ∈ (names.foldl (linkSkillStep jobId cat) m).store.skill_categories,
        row.name = p.1 ∧ row.id = p.2) := by
  induction names generalizing m with
  | nil =>
    refine ⟨rfl, rfl, rfl, rfl, rfl, rfl, rfl, List.prefix_refl _, List.prefix_refl _,
      List.prefix_refl _, ?_, hskn, hskseq, hcn, hcseq, hskck, hcck⟩
    intro nm h
    cases h
  | cons nm rest ih =>
    rw [List.foldl_cons]
    by_cases htrim : trimWS nm.data = []
    · have hnone : get_or_create_skill nm cat m = (none, m) := by
        unfold get_or_create_skill
        rw [if_pos htrim]
      have hstep : linkSkillStep jobId cat m nm = m := by
        unfold linkSkillStep
        rw [hnone]
      rw [hstep]
      obtain ⟨iComp, iLoc, iJobs, iJL, iCC, iLC, iImp, iCatPre, iSkPre, iJSPre,
        iEst, iN, iSeq, iCN, iCSeq, iCk, iCCk⟩ :=
        ih m hskn hskseq hskck hcn hcseq hcck
      refine ⟨iComp, iLoc, iJobs, iJL, iCC, iLC, iImp, iCatPre, iSkPre, iJSPre,
        ?_, iN, iSeq, iCN, iCSeq, iCk, iCCk⟩
      intro x hx hxt
      rcases List.mem_cons.mp hx with rfl | hmem
      · exact absurd htrim hxt
      · exact iEst x hmem hxt
    · have hspec := gocSkill_spec nm cat m htrim hskn hskseq hskck hcn hcseq hcck
      rcases hgs : get_or_create_skill nm cat m with ⟨sidq, m1⟩
      rw [hgs] at hspec
      dsimp only at hspec
      obtain ⟨hComp, hLoc, hJobs, hJL, hJS, hCC, hLC, hImp, hUpd, hCatPre, hSkPre,
        hRes, hNoop, hN1, hSeq1, hCN1, hCSeq1, hCk1, hCCk1⟩ := hspec
      obtain ⟨catId, sid, hcid, hsid, hres⟩ := hRes
      have hstep : linkSkillStep jobId cat m nm =
          { m1 with
            store.job_skills := insertPairIfAbsent (jobId, sid) m1.store.job_skills,
            stats.job_skills_created := m1.stats.job_skills_created + 1 } := by
        unfold linkSkillStep
        rw [hgs]
        dsimp only
        rw [hres]
      rw [hstep]
      obtain ⟨iComp, iLoc, iJobs, iJL, iCC, iLC, iImp, iCatPre, iSkPre, iJSPre,
        iEst, iN, iSeq, iCN, iCSeq, iCk, iCCk⟩ :=
        ih
          { m1 with
            store.job_skills := insertPairIfAbsent (jobId, sid) m1.store.job_skills,
            stats.job_skills_created := m1.stats.job_skills_created + 1 }
          hN1 hSeq1 hCk1 hCN1 hCSeq1 hCCk1
      refine ⟨iComp.trans hComp, iLoc.trans hLoc, iJobs.trans hJobs, iJL.trans hJL,
        iCC.trans hCC, iLC.trans hLC, iImp.trans hImp, hCatPre.trans iCatPre,
        hSkPre.trans iSkPre, ?_, ?_, iN, iSeq, iCN, iCSeq, iCk, iCCk⟩
      · rw [← hJS]
        exact List.IsPrefix.trans ( insertPairIfAbsent_prefix _ _) iJSPre
      · intro x hx hxt
        rcases List.mem_cons.mp hx with rfl | hmem
        · exact ⟨catId, sid, canonCatId_mono iCatPre hcid,
            canonSkillId_mono iSkPre hsid,
            iJSPre.subset (insertPairIfAbsent_mem_self _ _)⟩
        · exact iEst x hmem hxt

/-- One category of the skill loop, with the establishment phrased through
the consulted `skills_<category>` column. -/
theorem linkSkillsCat_run1 (jobId : ℕ) (r : Row) (cat : String) (m : MState)
    (hskn : (m.store.skills.map skillKey).Nodup)
    (hskseq : SeqIds (·.id) m.store.skills)
    (hskck : ∀ p ∈ m.caches.skill_cache, ∃ row ∈ m.store.skills,
      ∃ catRow ∈ m.store.skill_categories, row.name = p.1.1 ∧ catRow.name = p.1.2 ∧
        row.category_id = catRow.id ∧ row.id = p.2)
    (hcn : (m.store.skill_categories.map (·.name)).Nodup)
    (hcseq : SeqIds (·.id) m.store.skill_categories)
    (hcck : ∀ p ∈ m.caches.skill_category_cache, ∃ row ∈ m.store.skill_categories,
      row.name = p.1 ∧ row.id = p.2) :
    (linkSkillsCat jobId r m cat).store.companies = m.store.companies ∧
    (linkSkillsCat jobId r m cat).store.locations = m.store.locations ∧
    (linkSkillsCat jobId r m cat).store.jobs = m.store.jobs ∧
    (linkSkillsCat jobId r m cat).store.job_locations = m.store.job_locations ∧
    (linkSkillsCat jobId r m cat).caches.company_cache = m.caches.company_cache ∧
    (linkSkillsCat jobId r m cat).caches.location_cache = m.caches.location_cache ∧
    (linkSkillsCat jobId r m cat).stats.jobs_imported = m.stats.jobs_imported ∧
    m.store.skill_categories <+: (linkSkillsCat jobId r m cat).store.skill_categories ∧
    m.store.skills <+: (linkSkillsCat jobId r m cat).store.skills ∧
    m.store.job_skills <+: (linkSkillsCat jobId r m cat).store.job_skills ∧
    (∀ names, alookup cat r.skill_fields = some names →
      ∀ nm ∈ names, trimWS nm.data ≠ [] → ∃ catId sid,
        canonCatId (linkSkillsCat jobId r m cat).store cat = some catId ∧
        canonSkillId (linkSkillsCat jobId r m cat).store
          (String.mk (trimWS nm.data)) catId = some sid ∧
        (jobId, sid) ∈ (linkSkillsCat jobId r m cat).store.job_skills) ∧
    ((linkSkillsCat jobId r m cat).store.skills.map skillKey).Nodup ∧
    SeqIds (·.id) (linkSkillsCat jobId r m cat).store.skills ∧
    ((linkSkillsCat jobId r m cat).store.skill_categories.map (·.name)).Nodup ∧
    SeqIds (·.id) (linkSkillsCat jobId r m cat).store.skill_categories ∧
    (∀ p ∈ (linkSkillsCat jobId r m cat).caches.skill_cache,
      ∃ row ∈ (linkSkillsCat jobId r m cat).store.skills,
        ∃ catRow ∈ (linkSkillsCat jobId r m cat).store.skill_categories,
          row.name = p.1.1 ∧ catRow.name = p.1.2 ∧ row.category_id = catRow.id ∧
            row.id = p.2) ∧
    (∀ p ∈ (linkSkillsCat jobId r m cat).caches.skill_category_cache,
      ∃ row ∈ (linkSkillsCat jobId r m cat).store.skill_categories,
        row.name = p.1 ∧ row.id = p.2) := by
  unfold linkSkillsCat
  rcases halk : alookup cat r.skill_fields with _ | names
  · try rw [halk]
    try dsimp only
    refine ⟨rfl, rfl, rfl, rfl, rfl, rfl, rfl, List.prefix_refl _, List.prefix_refl _,
      List.prefix_refl _, ?_, hskn, hskseq, hcn, hcseq, hskck, hcck⟩
    intro names h
    cases h
  · try rw [halk]
    try dsimp only
    obtain ⟨iComp, iLoc, iJobs, iJL, iCC, iLC, iImp, iCatPre, iSkPre, iJSPre,
      iEst, iN, iSeq, iCN, iCSeq, iCk, iCCk⟩ :=
      linkSkillNames_run1 jobId cat names m hskn hskseq hskck hcn hcseq hcck
    refine ⟨iComp, iLoc, iJobs, iJL, iCC, iLC, iImp, iCatPre, iSkPre, iJSPre,
      ?_, iN, iSeq, iCN, iCSeq, iCk, iCCk⟩
    intro names2 h
    have : names2 = names := (Option.some.inj h).symm
    subst this
    exact iEst

/-- The full skill-linking loop of `import_job`, over the five fixed
categories. -/
theorem linkSkills_run1 (jobId : ℕ) (r : Row) (m : MState)
    (hskn : (m.store.skills.map skillKey).Nodup)
    (hskseq : SeqIds (·.id) m.store.skills)
    (hskck : ∀ p ∈ m.caches.skill_cache, ∃ row ∈ m.store.skills,
      ∃ catRow ∈ m.store.skill_categories, row.name = p.1.1 ∧ catRow.name = p.1.2 ∧
        row.category_id = catRow.id ∧ row.id = p.2)
    (hcn : (m.store.skill_categories.map (·.name)).Nodup)
    (hcseq : SeqIds (·.id) m.store.skill_categories)
    (hcck : ∀ p ∈ m.caches.skill_category_cache, ∃ row ∈ m.store.skill_categories,
      row.name = p.1 ∧ row.id = p.2) :
    (linkSkills jobId r m).store.companies = m.store.companies ∧
    (linkSkills jobId r m).store.locations = m.store.locations ∧
    (linkSkills jobId r m).store.jobs = m.store.jobs ∧
    (linkSkills jobId r m).store.job_locations = m.store.job_locations ∧
    (linkSkills jobId r m).caches.company_cache = m.caches.company_cache ∧
    (linkSkills jobId r m).caches.location_cache = m.caches.location_cache ∧
    (linkSkills jobId r m).stats.jobs_imported = m.stats.jobs_imported ∧
    m.store.skill_categories <+: (linkSkills jobId r m).store.skill_categories ∧
    m.store.skills <+: (linkSkills jobId r m).store.skills ∧
    m.store.job_skills <+: (linkSkills jobId r m).store.job_skills ∧
    (∀ cat ∈ skillCategoryNames, ∀ names, alookup cat r.skill_fields = some names →
      ∀ nm ∈ names, trimWS nm.data ≠ [] → ∃ catId sid,
        canonCatId (linkSkills jobId r m).store cat = some catId ∧
        canonSkillId (linkSkills jobId r m).store
          (String.mk (trimWS nm.data)) catId = some sid ∧
        (jobId, sid) ∈ (linkSkills jobId r m).store.job_skills) ∧
    ((linkSkills jobId r m).store.skills.map skillKey).Nodup ∧
    SeqIds (·.id) (linkSkills jobId r m).store.skills ∧
    ((linkSkills jobId r m).store.skill_categories.map (·.name)).Nodup ∧
    SeqIds (·.id) (linkSkills jobId r m).store.skill_categories ∧
    (∀ p ∈ (linkSkills jobId r m).caches.skill_cache,
      ∃ row ∈ (linkSkills jobId r m).store.skills,
        ∃ catRow ∈ (linkSkills jobId r m).store.skill_categories,
          row.name = p.1.1 ∧ catRow.name = p.1.2 ∧ row.category_id = catRow.id ∧
            row.id = p.2) ∧
    (∀ p ∈ (linkSkills jobId r m).caches.skill_category_cache,
      ∃ row ∈ (linkSkills jobId r m).store.skill_categories,
        row.name = p.1 ∧ row.id = p.2) := by
  unfold linkSkills
  generalize skillCategoryNames = cats
  induction cats generalizing m with
  | nil =>
    refine ⟨rfl, rfl, rfl, rfl, rfl, rfl, rfl, List.prefix_refl _, List.prefix_refl _,
      List.prefix_refl _, ?_, hskn, hskseq, hcn, hcseq, hskck, hcck⟩
    intro cat h
    cases h
  | cons cat rest ih =>
    rw [List.foldl_cons]
    obtain ⟨hComp, hLoc, hJobs, hJL, hCC, hLC, hImp, hCatPre, hSkPre, hJSPre,
      hEst, hN1, hSeq1, hCN1, hCSeq1, hCk1, hCCk1⟩ :=
      linkSkillsCat_run1 jobId r cat m hskn hskseq hskck hcn hcseq hcck
    obtain ⟨iComp, iLoc, iJobs, iJL, iCC, iLC, iImp, iCatPre, iSkPre, iJSPre,
      iEst, iN, iSeq, iCN, iCSeq, iCk, iCCk⟩ :=
      ih (linkSkillsCat jobId r m cat) hN1 hSeq1 hCk1 hCN1 hCSeq1 hCCk1
    refine ⟨iComp.trans hComp, iLoc.trans hLoc, iJobs.trans hJobs, iJL.trans hJL,
      iCC.trans hCC, iLC.trans hLC, iImp.trans hImp, hCatPre.trans iCatPre,
      hSkPre.trans iSkPre, hJSPre.trans iJSPre,
      ?_, iN, iSeq, iCN, iCSeq, iCk, iCCk⟩
    intro c hc names hnames nm hnm htrim
    rcases List.mem_cons.mp hc with rfl | hmem
    · obtain ⟨catId, sid, hcid, hsid, hmem2⟩ := hEst names hnames nm hnm htrim
      exact ⟨catId, sid, canonCatId_mono iCatPre hcid,
        canonSkillId_mono iSkPre hsid, iJSPre.subset hmem2⟩
    · exact iEst c hmem names hnames nm hnm htrim

/-! ## The run-1 effect of one good record -/

/-- One `import_job` on a good record, from any state satisfying the store
and cache invariants: invariants are preserved, the store only grows, the
record ends fully saturated, and every job row either carries the record's
upsert normal form (when it holds the record's external id) or is carried
over verbatim. -/
theorem import_job_run1_good (m : MState) (r : Row) (t : ℕ)
    (hg : isGoodRow r = true)
    (hinv : StoreInv m.store) (hck : CachesOk m.caches m.store) :
    StoreInv (import_job r t m).2.store ∧
    CachesOk (import_job r t m).2.caches (import_job r t m).2.store ∧
    Grows m.store (import_job r t m).2.store ∧
    RowSaturated (import_job r t m).2.store r ∧
    (∃ cid, canonCompanyId (import_job r t m).2.store r.company_name = some cid ∧
      ∀ j ∈ (import_job r t m).2.store.jobs,
        (j.external_job_id = r.id ∧ j = upsertFields r cid t j) ∨
        (j ∈ m.store.jobs ∧ j.external_job_id ≠ r.id)) := by
  obtain ⟨hCN, hLN, hCatN, hSkN, hJN, hCSeq, hLSeq, hCatSeq, hSkSeq, hJSeq, hJLN, hJSN⟩ :=
    hinv
  obtain ⟨hckC, hckL, hckS, hckCat⟩ := hck
  obtain ⟨hid, hcn⟩ := isGoodRow_spec r hg
  obtain ⟨cid, m1, hc, heq⟩ := import_job_good_eq m r t hid hcn
  rw [heq]
  dsimp only
  have hcomp := gocCompany_spec r m hcn hCN hCSeq hckC
  rw [hc] at hcomp
  dsimp only at hcomp
  obtain ⟨hc1Loc, hc1Cat, hc1Sk, hc1Jobs, hc1JL, hc1JS, hc1LC, hc1SC, hc1CatC,
    hc1Imp, hc1Upd, hc1Pre, hc1Ex, hc1Noop, hc1N, hc1Seq, hc1Ck⟩ := hcomp
  obtain ⟨cidX, hcidX, hcanonX⟩ := hc1Ex
  have hcidXX : cid = cidX := Option.some.inj hcidX
  subst hcidXX
  have hup := upsertState_spec r cid t m1
    (by rw [hc1Jobs]; exact hJN) (by rw [hc1Jobs]; exact hJSeq)
  obtain ⟨⟨j1, hj1find, hj1id, hj1fix⟩, hKeysSome, hKeysNone, hChar, hupN, hupSeq,
    hupImp⟩ := hup
  obtain ⟨hfJL, hfJS, hfComp, hfLoc, hfCat, hfSk, hfCaches⟩ :=
    upsertState_frame r cid t m1
  have hloc := linkLocLoop_run1 (upsertJobId m1.store r) (rowIsRemote r) (citiesOf r)
    (upsertState r cid t m1)
    (by rw [hfLoc, hc1Loc]; exact hLN)
    (by rw [hfLoc, hc1Loc]; exact hLSeq)
    (by rw [hfCaches, hfLoc, hc1LC, hc1Loc]; exact hckL)
  have hm3eq : (citiesOf r).foldl
      (linkLocStep (upsertJobId m1.store r) (rowIsRemote r)) (upsertState r cid t m1) =
      linkLocations (upsertJobId m1.store r) r.locations (rowIsRemote r)
        (upsertState r cid t m1) := rfl
  rw [hm3eq] at hloc
  obtain ⟨hlComp, hlCat, hlSk, hlJobs, hlJS, hlCC, hlSC, hlCatC, hlImp, hlLocPre,
    hlJLPre, hlEst, hlN, hlSeq, hlCk⟩ := hloc
  have hsk := linkSkills_run1 (upsertJobId m1.store r) r
    (linkLocations (upsertJobId m1.store r) r.locations (rowIsRemote r)
      (upsertState r cid t m1))
    (by rw [hlSk, hfSk, hc1Sk]; exact hSkN)
    (by rw [hlSk, hfSk, hc1Sk]; exact hSkSeq)
    (by rw [hlSC, hfCaches, hc1SC, hlSk, hfSk, hc1Sk, hlCat, hfCat, hc1Cat]; exact hckS)
    (by rw [hlCat, hfCat, hc1Cat]; exact hCatN)
    (by rw [hlCat, hfCat, hc1Cat]; exact hCatSeq)
    (by rw [hlCatC, hfCaches, hc1CatC, hlCat, hfCat, hc1Cat]; exact hckCat)
  obtain ⟨hsComp, hsLoc, hsJobs, hsJL, hsCC, hsLC, hsImp, hsCatPre, hsSkPre, hsJSPre,
    hsEst, hsN, hsSeq, hsCN, hsCSeq, hsCk, hsCatCk⟩ := hsk
  have hMj : (linkSkills (upsertJobId m1.store r) r
      (linkLocations (upsertJobId m1.store r) r.locations (rowIsRemote r)
        (upsertState r cid t m1))).store.jobs =
      (upsertState r cid t m1).store.jobs := hsJobs.trans hlJobs
  refine ⟨⟨?_, ?_, hsCN, hsN, ?_, ?_, ?_, hsCSeq, hsSeq, ?_, ?_, ?_⟩,
    ⟨?_, ?_, hsCk, hsCatCk⟩, ⟨?_, ?_, ?_, ?_, ?_, ?_, ?_⟩, ?_, ?_⟩
  · rw [hsComp, hlComp, hfComp]
    exact hc1N
  · rw [hsLoc]
    exact hlN
  · rw [hMj]
    exact hupN
  · rw [hsComp, hlComp, hfComp]
    exact hc1Seq
  · rw [hsLoc]
    exact hlSeq
  · rw [hMj]
    exact hupSeq
  · rw [hsJL]
    exact linkLocations_nodup _ _ _ _ (by rw [hfJL, hc1JL]; exact hJLN)
  · exact linkSkills_nodup _ _ _ (by rw [hlJS, hfJS, hc1JS]; exact hJSN)
  · rw [hsCC, hlCC, hfCaches, hsComp, hlComp, hfComp]
    exact hc1Ck
  · rw [hsLC, hsLoc]
    exact hlCk
  · rw [hsComp, hlComp, hfComp]
    exact hc1Pre
  · rw [hsLoc, ← hc1Loc, ← hfLoc]
    exact hlLocPre
  · rw [← hc1Cat, ← hfCat, ← hlCat]
    exact hsCatPre
  · rw [← hc1Sk, ← hfSk, ← hlSk]
    exact hsSkPre
  · intro q hq
    rw [hsJL]
    exact hlJLPre.subset (by rw [hfJL, hc1JL]; exact hq)
  · intro q hq
    exact hsJSPre.subset (by rw [hlJS, hfJS, hc1JS]; exact hq)
  · intro e j hj
    have hj1m : canonJob m1.store e = some j := by
      rw [canonJob_congr hc1Jobs]
      exact hj
    have hkeys : ∃ tl, (upsertState r cid t m1).store.jobs.map
        (fun x => (x.id, x.external_job_id)) =
        m1.store.jobs.map (fun x => (x.id, x.external_job_id)) ++ tl := by
      rcases hopt : canonJob m1.store r.id with _ | ex
      · exact ⟨_, hKeysNone hopt⟩
      · refine ⟨[], ?_⟩
        rw [List.append_nil]
        exact hKeysSome (by rw [hopt]; rfl)
    obtain ⟨tl, htl⟩ := hkeys
    obtain ⟨ja, hja, hjaid⟩ := canonJob_of_keys htl hj1m
    refine ⟨ja, ?_, hjaid⟩
    rw [canonJob_congr hMj]
    exact hja
  · unfold RowSaturated
    rw [canonJob_congr hMj, hj1find]
    try dsimp only
    refine ⟨?_, ?_, ?_⟩
    · intro item hitem
      obtain ⟨lid, hlid, hmem⟩ := hlEst item hitem
      refine ⟨lid, ?_, ?_⟩
      · rw [canonLocId_congr hsLoc]
        exact hlid
      · rw [hj1id, hsJL]
        exact hmem
    · intro cat hcat names hnames nm hnm htrim
      obtain ⟨catId, sid, h1, h2, h3⟩ := hsEst cat hcat names hnames nm hnm htrim
      refine ⟨catId, sid, h1, h2, ?_⟩
      rw [hj1id]
      exact h3
    · refine ⟨cid, ?_⟩
      rw [canonCompanyId_congr (hsComp.trans (hlComp.trans hfComp))]
      exact hcanonX
  · refine ⟨cid, ?_, ?_⟩
    · rw [canonCompanyId_congr (hsComp.trans (hlComp.trans hfComp))]
      exact hcanonX
    · intro j hj
      rw [hMj] at hj
      rcases hChar j hj with ⟨hext, hfix⟩ | ⟨hmem, hne⟩
      · exact Or.inl ⟨hext, hfix⟩
      · refine Or.inr ⟨?_, hne⟩
        rw [← hc1Jobs]
        exact hmem

/-! ## The run-1 batch invariant -/

/-- Invariant carried through run 1: store and cache invariants hold, every
job row is in the normal form of its last good record, and every processed
good record is saturated. -/
def Run1Inv (p : List Row) (t : ℕ) (m : MState) : Prop :=
  StoreInv m.store ∧ CachesOk m.caches m.store ∧ JobsChar p t m.store ∧
  AllSaturated p m.store

/-- One record preserves the run-1 invariant. -/
theorem run1_step (p : List Row) (t : ℕ) (m : MState) (r : Row)
    (h : Run1Inv p t m) : Run1Inv (p ++ [r]) t (import_job r t m).2 := by
  obtain ⟨hinv, hck, hchar, hsat⟩ := h
  by_cases hg : isGoodRow r = true
  · obtain ⟨hinv2, hck2, hgrow, hrsat, cid, hcanon, hjchar⟩ :=
      import_job_run1_good m r t hg hinv hck
    refine ⟨hinv2, hck2, ?_, ?_⟩
    · intro j hj
      rcases hjchar j hj with ⟨hext, hfix⟩ | ⟨hmem, hne⟩
      · refine ⟨r, cid, ?_, hcanon, hfix⟩
        rw [hext]
        exact lastGoodFor_append_good p r hg
      · obtain ⟨r0, cid0, hlast, hc0, hfix0⟩ := hchar j hmem
        refine ⟨r0, cid0, ?_, canonCompanyId_mono hgrow.1 hc0, hfix0⟩
        have hne2 : r.id ≠ j.external_job_id := fun hx => hne hx.symm
        rw [lastGoodFor_append_skip p r _ (Or.inr hne2)]
        exact hlast
    · intro q hq hqg
      rcases List.mem_append.mp hq with hmem | hmem
      · exact rowSaturated_mono hgrow (hsat q hmem hqg)
      · rw [List.mem_singleton.mp hmem]
        exact hrsat
  · have hbad : isGoodRow r = false := by
      cases hgv : isGoodRow r
      · rfl
      · exact absurd hgv hg
    rw [import_job_notGood_eq m r t hbad]
    refine ⟨hinv, hck, ?_, ?_⟩
    · intro j hj
      obtain ⟨r0, cid0, hlast, hc0, hfix0⟩ := hchar j hj
      refine ⟨r0, cid0, ?_, hc0, hfix0⟩
      rw [lastGoodFor_append_skip p r _ (Or.inl hbad)]
      exact hlast
    · intro q hq hqg
      rcases List.mem_append.mp hq with hmem | hmem
      · exact hsat q hmem hqg
      · rw [List.mem_singleton.mp hmem] at hqg
        rw [hbad] at hqg
        cases hqg

/-- The batch loop preserves the run-1 invariant. -/
theorem run1_fold (t : ℕ) (rest : List Row) (p : List Row) (m : MState)
    (h : Run1Inv p t m) :
    Run1Inv (p ++ rest) t (rest.foldl (fun acc r => (import_job r t acc).2) m) := by
  induction rest generalizing p m with
  | nil =>
    rw [List.append_nil]
    exact h
  | cons r rest ih =>
    rw [List.foldl_cons]
    have hnext := ih (p ++ [r]) (import_job r t m).2 (run1_step p t m r h)
    have hl : p ++ [r] ++ rest = p ++ r :: rest := by simp
    rw [hl] at hnext
    exact hnext

/-- The invariant holds in the freshly initialized migrator. -/
theorem run1Inv_init (t : ℕ) : Run1Inv [] t ⟨emptyStore, initCaches, initStats⟩ := by
  refine ⟨⟨?_, ?_, ?_, ?_, ?_, ?_, ?_, ?_, ?_, ?_, ?_, ?_⟩, ⟨?_, ?_, ?_, ?_⟩, ?_, ?_⟩
  · simp [emptyStore]
  · simp [emptyStore]
  · simp [emptyStore]
  · simp [emptyStore]
  · simp [emptyStore]
  · intro i
    exact absurd i.isLt (Nat.not_lt_zero _)
  · intro i
    exact absurd i.isLt (Nat.not_lt_zero _)
  · intro i
    exact absurd i.isLt (Nat.not_lt_zero _)
  · intro i
    exact absurd i.isLt (Nat.not_lt_zero _)
  · intro i
    exact absurd i.isLt (Nat.not_lt_zero _)
  · simp [emptyStore]
  · simp [emptyStore]
  · intro p hp
    exact absurd hp (List.not_mem_nil p)
  · intro p hp
    exact absurd hp (List.not_mem_nil p)
  · intro p hp
    exact absurd hp (List.not_mem_nil p)
  · intro p hp
    exact absurd hp (List.not_mem_nil p)
  · intro j hj
    exact absurd hj (List.not_mem_nil j)
  · intro q hq
    exact absurd hq (List.not_mem_nil q)

/-- What one full run from the empty store leaves behind: the reconciliation
pass is a store no-op (every fresh row was just seen), the store invariants
hold, every job row is in its last good record's normal form, and every good
record of the batch is saturated. -/
theorem migrateRun1_summary (rows : List Row) (t : ℕ) :
    (migrateRun rows t emptyStore).store = (importBatch rows t emptyStore).store ∧
    StoreInv (migrateRun rows t emptyStore).store ∧
    JobsChar rows t (migrateRun rows t emptyStore).store ∧
    AllSaturated rows (migrateRun rows t emptyStore).store := by
  have hB := run1_fold t rows [] ⟨emptyStore, initCaches, initStats⟩ (run1Inv_init t)
  rw [List.nil_append] at hB
  have hfold : importBatch rows t emptyStore =
      rows.foldl (fun acc r => (import_job r t acc).2) ⟨emptyStore, initCaches, initStats⟩ :=
    rfl
  rw [← hfold] at hB
  obtain ⟨hinv, hck, hchar, hsat⟩ := hB
  have hjobsid : (importBatch rows t emptyStore).store.jobs.map (closeStep t) =
      (importBatch rows t emptyStore).store.jobs := by
    have hpt : ∀ j ∈ (importBatch rows t emptyStore).store.jobs, closeStep t j = j := by
      intro j hj
      obtain ⟨r0, cid0, hlast, hc0, hfix⟩ := hchar j hj
      refine closeStep_of_seen t j ?_ ?_
      · rw [hfix]
        rfl
      · rw [hfix]
        rfl
    calc (importBatch rows t emptyStore).store.jobs.map (closeStep t)
        = (importBatch rows t emptyStore).store.jobs.map id := List.map_congr_left hpt
      _ = (importBatch rows t emptyStore).store.jobs := List.map_id _
  have hstore : (migrateRun rows t emptyStore).store =
      (importBatch rows t emptyStore).store := by
    show (mark_closed_jobs t (importBatch rows t emptyStore)).store = _
    unfold mark_closed_jobs
    dsimp only
    rw [hjobsid]
  refine ⟨hstore, ?_, ?_, ?_⟩
  · rw [hstore]
    exact hinv
  · rw [hstore]
    exact hchar
  · rw [hstore]
    exact hsat

/-! ## The run-2 replay combinators -/

/-- The company id the saturated store canonically resolves for a record. -/
def theCid (S1 : Store) (r : Row) : ℕ := (canonCompanyId S1 r.company_name).getD 0

/-- What a prefix `q` of a re-run over saturated store `S1` does to one job
row: rewrite it with its last good record of `q` (if any) at the new
timestamp. -/
def run2Job (S1 : Store) (q : List Row) (t : ℕ) (j : Job) : Job :=
  match lastGoodFor q j.external_job_id with
  | some r => upsertFields r (theCid S1 r) t j
  | none => j

theorem run2Job_id (S1 : Store) (q : List Row) (t : ℕ) (j : Job) :
    (run2Job S1 q t j).id = j.id := by
  unfold run2Job
  cases lastGoodFor q j.external_job_id <;> rfl

theorem run2Job_ext (S1 : Store) (q : List Row) (t : ℕ) (j : Job) :
    (run2Job S1 q t j).external_job_id = j.external_job_id := by
  unfold run2Job
  cases lastGoodFor q j.external_job_id <;> rfl

theorem run2Job_created (S1 : Store) (q : List Row) (t : ℕ) (j : Job) :
    (run2Job S1 q t j).created_at = j.created_at := by
  unfold run2Job
  cases lastGoodFor q j.external_job_id <;> rfl

/-- Invariant carried through run 2, over saturated run-1 store `S1`: no
dimension or link table has changed, the jobs table is the pointwise replay
of the processed prefix, the caches are write-through, and nothing has been
counted as imported. -/
def Run2Inv (S1 : Store) (q : List Row) (t : ℕ) (m : MState) : Prop :=
  m.store.companies = S1.companies ∧
  m.store.locations = S1.locations ∧
  m.store.skill_categories = S1.skill_categories ∧
  m.store.skills = S1.skills ∧
  m.store.job_locations = S1.job_locations ∧
  m.store.job_skills = S1.job_skills ∧
  m.store.jobs = S1.jobs.map (run2Job S1 q t) ∧
  CachesOk m.caches m.store ∧
  m.stats.jobs_imported = 0

/-! ## Run-2 no-op form of the link loops -/

/-- The location loop over fully saturated entries: the store does not move,
and the location cache stays write-through. -/
theorem linkLocLoop_noop (jobId : ℕ) (isR : Bool) (items : List LocItem) (m : MState)
    (hn : (m.store.locations.map locationKey).Nodup)
    (hseq : SeqIds (·.id) m.store.locations)
    (hck : ∀ p ∈ m.caches.location_cache, ∃ row ∈ m.store.locations,
      locationKey row = p.1 ∧ row.id = p.2)
    (hsat : ∀ item ∈ items, ∃ lid, canonLocId m.store (locKeyOf [item] isR) = some lid ∧
      (jobId, lid) ∈ m.store.job_locations) :
    (items.foldl (linkLocStep jobId isR) m).store = m.store ∧
    (∀ p ∈ (items.foldl (linkLocStep jobId isR) m).caches.location_cache,
      ∃ row ∈ (items.foldl (linkLocStep jobId isR) m).store.locations,
        locationKey row = p.1 ∧ row.id = p.2) ∧
    (items.foldl (linkLocStep jobId isR) m).caches.company_cache =
      m.caches.company_cache ∧
    (items.foldl (linkLocStep jobId isR) m).caches.skill_cache = m.caches.skill_cache ∧
    (items.foldl (linkLocStep jobId isR) m).caches.skill_category_cache =
      m.caches.skill_category_cache ∧
    (items.foldl (linkLocStep jobId isR) m).stats.jobs_imported =
      m.stats.jobs_imported := by
  induction items generalizing m with
  | nil => exact ⟨rfl, hck, rfl, rfl, rfl, rfl⟩
  | cons item rest ih =>
    rw [List.foldl_cons]
    obtain ⟨lid, hlid, hmem⟩ := hsat item (List.mem_cons_self item rest)
    have hspec := gocLocation_spec [item] isR m hn hseq hck
    rcases hgl : get_or_create_location [item] isR m with ⟨locId, m1⟩
    rw [hgl] at hspec
    dsimp only at hspec
    obtain ⟨hComp, hCat, hSk, hJobs, hJL, hJS, hCC, hSC2, hSCC, hImp, hUpd,
      hPre, hRow, hCanon, hPos, hNoop, hN1, hSeq1, hCk1⟩ := hspec
    have hst1 : m1.store = m.store := hNoop (by rw [hlid]; rfl)
    have hlocid : locId = lid := by
      have h2 : canonLocId m.store (locKeyOf [item] isR) = some locId := by
        rw [← hst1]
        exact hCanon
      rw [hlid] at h2
      exact (Option.some.inj h2).symm
    have hstep : linkLocStep jobId isR m item =
        { m1 with store.job_locations :=
            insertPairIfAbsent (jobId, locId) m1.store.job_locations } := by
      unfold linkLocStep
      rw [hgl]
      dsimp only
      rw [if_pos (by omega : locId ≠ 0)]
    have hins : insertPairIfAbsent (jobId, locId) m1.store.job_locations =
        m1.store.job_locations := by
      unfold insertPairIfAbsent
      rw [if_pos (by rw [hst1, hlocid]; exact hmem)]
    have hstore : (linkLocStep jobId isR m item).store = m.store := by
      rw [hstep]
      dsimp only
      rw [hins]
      exact hst1
    have hcaches : (linkLocStep jobId isR m item).caches = m1.caches := by
      rw [hstep]
    have hstats : (linkLocStep jobId isR m item).stats = m1.stats := by
      rw [hstep]
    obtain ⟨iStore, iCk, iCC, iSC, iSCC, iImp⟩ := ih (linkLocStep jobId isR m item)
      (by rw [hstore]; exact hn) (by rw [hstore]; exact hseq)
      (by
        intro p hp
        rw [hcaches] at hp
        rw [hstore, ← hst1]
        exact hCk1 p hp)
      (by
        intro it hit
        rw [hstore]
        exact hsat it (List.mem_cons_of_mem _ hit))
    have hCCb : (linkLocStep jobId isR m item).caches.company_cache =
        m.caches.company_cache := by
      rw [hcaches]
      exact hCC
    have hSCb : (linkLocStep jobId isR m item).caches.skill_cache =
        m.caches.skill_cache := by
      rw [hcaches]
      exact hSC2
    have hSCCb : (linkLocStep jobId isR m item).caches.skill_category_cache =
        m.caches.skill_category_cache := by
      rw [hcaches]
      exact hSCC
    have hImpb : (linkLocStep jobId isR m item).stats.jobs_imported =
        m.stats.jobs_imported := by
      rw [hstats]
      exact hImp
    refine ⟨iStore.trans hstore, ?_, iCC.trans hCCb, iSC.trans hSCb, iSCC.trans hSCCb,
      iImp.trans hImpb⟩
    intro p hp
    exact iCk p hp

/-- One category's name loop over fully saturated skills: the store does not
move, and both skill-side caches stay write-through. -/
theorem linkSkillNames_noop (jobId : ℕ) (cat : String) (names : List String) (m : MState)
    (hskn : (m.store.skills.map skillKey).Nodup)
    (hskseq : SeqIds (·.id) m.store.skills)
    (hskck : ∀ p ∈ m.caches.skill_cache, ∃ row ∈ m.store.skills,
      ∃ catRow ∈ m.store.skill_categories, row.name = p.1.1 ∧ catRow.name = p.1.2 ∧
        row.category_id = catRow.id ∧ row.id = p.2)
    (hcn : (m.store.skill_categories.map (·.name)).Nodup)
    (hcseq : SeqIds (·.id) m.store.skill_categories)
    (hcck : ∀ p ∈ m.caches.skill_category_cache, ∃ row ∈ m.store.skill_categories,
      row.name = p.1 ∧ row.id = p.2)
    (hsat : ∀ nm ∈ names, trimWS nm.data ≠ [] → ∃ catId sid,
      canonCatId m.store cat = some catId ∧
      canonSkillId m.store (String.mk (trimWS nm.data)) catId = some sid ∧
      (jobId, sid) ∈ m.store.job_skills) :
    (names.foldl (linkSkillStep jobId cat) m).store = m.store ∧
    (∀ p ∈ (names.foldl (linkSkillStep jobId cat) m).caches.skill_cache,
      ∃ row ∈ (names.foldl (linkSkillStep jobId cat) m).store.skills,
        ∃ catRow ∈ (names.foldl (linkSkillStep jobId cat) m).store.skill_categories,
          row.name = p.1.1 ∧ catRow.name = p.1.2 ∧ row.category_id = catRow.id ∧
            row.id = p.2) ∧
    (∀ p ∈ (names.foldl (linkSkillStep jobId cat) m).caches.skill_category_cache,
      ∃ row ∈ (names.foldl (linkSkillStep jobId cat) m).store.skill_categories,
        row.name = p.1 ∧ row.id = p.2) ∧
    (names.foldl (linkSkillStep jobId cat) m).caches.company_cache =
      m.caches.company_cache ∧
    (names.foldl (linkSkillStep jobId cat) m).caches.location_cache =
      m.caches.location_cache ∧
    (names.foldl (linkSkillStep jobId cat) m).stats.jobs_imported =
      m.stats.jobs_imported := by
  induction names generalizing m with
  | nil => exact ⟨rfl, hskck, hcck, rfl, rfl, rfl⟩
  | cons nm rest ih =>
    rw [List.foldl_cons]
    by_cases htrim : trimWS nm.data = []
    · have hnone : get_or_create_skill nm cat m = (none, m) := by
        unfold get_or_create_skill
        rw [if_pos htrim]
      have hstep : linkSkillStep jobId cat m nm = m := by
        unfold linkSkillStep
        rw [hnone]
      rw [hstep]
      exact ih m hskn hskseq hskck hcn hcseq hcck
        (fun it hit hti => hsat it (List.mem_cons_of_mem _ hit) hti)
    · obtain ⟨catId, sid, h1, h2, h3⟩ := hsat nm (List.mem_cons_self nm rest) htrim
      have hspec := gocSkill_spec nm cat m htrim hskn hskseq hskck hcn hcseq hcck
      rcases hgs : get_or_create_skill nm cat m with ⟨sidq, m1⟩
      rw [hgs] at hspec
      dsimp only at hspec
      obtain ⟨hComp, hLoc, hJobs, hJL, hJS, hCC, hLC, hImp, hUpd, hCatPre, hSkPre,
        hRes, hNoop, hN1, hSeq1, hCN1, hCSeq1, hCk1, hCCk1⟩ := hspec
      have hst1 : m1.store = m.store := hNoop catId h1 (by rw [h2]; rfl)
      obtain ⟨catIdX, sidX, hcidX, hsidX, hresX⟩ := hRes
      rw [hst1] at hcidX hsidX
      rw [h1] at hcidX
      have hcatX : catIdX = catId := (Option.some.inj hcidX).symm
      rw [hcatX] at hsidX
      rw [h2] at hsidX
      have hsidXX : sidX = sid := (Option.some.inj hsidX).symm
      rw [hsidXX] at hresX
      have hstep : linkSkillStep jobId cat m nm =
          { m1 with
            store.job_skills := insertPairIfAbsent (jobId, sid) m1.store.job_skills,
            stats.job_skills_created := m1.stats.job_skills_created + 1 } := by
        unfold linkSkillStep
        rw [hgs]
        dsimp only
        rw [hresX]
      have hins : insertPairIfAbsent (jobId, sid) m1.store.job_skills =
          m1.store.job_skills := by
        unfold insertPairIfAbsent
        rw [if_pos (by rw [hst1]; exact h3)]
      have hstore : (linkSkillStep jobId cat m nm).store = m.store := by
        rw [hstep]
        dsimp only
        rw [hins]
        exact hst1
      have hcaches : (linkSkillStep jobId cat m nm).caches = m1.caches := by
        rw [hstep]
      have hstats : (linkSkillStep jobId cat m nm).stats.jobs_imported =
          m.stats.jobs_imported := by
        rw [hstep]
        exact hImp
      obtain ⟨iStore, iCk, iCCk, iCC, iLC, iImp⟩ := ih (linkSkillStep jobId cat m nm)
        (by rw [hstore]; exact hskn) (by rw [hstore]; exact hskseq)
        (by
          intro p hp
          rw [hcaches] at hp
          rw [hstore, ← hst1]
          exact hCk1 p hp)
        (by rw [hstore]; exact hcn) (by rw [hstore]; exact hcseq)
        (by
          intro p hp
          rw [hcaches] at hp
          rw [hstore, ← hst1]
          exact hCCk1 p hp)
        (by
          intro it hit hti
          rw [hstore]
          exact hsat it (List.mem_cons_of_mem _ hit) hti)
      have hCCb : (linkSkillStep jobId cat m nm).caches.company_cache =
          m.caches.company_cache := by
        rw [hcaches]
        exact hCC
      have hLCb : (linkSkillStep jobId cat m nm).caches.location_cache =
          m.caches.location_cache := by
        rw [hcaches]
        exact hLC
      exact ⟨iStore.trans hstore, iCk, iCCk, iCC.trans hCCb, iLC.trans hLCb,
        iImp.trans hstats⟩

/-- One category of the skill loop in the saturated re-run. -/
theorem linkSkillsCat_noop (jobId : ℕ) (r : Row) (cat : String) (m : MState)
    (hskn : (m.store.skills.map skillKey).Nodup)
    (hskseq : SeqIds (·.id) m.store.skills)
    (hskck : ∀ p ∈ m.caches.skill_cache, ∃ row ∈ m.store.skills,
      ∃ catRow ∈ m.store.skill_categories, row.name = p.1.1 ∧ catRow.name = p.1.2 ∧
        row.category_id = catRow.id ∧ row.id = p.2)
    (hcn : (m.store.skill_categories.map (·.name)).Nodup)
    (hcseq : SeqIds (·.id) m.store.skill_categories)
    (hcck : ∀ p ∈ m.caches.skill_category_cache, ∃ row ∈ m.store.skill_categories,
      row.name = p.1 ∧ row.id = p.2)
    (hsat : ∀ names, alookup cat r.skill_fields = some names →
      ∀ nm ∈ names, trimWS nm.data ≠ [] → ∃ catId sid,
        canonCatId m.store cat = some catId ∧
        canonSkillId m.store (String.mk (trimWS nm.data)) catId = some sid ∧
        (jobId, sid) ∈ m.store.job_skills) :
    (linkSkillsCat jobId r m cat).store = m.store ∧
    (∀ p ∈ (linkSkillsCat jobId r m cat).caches.skill_cache,
      ∃ row ∈ (linkSkillsCat jobId r m cat).store.skills,
        ∃ catRow ∈ (linkSkillsCat jobId r m cat).store.skill_categories,
          row.name = p.1.1 ∧ catRow.name = p.1.2 ∧ row.category_id = catRow.id ∧
            row.id = p.2) ∧
    (∀ p ∈ (linkSkillsCat jobId r m cat).caches.skill_category_cache,
      ∃ row ∈ (linkSkillsCat jobId r m cat).store.skill_categories,
        row.name = p.1 ∧ row.id = p.2) ∧
    (linkSkillsCat jobId r m cat).caches.company_cache = m.caches.company_cache ∧
    (linkSkillsCat jobId r m cat).caches.location_cache = m.caches.location_cache ∧
    (linkSkillsCat jobId r m cat).stats.jobs_imported = m.stats.jobs_imported := by
  unfold linkSkillsCat
  rcases halk : alookup cat r.skill_fields with _ | names
  · try rw [halk]
    try dsimp only
    exact ⟨rfl, hskck, hcck, rfl, rfl, rfl⟩
  · try rw [halk]
    try dsimp only
    exact linkSkillNames_noop jobId cat names m hskn hskseq hskck hcn hcseq hcck
      (fun nm hnm hti => hsat names halk nm hnm hti)

/-- The full skill loop in the saturated re-run: the store does not move. -/
theorem linkSkills_noop (jobId : ℕ) (r : Row) (m : MState)
    (hskn : (m.store.skills.map skillKey).Nodup)
    (hskseq : SeqIds (·.id) m.store.skills)
    (hskck : ∀ p ∈ m.caches.skill_cache, ∃ row ∈ m.store.skills,
      ∃ catRow ∈ m.store.skill_categories, row.name = p.1.1 ∧ catRow.name = p.1.2 ∧
        row.category_id = catRow.id ∧ row.id = p.2)
    (hcn : (m.store.skill_categories.map (·.name)).Nodup)
    (hcseq : SeqIds (·.id) m.store.skill_categories)
    (hcck : ∀ p ∈ m.caches.skill_category_cache, ∃ row ∈ m.store.skill_categories,
      row.name = p.1 ∧ row.id = p.2)
    (hsat : ∀ cat ∈ skillCategoryNames, ∀ names, alookup cat r.skill_fields = some names →
      ∀ nm ∈ names, trimWS nm.data ≠ [] → ∃ catId sid,
        canonCatId m.store cat = some catId ∧
        canonSkillId m.store (String.mk (trimWS nm.data)) catId = some sid ∧
        (jobId, sid) ∈ m.store.job_skills) :
    (linkSkills jobId r m).store = m.store ∧
    (∀ p ∈ (linkSkills jobId r m).caches.skill_cache,
      ∃ row ∈ (linkSkills jobId r m).store.skills,
        ∃ catRow ∈ (linkSkills jobId r m).store.skill_categories,
          row.name = p.1.1 ∧ catRow.name = p.1.2 ∧ row.category_id = catRow.id ∧
            row.id = p.2) ∧
    (∀ p ∈ (linkSkills jobId r m).caches.skill_category_cache,
      ∃ row ∈ (linkSkills jobId r m).store.skill_categories,
        row.name = p.1 ∧ row.id = p.2) ∧
    (linkSkills jobId r m).caches.company_cache = m.caches.company_cache ∧
    (linkSkills jobId r m).caches.location_cache = m.caches.location_cache ∧
    (linkSkills jobId r m).stats.jobs_imported = m.stats.jobs_imported := by
  unfold linkSkills
  revert hsat
  generalize skillCategoryNames = cats
  induction cats generalizing m with
  | nil =>
    intro hsat
    exact ⟨rfl, hskck, hcck, rfl, rfl, rfl⟩
  | cons cat rest ih =>
    intro hsat
    rw [List.foldl_cons]
    obtain ⟨hStore, hCk, hCCk, hCC, hLC, hImp⟩ :=
      linkSkillsCat_noop jobId r cat m hskn hskseq hskck hcn hcseq hcck
        (hsat cat (List.mem_cons_self cat rest))
    obtain ⟨iStore, iCk, iCCk, iCC, iLC, iImp⟩ := ih (linkSkillsCat jobId r m cat)
      (by rw [hStore]; exact hskn) (by rw [hStore]; exact hskseq)
      (by
        intro p hp
        exact hCk p hp)
      (by rw [hStore]; exact hcn) (by rw [hStore]; exact hcseq)
      (by
        intro p hp
        exact hCCk p hp)
      (by
        intro c hc names hnames nm hnm hti
        rw [hStore]
        exact hsat c (List.mem_cons_of_mem _ hc) names hnames nm hnm hti)
    refine ⟨iStore.trans hStore, iCk, iCCk, iCC.trans hCC, iLC.trans hLC,
      iImp.trans hImp⟩

/-! ## One record of the re-run -/

/-- Re-importing one record of the batch against the saturated run-1 store:
the dimension and link tables do not move, the jobs table advances by one
replay step, caches stay write-through, and nothing is counted as imported. -/
theorem run2_step (S1 : Store) (t : ℕ) (q : List Row) (m : MState) (r : Row)
    (hS1inv : StoreInv S1) (hrs : isGoodRow r = true → RowSaturated S1 r)
    (h : Run2Inv S1 q t m) :
    Run2Inv S1 (q ++ [r]) t (import_job r t m).2 := by
  obtain ⟨hmC, hmL, hmCat, hmSk, hmJL, hmJS, hmJobs, hmck, hmImp⟩ := h
  obtain ⟨hmckC, hmckL, hmckS, hmckCat⟩ := hmck
  obtain ⟨hsCN, hsLN, hsCatN, hsSkN, hsJN, hsCSeq, hsLSeq, hsCatSeq, hsSkSeq, hsJSeq,
    hsJLN, hsJSN⟩ := hS1inv
  by_cases hg : isGoodRow r = true
  · have hRS := hrs hg
    unfold RowSaturated at hRS
    rcases hjS1 : canonJob S1 r.id with _ | jS1
    · rw [hjS1] at hRS
      exact absurd hRS not_false
    · rw [hjS1] at hRS
      obtain ⟨hRSloc, hRSsk, cid0, hcid0⟩ := hRS
      have hjS1ext : jS1.external_job_id = r.id := by
        have := List.find?_some hjS1
        simpa using this
      have hjS1mem : jS1 ∈ S1.jobs := List.mem_of_find?_eq_some hjS1
      obtain ⟨hid, hcn⟩ := isGoodRow_spec r hg
      obtain ⟨cid, m1, hc, heq⟩ := import_job_good_eq m r t hid hcn
      rw [heq]
      dsimp only
      have hcomp := gocCompany_spec r m hcn (by rw [hmC]; exact hsCN)
        (by rw [hmC]; exact hsCSeq) hmckC
      rw [hc] at hcomp
      dsimp only at hcomp
      obtain ⟨hc1Loc, hc1Cat, hc1Sk, hc1Jobs, hc1JL, hc1JS, hc1LC, hc1SC, hc1CatC,
        hc1Imp, hc1Upd, hc1Pre, hc1Ex, hc1Noop, hc1N, hc1Seq, hc1Ck⟩ := hcomp
      have hst1 : m1.store = m.store :=
        hc1Noop (by rw [canonCompanyId_congr hmC, hcid0]; rfl)
      obtain ⟨cidX, hcidX, hcanonX⟩ := hc1Ex
      have hcidXX : cid = cidX := Option.some.inj hcidX
      subst hcidXX
      have hcidm : canonCompanyId m.store r.company_name = some cid := by
        rw [← hst1]
        exact hcanonX
      have hcidS1 : canonCompanyId S1 r.company_name = some cid :=
        (canonCompanyId_congr hmC _).symm.trans hcidm
      have htheCid : theCid S1 r = cid := by
        unfold theCid
        rw [hcidS1]
        rfl
      have hextmap : m.store.jobs.map (fun x => (x.id, x.external_job_id)) =
          S1.jobs.map (fun x => (x.id, x.external_job_id)) ++ [] := by
        rw [List.append_nil, hmJobs, List.map_map]
        refine List.map_congr_left ?_
        intro j hj
        show ((run2Job S1 q t j).id, (run2Job S1 q t j).external_job_id) =
          (j.id, j.external_job_id)
        rw [run2Job_id, run2Job_ext]
      obtain ⟨ex, hexm, hexid⟩ := canonJob_of_keys hextmap hjS1
      have hm1jobs : m1.store.jobs = m.store.jobs := by rw [hst1]
      have hexm1 : canonJob m1.store r.id = some ex := by
        rw [canonJob_congr hm1jobs]
        exact hexm
      have hisSome : (canonJob m1.store r.id).isSome := by
        rw [hexm1]
        rfl
      have hextnd : (m1.store.jobs.map (·.external_job_id)).Nodup := by
        rw [hm1jobs, hmJobs, List.map_map]
        have hmapeq : S1.jobs.map ((fun x => x.external_job_id) ∘ run2Job S1 q t) =
            S1.jobs.map (fun x => x.external_job_id) := by
          refine List.map_congr_left ?_
          intro j hj
          show (run2Job S1 q t j).external_job_id = j.external_job_id
          rw [run2Job_ext]
        rw [hmapeq]
        exact hsJN
      have hseqm1 : SeqIds (·.id) m1.store.jobs := by
        rw [hm1jobs, hmJobs]
        exact seqIds_map _ _ (run2Job_id S1 q t) _ hsJSeq
      have hup := upsertState_spec r cid t m1 hextnd hseqm1
      obtain ⟨⟨j1, hj1find, hj1id, hj1fix⟩, hKeysSome, hKeysNone, hChar, hupN, hupSeq,
        hupImp⟩ := hup
      obtain ⟨hfJL, hfJS, hfComp, hfLoc, hfCat, hfSk, hfCaches⟩ :=
        upsertState_frame r cid t m1
      have hm2jobs : (upsertState r cid t m1).store.jobs =
          m1.store.jobs.map
            (fun j => if j.id = ex.id then upsertFields r cid t j else j) := by
        unfold upsertState
        rw [hexm1]
      have hjobid : upsertJobId m1.store r = jS1.id := by
        unfold upsertJobId
        rw [hexm1]
        exact hexid
      have hm2C : (upsertState r cid t m1).store.companies = S1.companies := by
        rw [hfComp, hst1]
        exact hmC
      have hm2L : (upsertState r cid t m1).store.locations = S1.locations := by
        rw [hfLoc, hst1]
        exact hmL
      have hm2Cat : (upsertState r cid t m1).store.skill_categories =
          S1.skill_categories := by
        rw [hfCat, hst1]
        exact hmCat
      have hm2Sk : (upsertState r cid t m1).store.skills = S1.skills := by
        rw [hfSk, hst1]
        exact hmSk
      have hm2JLe : (upsertState r cid t m1).store.job_locations = S1.job_locations := by
        rw [hfJL, hst1]
        exact hmJL
      have hm2JSe : (upsertState r cid t m1).store.job_skills = S1.job_skills := by
        rw [hfJS, hst1]
        exact hmJS
      have hLn := linkLocLoop_noop (upsertJobId m1.store r) (rowIsRemote r) (citiesOf r)
        (upsertState r cid t m1)
        (by rw [hm2L]; exact hsLN)
        (by rw [hm2L]; exact hsLSeq)
        (by
          intro p hp
          rw [hfCaches, hc1LC] at hp
          obtain ⟨row, hrow, hkey, hpid⟩ := hmckL p hp
          refine ⟨row, ?_, hkey, hpid⟩
          rw [hm2L, ← hmL]
          exact hrow)
        (by
          intro item hitem
          obtain ⟨lid, hl1, hl2⟩ := hRSloc item hitem
          refine ⟨lid, ?_, ?_⟩
          · rw [canonLocId_congr hm2L]
            exact hl1
          · rw [hjobid, hm2JLe]
            exact hl2)
      have hm3eq : (citiesOf r).foldl
          (linkLocStep (upsertJobId m1.store r) (rowIsRemote r))
          (upsertState r cid t m1) =
          linkLocations (upsertJobId m1.store r) r.locations (rowIsRemote r)
            (upsertState r cid t m1) := rfl
      rw [hm3eq] at hLn
      obtain ⟨hlStore, hlCk, hlCC, hlSC, hlSCC, hlImp⟩ := hLn
      have hm3Sk : (linkLocations (upsertJobId m1.store r) r.locations (rowIsRemote r)
          (upsertState r cid t m1)).store.skills = S1.skills := by
        rw [hlStore]
        exact hm2Sk
      have hm3Cat : (linkLocations (upsertJobId m1.store r) r.locations (rowIsRemote r)
          (upsertState r cid t m1)).store.skill_categories = S1.skill_categories := by
        rw [hlStore]
        exact hm2Cat
      have hm3JS : (linkLocations (upsertJobId m1.store r) r.locations (rowIsRemote r)
          (upsertState r cid t m1)).store.job_skills = S1.job_skills := by
        rw [hlStore]
        exact hm2JSe
      have hSn := linkSkills_noop (upsertJobId m1.store r) r
        (linkLocations (upsertJobId m1.store r) r.locations (rowIsRemote r)
          (upsertState r cid t m1))
        (by rw [hm3Sk]; exact hsSkN)
        (by rw [hm3Sk]; exact hsSkSeq)
        (by
          intro p hp
          rw [hlSC, hfCaches, hc1SC] at hp
          obtain ⟨row, hrow, catRow, hcatRow, h1, h2, h3, h4⟩ := hmckS p hp
          refine ⟨row, ?_, catRow, ?_, h1, h2, h3, h4⟩
          · rw [hm3Sk, ← hmSk]
            exact hrow
          · rw [hm3Cat, ← hmCat]
            exact hcatRow)
        (by rw [hm3Cat]; exact hsCatN)
        (by rw [hm3Cat]; exact hsCatSeq)
        (by
          intro p hp
          rw [hlSCC, hfCaches, hc1CatC] at hp
          obtain ⟨row, hrow, h1, h2⟩ := hmckCat p hp
          refine ⟨row, ?_, h1, h2⟩
          rw [hm3Cat, ← hmCat]
          exact hrow)
        (by
          intro cat hcat names hnames nm hnm hti
          obtain ⟨catId, sid, h1, h2, h3⟩ := hRSsk cat hcat names hnames nm hnm hti
          refine ⟨catId, sid, ?_, ?_, ?_⟩
          · rw [canonCatId_congr hm3Cat]
            exact h1
          · rw [canonSkillId_congr hm3Sk]
            exact h2
          · rw [hm3JS, hjobid]
            exact h3)
      obtain ⟨hsStore, hsCkf, hsCCkf, hsCCf, hsLCf, hsImpf⟩ := hSn
      have hm4store : (linkSkills (upsertJobId m1.store r) r
          (linkLocations (upsertJobId m1.store r) r.locations (rowIsRemote r)
            (upsertState r cid t m1))).store = (upsertState r cid t m1).store :=
        hsStore.trans hlStore
      refine ⟨?_, ?_, ?_, ?_, ?_, ?_, ?_, ⟨?_, ?_, ?_, ?_⟩, ?_⟩
      · rw [hm4store]
        exact hm2C
      · rw [hm4store]
        exact hm2L
      · rw [hm4store]
        exact hm2Cat
      · rw [hm4store]
        exact hm2Sk
      · rw [hm4store]
        exact hm2JLe
      · rw [hm4store]
        exact hm2JSe
      · rw [hm4store, hm2jobs, hm1jobs, hmJobs, List.map_map]
        refine List.map_congr_left ?_
        intro j hj
        show (if (run2Job S1 q t j).id = ex.id
            then upsertFields r cid t (run2Job S1 q t j) else run2Job S1 q t j) =
          run2Job S1 (q ++ [r]) t j
        rw [run2Job_id]
        by_cases hjid : j.id = ex.id
        · rw [if_pos hjid]
          have hjeq : j = jS1 := seqIds_inj _ _ hsJSeq hj hjS1mem (hjid.trans hexid)
          have hjext : j.external_job_id = r.id := by
            rw [hjeq]
            exact hjS1ext
          have hcong : upsertFields r cid t (run2Job S1 q t j) =
              upsertFields r cid t j :=
            upsertFields_congr r cid t (run2Job_id S1 q t j) (run2Job_ext S1 q t j)
              (run2Job_created S1 q t j)
          rw [hcong]
          unfold run2Job
          rw [hjext, lastGoodFor_append_good q r hg]
          dsimp only
          rw [htheCid]
        · rw [if_neg hjid]
          have hjext : j.external_job_id ≠ r.id := by
            intro hxe
            have hjeq : j = jS1 := jobs_ext_inj hsJN hj hjS1mem (hxe.trans hjS1ext.symm)
            exact hjid (by rw [hjeq, ← hexid])
          unfold run2Job
          rw [lastGoodFor_append_skip q r _ (Or.inr (fun hre => hjext hre.symm))]
      · intro p hp
        rw [hsCCf, hlCC, hfCaches] at hp
        obtain ⟨row, hrow, h1, h2⟩ := hc1Ck p hp
        refine ⟨row, ?_, h1, h2⟩
        rw [hm4store, hfComp]
        exact hrow
      · intro p hp
        rw [hsLCf] at hp
        obtain ⟨row, hrow, h1, h2⟩ := hlCk p hp
        refine ⟨row, ?_, h1, h2⟩
        rw [hm4store, ← hlStore]
        exact hrow
      · exact hsCkf
      · exact hsCCkf
      · exact hsImpf.trans (hlImp.trans ((hupImp hisSome).trans (hc1Imp.trans hmImp)))
  · have hbad : isGoodRow r = false := by
      cases hgv : isGoodRow r
      · rfl
      · exact absurd hgv hg
    rw [import_job_notGood_eq m r t hbad]
    refine ⟨hmC, hmL, hmCat, hmSk, hmJL, hmJS, ?_, ⟨hmckC, hmckL, hmckS, hmckCat⟩, hmImp⟩
    rw [hmJobs]
    refine List.map_congr_left ?_
    intro j hj
    unfold run2Job
    rw [lastGoodFor_append_skip q r _ (Or.inl hbad)]

/-- The re-run batch loop preserves the run-2 invariant. -/
theorem run2_fold (S1 : Store) (t : ℕ) (rows : List Row) (hS1inv : StoreInv S1)
    (hsat : AllSaturated rows S1) (rest q : List Row) (m : MState)
    (hrest : ∀ x ∈ rest, x ∈ rows) (h : Run2Inv S1 q t m) :
    Run2Inv S1 (q ++ rest) t (rest.foldl (fun acc r => (import_job r t acc).2) m) := by
  induction rest generalizing q m with
  | nil =>
    rw [List.append_nil]
    exact h
  | cons r rest ih =>
    rw [List.foldl_cons]
    have hstep := run2_step S1 t q m r hS1inv
      (fun hgr => hsat r (hrest r (List.mem_cons_self r rest)) hgr) h
    have hnext := ih (q ++ [r]) (import_job r t m).2
      (fun x hx => hrest x (List.mem_cons_of_mem _ hx)) hstep
    have hl : q ++ [r] ++ rest = q ++ r :: rest := by simp
    rw [hl] at hnext
    exact hnext

/-- The run-2 invariant holds before the first record: fresh caches and
counters over the saturated store. -/
theorem run2Inv_init (S1 : Store) (t : ℕ) :
    Run2Inv S1 [] t ⟨S1, initCaches, initStats⟩ := by
  refine ⟨rfl, rfl, rfl, rfl, rfl, rfl, ?_, ⟨?_, ?_, ?_, ?_⟩, rfl⟩
  · have hpt : ∀ j ∈ S1.jobs, run2Job S1 [] t j = j := by
      intro j hj
      rfl
    symm
    calc S1.jobs.map (run2Job S1 [] t) = S1.jobs.map id := List.map_congr_left hpt
      _ = S1.jobs := List.map_id _
  · intro p hp
    exact absurd hp (List.not_mem_nil p)
  · intro p hp
    exact absurd hp (List.not_mem_nil p)
  · intro p hp
    exact absurd hp (List.not_mem_nil p)
  · intro p hp
    exact absurd hp (List.not_mem_nil p)

/-! ## Claim C1: idempotent re-run -/

/-- C1, counterexample to the claimed exception set: re-running the
single-record batch `[rowA]` (run 1 at timestamp 1, run 2 at timestamp 2)
leaves the jobs table different even after erasing the two fields the claim
allows to differ (`updated_at`, `last_seen_at`), because the re-run also
refreshes `fetched_at` (the UPDATE's SET list includes `fetched_at = ?`):
job A's `fetched_at` moves from 1 to 2. -/
theorem c1_rerun_counterexample :
    ((migrateRun [rowA] 2 (migrateRun [rowA] 1 emptyStore).store).store.jobs.map
        eraseClaimTimestamps ≠
      (migrateRun [rowA] 1 emptyStore).store.jobs.map eraseClaimTimestamps) ∧
    (migrateRun [rowA] 1 emptyStore).store.jobs.map (·.fetched_at) = [1] ∧
    (migrateRun [rowA] 2 (migrateRun [rowA] 1 emptyStore).store).store.jobs.map
      (·.fetched_at) = [2] := by
  decide

/-- C1 (amended) — Idempotent re-run: for every batch and any two run
timestamps, running the batch a second time against the store left by a
first run from empty produces exactly the same table contents except that
every job row's three run stamps — `updated_at`, `last_seen_at` *and*
`fetched_at` — are refreshed to the second run's timestamp (`reStamp`): in
particular no duplicate Company, Location, Skill, SkillCategory, Job or link
rows are created, and the jobs-imported counter of the second run is 0. -/
theorem c1_idempotent_rerun_amended (rows : List Row) (t1 t2 : ℕ) :
    (migrateRun rows t2 (migrateRun rows t1 emptyStore).store).store =
      reStamp t2 (migrateRun rows t1 emptyStore).store ∧
    (migrateRun rows t2 (migrateRun rows t1 emptyStore).store).stats.jobs_imported = 0 := by
  obtain ⟨hS1eq, hS1inv, hS1char, hS1sat⟩ := migrateRun1_summary rows t1
  set S1 : Store := (migrateRun rows t1 emptyStore).store with hS1def
  have hB2 := run2_fold S1 t2 rows hS1inv hS1sat rows [] ⟨S1, initCaches, initStats⟩
    (fun x hx => hx) (run2Inv_init S1 t2)
  rw [List.nil_append] at hB2
  have hfold : importBatch rows t2 S1 =
      rows.foldl (fun acc r => (import_job r t2 acc).2) ⟨S1, initCaches, initStats⟩ :=
    rfl
  rw [← hfold] at hB2
  obtain ⟨h2C, h2L, h2Cat, h2Sk, h2JL, h2JS, h2Jobs, h2ck, h2Imp⟩ := hB2
  have hjobs : (importBatch rows t2 S1).store.jobs = S1.jobs.map (reStampOne t2) := by
    rw [h2Jobs]
    refine List.map_congr_left ?_
    intro j hj
    obtain ⟨rL, cidL, hlast, hcidL, hfix⟩ := hS1char j hj
    unfold run2Job
    rw [hlast]
    dsimp only
    have hcid : theCid S1 rL = cidL := by
      unfold theCid
      rw [hcidL]
      rfl
    rw [hcid]
    exact upsertFields_restamp rL cidL t1 t2 hfix
  have hclose : ∀ j ∈ (importBatch rows t2 S1).store.jobs, closeStep t2 j = j := by
    intro j hj
    rw [hjobs] at hj
    obtain ⟨j0, hj0, rfl⟩ := List.mem_map.mp hj
    obtain ⟨rL, cidL, hlast, hcidL, hfix⟩ := hS1char j0 hj0
    refine closeStep_of_seen t2 _ ?_ rfl
    show (reStampOne t2 j0).status = JobStatus.open
    rw [hfix]
    rfl
  have hmapid : (importBatch rows t2 S1).store.jobs.map (closeStep t2) =
      (importBatch rows t2 S1).store.jobs :=
    (List.map_congr_left hclose).trans (List.map_id _)
  have hmark : (migrateRun rows t2 S1).store = (importBatch rows t2 S1).store := by
    show (mark_closed_jobs t2 (importBatch rows t2 S1)).store = _
    unfold mark_closed_jobs
    dsimp only
    rw [hmapid]
  refine ⟨?_, ?_⟩
  · rw [hmark]
    refine store_ext ?_ ?_ ?_ ?_ ?_ ?_ ?_
    · exact h2C
    · exact h2L
    · exact h2Cat
    · exact h2Sk
    · exact hjobs
    · exact h2JL
    · exact h2JS
  · show (mark_closed_jobs t2 (importBatch rows t2 S1)).stats.jobs_imported = 0
    unfold mark_closed_jobs
    dsimp only
    exact h2Imp

end MarketAnalyzer
